import Mathlib

/-!
# CInterp lexer: a shallow embedding of `Lexer.h` / `Lexer.cpp`

The input stream is a list of characters, one for each byte of the file (so a file
gives characters below 256 only), the `FILE` handle is the unread part of that list
together with the file position, and
every method of `Lexer` becomes a function that takes the lexer and the handle and
gives back the new ones. `char` is signed, as on the platform the sources are written
for: the byte 0xFF stored in a `char` is `-1`, the value of `EOF`.

Loops carry a fuel argument that every caller sets from the length of the unread
stream; `lex_file_complete` shows that it never runs out. The line and column counters
are natural numbers (no `int` overflow), and assertions are compiled in.

Three things the C++ text leaves open are made explicit:

* `lex_symbol` has no `return` statement on the path that appends a token; the
  value its caller then sees is the field `symbol_result` of `Unspec`;
* automatic `char` arrays without an initialiser start with the content
  `Unspec.stack`;
* a failed `assert`, an access outside an array and `free` of an automatic array
  end the run: the outcome is `stopped`, with the state reached so far.
-/

namespace CInterp

/-! ## Lexer.h -/

def TOKEN_IDENT : Int := 256
def TOKEN_INCREMENT : Int := 257
def TOKEN_DECREMENT : Int := 258
def TOKEN_ADD_EQUALS : Int := 259
def TOKEN_SUB_EQUALS : Int := 260
def TOKEN_DIV_EQUALS : Int := 261
def TOKEN_MUL_EQUALS : Int := 262
def TOKEN_MOD_EQUALS : Int := 263
def TOKEN_GREATER_EQUALS : Int := 264
def TOKEN_LESS_EQUALS : Int := 265
def TOKEN_EQUALS : Int := 266
def TOKEN_NOT_EQUALS : Int := 267
def TOKEN_LOGICAL_OR : Int := 268
def TOKEN_LOGICAL_AND : Int := 269
def TOKEN_BITWISE_OR_EQUALS : Int := 270
def TOKEN_BITWISE_AND_EQUALS : Int := 271
def TOKEN_BITWISE_NOT_EQUALS : Int := 272
def TOKEN_POINTER_MEMBER_DEREF : Int := 273
def TOKEN_INTEGER_LITERAL : Int := 274
def TOKEN_FLOAT_LITERAL : Int := 275
def TOKEN_STRING_LITERAL : Int := 276
def TOKEN_CHARACTER_LITERAL : Int := 277

/-- The table `TOKEN_SYMBOL_TEXT`, indexed by `type - 256`. -/
def TOKEN_SYMBOL_TEXT : List String :=
  ["TOKEN_IDENT", "++", "--", "+=", "-=", "/=", "*=", "%=", ">=", "<=", "==", "!=",
   "||", "&&", "|=", "&=", "~=", "->"]

/-- The struct `Token`. `text` is the character array the `char *` points to, without
its terminating NUL (`[]` before it is assigned, where the source has `NULL`).
`offset` is not a field of the source struct: it records the file position at which
the scanner that built the token was entered, so that statements can relate the
token to the input. No function of the model reads it. -/
structure Token where
  filename : String
  line_number : Nat
  column_number : Nat
  type : Int
  text : List Char
  offset : Nat
  deriving DecidableEq, Repr

/-- The data members of the class `Lexer`. -/
structure Lexer where
  current_filename : String
  current_line : Nat
  current_column : Nat
  tokens : List Token
  deriving DecidableEq, Repr

/-- The constructor `Lexer()`: no filename, line 1, column 1, no tokens. -/
def Lexer.new : Lexer :=
  { current_filename := "", current_line := 1, current_column := 1, tokens := [] }

/-- An input stream opened for reading: the characters not read yet and the
number of characters read so far. -/
structure FILE where
  rest : List Char
  pos : Nat
  deriving DecidableEq, Repr

/-- The result of `fopen` on a file with the given content. -/
def fopen (content : List Char) : FILE := { rest := content, pos := 0 }

/-- The call `fgetc(fp)`: `none` is `EOF`. -/
def fgetc (fp : FILE) : Option Char × FILE :=
  match fp.rest with
  | [] => (none, fp)
  | c :: cs => (some c, { rest := cs, pos := fp.pos + 1 })

/-- The call `ungetc(c, fp)`. -/
def ungetc (c : Char) (fp : FILE) : FILE := { rest := c :: fp.rest, pos := fp.pos - 1 }

/-- What the source text does not determine. -/
structure Unspec where
  symbol_result : Bool
  stack : Nat → Char

/-- Why a run ended without returning. -/
inductive Stop where
  | assertion
  | out_of_bounds
  | invalid_free
  | out_of_fuel
  deriving DecidableEq, Repr

/-- How a call of a scanner ends: it returns a `bool`, or the run stops. -/
inductive Outcome where
  | returned (value : Bool) (lx : Lexer) (fp : FILE)
  | stopped (why : Stop) (lx : Lexer) (fp : FILE)
  deriving DecidableEq, Repr

def Outcome.lexer : Outcome → Lexer
  | .returned _ lx _ => lx
  | .stopped _ lx _ => lx

def Outcome.file : Outcome → FILE
  | .returned _ _ fp => fp
  | .stopped _ _ fp => fp

/-! ## Characters and `<cctype>` in the C locale -/

def NUL : Char := Char.ofNat 0
def NEWLINE : Char := Char.ofNat 10
def DQUOTE : Char := Char.ofNat 34
def QUOTE : Char := Char.ofNat 39
def BACKSLASH : Char := Char.ofNat 92
def LBRACE : Char := Char.ofNat 123
def RBRACE : Char := Char.ofNat 125

/-- The byte 0xFF. Stored in a `char` it is `-1` and compares equal to `EOF`. -/
def EOFBYTE : Char := Char.ofNat 255

def isdigit (c : Char) : Bool := decide (48 ≤ c.toNat ∧ c.toNat ≤ 57)

def isalpha (c : Char) : Bool :=
  decide ((65 ≤ c.toNat ∧ c.toNat ≤ 90) ∨ (97 ≤ c.toNat ∧ c.toNat ≤ 122))

def isalnum (c : Char) : Bool := isalpha c || isdigit c

def isxdigit (c : Char) : Bool :=
  isdigit c || decide ((65 ≤ c.toNat ∧ c.toNat ≤ 70) ∨ (97 ≤ c.toNat ∧ c.toNat ≤ 102))

def isspace (c : Char) : Bool := decide (c.toNat = 32 ∨ (9 ≤ c.toNat ∧ c.toNat ≤ 13))

/-! ## Lexer.cpp -/

/-- The function `make_token_text`: the text becomes a copy of the first `length`
elements of `buffer`, a list as long as the array is declared; a `length` beyond
that makes `memcpy` read outside the array. -/
def make_token_text (target : Token) (buffer : List Char) (length : Nat) : Except Stop Token :=
  if ¬ (length > 0) then .error .assertion
  else if buffer.length < length then .error .out_of_bounds
  else .ok { target with text := buffer.take length }

/-- The function `set_token_symbol_text`. -/
def set_token_symbol_text (token : Token) : Token :=
  if token.type > 256 then
    let index := (token.type - 256).toNat
    { token with text := (TOKEN_SYMBOL_TEXT.getD index "").toList }
  else
    { token with text := [Char.ofNat (token.type % 256).toNat] }

/-- The method `Lexer::next_char`. -/
def next_char (lx : Lexer) (fp : FILE) : Char × Lexer × FILE :=
  match fgetc fp with
  | (none, fp) => (NUL, lx, fp)
  | (some c, fp) =>
    -- `char c = fgetc(fp); if (c == EOF) return '\0';` the byte 0xFF has been read
    -- and is taken for the end of the stream
    if c = EOFBYTE then (NUL, lx, fp)
    else if c = NEWLINE then
      (c, { lx with current_column := 1, current_line := lx.current_line + 1 }, fp)
    else
      -- also for a NUL byte in the file, which the caller cannot tell from the
      -- end-of-stream sentinel
      (c, { lx with current_column := lx.current_column + 1 }, fp)

/-- The method `Lexer::peek_char`. The call of `ungetc` stands inside an `assert`; one
character of push-back always succeeds. When `next_char` returns the sentinel for a
byte it has read, a NUL byte or the byte 0xFF, nothing is pushed back and the position
is not restored. -/
def peek_char (lx : Lexer) (fp : FILE) : Char × Lexer × FILE :=
  let prev_line := lx.current_line
  let prev_col := lx.current_column
  match next_char lx fp with
  | (c, lx, fp) =>
    if c ≠ NUL then
      (c, { lx with current_line := prev_line, current_column := prev_col }, ungetc c fp)
    else
      (c, lx, fp)

/-- The loop of `Lexer::discard_line`; `none` when the fuel runs out. -/
def discard_line_loop (start_line : Nat) : Nat → Lexer → FILE → Option (Lexer × FILE)
  | 0, _, _ => none
  | fuel + 1, lx, fp =>
    if lx.current_line = start_line then
      match next_char lx fp with
      | (c, lx, fp) =>
        if c = NUL then some (lx, fp)
        else discard_line_loop start_line fuel lx fp
    else some (lx, fp)

/-- The method `Lexer::discard_line`. -/
def discard_line (lx : Lexer) (fp : FILE) : Option (Lexer × FILE) :=
  discard_line_loop lx.current_line (fp.rest.length + 1) lx fp

/-- A local `Token` after the assignments every scanner starts with. -/
def start_token (lx : Lexer) (fp : FILE) : Token :=
  { filename := lx.current_filename, line_number := lx.current_line,
    column_number := lx.current_column, type := -1, text := [], offset := fp.pos }

/-- The statement `tokens.push_back(token)`. -/
def push_back (lx : Lexer) (token : Token) : Lexer :=
  { lx with tokens := lx.tokens ++ [token] }

/-- An automatic `char` array of the given size without initialiser. -/
def uninitialised (u : Unspec) (size : Nat) : List Char := (List.range size).map u.stack

/-- The `while` loop of `Lexer::lex_identifier` and the statements after it. -/
def lex_identifier_loop (token : Token) :
    Nat → Char → List Char → Nat → Lexer → FILE → Outcome
  | 0, _, _, _, lx, fp => .stopped .out_of_fuel lx fp
  | fuel + 1, cur, buf, i, lx, fp =>
    if cur ≠ NUL ∧ isalnum cur then
      if ¬ (i < 256) then .returned false lx fp
      else
        match next_char lx fp with
        | (_, lx, fp) =>
          match peek_char lx fp with
          | (cur1, lx, fp) => lex_identifier_loop token fuel cur1 (buf.set i cur) (i + 1) lx fp
    else
      match make_token_text token buf i with
      | .error e => .stopped e lx fp
      | .ok token => .returned true (push_back lx token) fp

/-- The method `Lexer::lex_identifier`. -/
def lex_identifier (u : Unspec) (lx : Lexer) (fp : FILE) : Outcome :=
  let token := { start_token lx fp with type := TOKEN_IDENT }
  match peek_char lx fp with
  | (cur, lx, fp) =>
    lex_identifier_loop token (fp.rest.length + 1) cur (uninitialised u 256) 0 lx fp

/-- The statements of `Lexer::lex_number` after its loop. -/
def lex_number_end (token : Token) (buf : List Char) (i : Nat) (has_decimal_point : Bool)
    (lx : Lexer) (fp : FILE) : Outcome :=
  match make_token_text
      { token with type := if has_decimal_point then TOKEN_FLOAT_LITERAL
                           else TOKEN_INTEGER_LITERAL } buf i with
  | .error e => .stopped e lx fp
  | .ok token => .returned true (push_back lx token) fp

/-- The test `(cur >= 'a' && cur <= 'f') || (cur >= 'A' && cur <= 'F')`. -/
def hex_letter (cur : Char) : Bool :=
  decide ((97 ≤ cur.toNat ∧ cur.toNat ≤ 102) ∨ (65 ≤ cur.toNat ∧ cur.toNat ≤ 70))

/-- The `while` loop of `Lexer::lex_number`, followed by `lex_number_end`. -/
def lex_number_loop (token : Token) :
    Nat → Char → List Char → Nat → Bool → Bool → Lexer → FILE → Outcome
  | 0, _, _, _, _, _, lx, fp => .stopped .out_of_fuel lx fp
  | fuel + 1, cur, buf, i, is_hex, has_decimal_point, lx, fp =>
    if cur ≠ NUL then
      if ¬ (i < 256) then .returned false lx fp
      else if ¬ (isxdigit cur ∨ cur = '.' ∨ cur = 'x' ∨ cur = 'X') then
        -- break
        lex_number_end token buf i has_decimal_point lx fp
      else
        match next_char lx fp with
        | (_, lx, fp) =>
          -- if (cur == '.') ...
          if cur = '.' ∧ has_decimal_point then .returned false lx fp
          else
            let has_decimal_point := has_decimal_point || decide (cur = '.')
            -- if (cur == 'x' || cur == 'X') ...
            if (cur = 'x' ∨ cur = 'X') ∧ has_decimal_point then .returned false lx fp
            else if (cur = 'x' ∨ cur = 'X') ∧ (i ≠ 1 ∨ buf.getD 0 NUL ≠ '0') then
              .returned false lx fp
            else
              let is_hex := is_hex || decide (cur = 'x' ∨ cur = 'X')
              -- if ((cur >= 'a' && cur <= 'f') || (cur >= 'A' && cur <= 'F')) ...
              if hex_letter cur ∧ has_decimal_point ∧ ¬ (cur = 'f' ∨ cur = 'F') then
                .returned false lx fp
              else if hex_letter cur ∧ ¬ has_decimal_point ∧ ¬ is_hex then
                .returned false lx fp
              else
                match peek_char lx fp with
                | (cur1, lx, fp) =>
                  lex_number_loop token fuel cur1 (buf.set i cur) (i + 1) is_hex
                    has_decimal_point lx fp
    else
      lex_number_end token buf i has_decimal_point lx fp

/-- The method `Lexer::lex_number`; the array is declared `char buf[256] = {0}`. -/
def lex_number (lx : Lexer) (fp : FILE) : Outcome :=
  let token := start_token lx fp
  match peek_char lx fp with
  | (cur, lx, fp) =>
    lex_number_loop token (fp.rest.length + 1) cur (List.replicate 256 NUL) 0 false false lx fp

/-- The `for` loop of `Lexer::lex_char_literal`; `steps` is `4 - i`, the number of
iterations left before the condition `i < 4` fails. Gives the final `i`, the array
and the state. -/
def lex_char_literal_loop :
    Nat → Nat → List Char → Lexer → FILE → Nat × List Char × Lexer × FILE
  | 0, i, buf, lx, fp => (i, buf, lx, fp)
  | steps + 1, i, buf, lx, fp =>
    match next_char lx fp with
    | (c, lx, fp) =>
      if c = QUOTE ∧ i > 0 then (i, buf.set i c, lx, fp)
      else lex_char_literal_loop steps (i + 1) (buf.set i c) lx fp

/-- The method `Lexer::lex_char_literal`; the array is `char buf[4]`. -/
def lex_char_literal (u : Unspec) (lx : Lexer) (fp : FILE) : Outcome :=
  let token := { start_token lx fp with type := TOKEN_CHARACTER_LITERAL }
  match lex_char_literal_loop 4 0 (uninitialised u 4) lx fp with
  | (i, buf, lx, fp) =>
    -- the test reads buf[i]
    if ¬ (i < 4) then .stopped .out_of_bounds lx fp
    else if buf.getD i NUL ≠ QUOTE ∨ (i = 3 ∧ buf.getD 1 NUL ≠ BACKSLASH) then
      .returned false lx fp
    else
      match make_token_text token buf (i + 1) with
      | .error e => .stopped e lx fp
      | .ok token => .returned true (push_back lx token) fp

/-- The `while` loop of `Lexer::lex_string_literal` and the statements after it;
the array is `char buf[2048]`. -/
def lex_string_literal_loop (token : Token) :
    Nat → Char → List Char → Nat → Lexer → FILE → Outcome
  | 0, _, _, _, lx, fp => .stopped .out_of_fuel lx fp
  | fuel + 1, cur, buf, i, lx, fp =>
    if cur ≠ NUL then
      if ¬ (i < 2048) then
        -- free(buf) on the automatic array
        .stopped .invalid_free lx fp
      else if i > 0 ∧ cur = DQUOTE then
        -- break, with buf[i] = cur done
        match make_token_text token (buf.set i cur) (i + 1) with
        | .error e => .stopped e lx fp
        | .ok token => .returned true (push_back lx token) fp
      else if cur = BACKSLASH then
        match next_char lx fp with
        | (esc, lx, fp) =>
          -- i++; buf[i] = next_char(fp);
          if ¬ (i + 1 < 2048) then .stopped .out_of_bounds lx fp
          else
            match next_char lx fp with
            | (cur1, lx, fp) =>
              lex_string_literal_loop token fuel cur1 ((buf.set i cur).set (i + 1) esc)
                (i + 2) lx fp
      else
        match next_char lx fp with
        | (cur1, lx, fp) =>
          lex_string_literal_loop token fuel cur1 (buf.set i cur) (i + 1) lx fp
    else
      match make_token_text token buf (i + 1) with
      | .error e => .stopped e lx fp
      | .ok token => .returned true (push_back lx token) fp

/-- The method `Lexer::lex_string_literal`. -/
def lex_string_literal (u : Unspec) (lx : Lexer) (fp : FILE) : Outcome :=
  let token := { start_token lx fp with type := TOKEN_STRING_LITERAL }
  match next_char lx fp with
  | (cur, lx, fp) =>
    lex_string_literal_loop token (fp.rest.length + 2) cur (uninitialised u 2048) 0 lx fp

/-- The end of `Lexer::lex_symbol`, reached from every `break`: the sanity
assertion, the text, `push_back`, and the closing brace without a `return`. -/
def lex_symbol_end (u : Unspec) (token : Token) (lx : Lexer) (fp : FILE) : Outcome :=
  if ¬ (token.type > 0) then .stopped .assertion lx fp
  else .returned u.symbol_result (push_back lx (set_token_symbol_text token)) fp

/-- A `case` of the form `if (peek_char(fp) == c1) { token.type = t1; next_char(fp); }
else { token.type = cur; }`. -/
def lex_symbol_one (u : Unspec) (token : Token) (cur c1 : Char) (t1 : Int)
    (lx : Lexer) (fp : FILE) : Outcome :=
  match peek_char lx fp with
  | (p, lx, fp) =>
    if p = c1 then
      match next_char lx fp with
      | (_, lx, fp) => lex_symbol_end u { token with type := t1 } lx fp
    else lex_symbol_end u { token with type := cur.toNat } lx fp

/-- A `case` of the form `if (peek_char(fp) == c1) { token.type = t1; next_char(fp); }
else if (peek_char(fp) == c2) { token.type = t2; next_char(fp); }
else { token.type = cur; }`. -/
def lex_symbol_two (u : Unspec) (token : Token) (cur c1 : Char) (t1 : Int) (c2 : Char)
    (t2 : Int) (lx : Lexer) (fp : FILE) : Outcome :=
  match peek_char lx fp with
  | (p, lx, fp) =>
    if p = c1 then
      match next_char lx fp with
      | (_, lx, fp) => lex_symbol_end u { token with type := t1 } lx fp
    else lex_symbol_one u token cur c2 t2 lx fp

/-- The `case '-'` of the `switch` in `Lexer::lex_symbol`. -/
def lex_symbol_minus (u : Unspec) (token : Token) (cur : Char) (lx : Lexer) (fp : FILE) :
    Outcome :=
  match peek_char lx fp with
  | (p, lx, fp) =>
    if p = '-' then
      match next_char lx fp with
      | (_, lx, fp) => lex_symbol_end u { token with type := TOKEN_DECREMENT } lx fp
    else
      match peek_char lx fp with
      | (p, lx, fp) =>
        if p = '=' then
          -- token.type == TOKEN_SUB_EQUALS; a comparison, the type stays as it was
          match next_char lx fp with
          | (_, lx, fp) => lex_symbol_end u token lx fp
        else
          lex_symbol_one u token cur '>' TOKEN_POINTER_MEMBER_DEREF lx fp

/-- The `case '/'` of the `switch` in `Lexer::lex_symbol`. -/
def lex_symbol_slash (u : Unspec) (token : Token) (cur : Char) (lx : Lexer) (fp : FILE) :
    Outcome :=
  match peek_char lx fp with
  | (p, lx, fp) =>
    if p = '/' then
      match discard_line lx fp with
      | none => .stopped .out_of_fuel lx fp
      | some (lx, fp) => .returned true lx fp
    else lex_symbol_one u token cur '=' TOKEN_DIV_EQUALS lx fp

/-- The `switch (cur)` of `Lexer::lex_symbol` with the statements after it. -/
def lex_symbol_switch (u : Unspec) (token : Token) (cur : Char) (lx : Lexer) (fp : FILE) :
    Outcome :=
  if cur = '+' then
    lex_symbol_two u token cur '+' TOKEN_INCREMENT '=' TOKEN_ADD_EQUALS lx fp
  else if cur = '-' then lex_symbol_minus u token cur lx fp
  else if cur = '/' then lex_symbol_slash u token cur lx fp
  else if cur = '*' then lex_symbol_one u token cur '=' TOKEN_MUL_EQUALS lx fp
  else if cur = '%' then lex_symbol_one u token cur '=' TOKEN_MOD_EQUALS lx fp
  else if cur = '(' ∨ cur = ')' ∨ cur = LBRACE ∨ cur = RBRACE ∨ cur = '[' ∨ cur = ']' then
    lex_symbol_end u { token with type := cur.toNat } lx fp
  else if cur = '>' then lex_symbol_one u token cur '=' TOKEN_GREATER_EQUALS lx fp
  else if cur = '<' then lex_symbol_one u token cur '=' TOKEN_LESS_EQUALS lx fp
  else if cur = '=' then lex_symbol_one u token cur '=' TOKEN_EQUALS lx fp
  else if cur = '!' then lex_symbol_one u token cur '=' TOKEN_NOT_EQUALS lx fp
  else if cur = '|' then
    lex_symbol_two u token cur '|' TOKEN_LOGICAL_OR '=' TOKEN_BITWISE_OR_EQUALS lx fp
  else if cur = '&' then
    lex_symbol_two u token cur '&' TOKEN_LOGICAL_AND '=' TOKEN_BITWISE_AND_EQUALS lx fp
  else if cur = '~' then lex_symbol_one u token cur '=' TOKEN_NOT_EQUALS lx fp
  else if cur = '.' then lex_symbol_end u { token with type := cur.toNat } lx fp
  else if cur = ';' then lex_symbol_end u { token with type := cur.toNat } lx fp
  else
    -- default: the error is reported, then `break`
    lex_symbol_end u token lx fp

/-- The method `Lexer::lex_symbol`. -/
def lex_symbol (u : Unspec) (lx : Lexer) (fp : FILE) : Outcome :=
  let token := start_token lx fp
  match next_char lx fp with
  | (cur, lx, fp) => lex_symbol_switch u token cur lx fp

/-- The whitespace loop at the head of the driver loop of `Lexer::lex_file`. -/
def skip_space : Nat → Char → Lexer → FILE → Option (Char × Lexer × FILE)
  | 0, _, _, _ => none
  | fuel + 1, cur, lx, fp =>
    if cur ≠ NUL ∧ isspace cur then
      match next_char lx fp with
      | (_, lx, fp) =>
        match peek_char lx fp with
        | (cur1, lx, fp) => skip_space fuel cur1 lx fp
    else some (cur, lx, fp)

/-- The driver loop `while (true)` of `Lexer::lex_file`. The branch
`else if (cur == '\0') assert(0)` comes after the `break` on `!cur` and is never
taken. -/
def lex_file_loop (u : Unspec) : Nat → Lexer → FILE → Outcome
  | 0, lx, fp => .stopped .out_of_fuel lx fp
  | fuel + 1, lx, fp =>
    match peek_char lx fp with
    | (cur, lx, fp) =>
      match skip_space (fp.rest.length + 1) cur lx fp with
      | none => .stopped .out_of_fuel lx fp
      | some (cur, lx, fp) =>
        if cur = NUL then .returned true lx fp
        else
          let r :=
            if isalpha cur then lex_identifier u lx fp
            else if isdigit cur then lex_number lx fp
            else if cur = QUOTE then lex_char_literal u lx fp
            else if cur = DQUOTE then lex_string_literal u lx fp
            else lex_symbol u lx fp
          match r with
          | .returned true lx fp => lex_file_loop u fuel lx fp
          | .returned false lx fp => .returned false lx fp
          | .stopped e lx fp => .stopped e lx fp

/-- The method `Lexer::lex_file`, on a file that opens and has the given content. -/
def lex_file (u : Unspec) (lx : Lexer) (filename : String) (content : List Char) : Outcome :=
  let fp := fopen content
  lex_file_loop u (content.length + 1) { lx with current_filename := filename } fp

/-! ## Definitions used in the statements -/

/-- The position update of `next_char` for a character that was read. -/
def bump (c : Char) (lx : Lexer) : Lexer :=
  if c = NEWLINE then { lx with current_column := 1, current_line := lx.current_line + 1 }
  else { lx with current_column := lx.current_column + 1 }

/-- The fifteen two-character spellings with the kind the operator table gives them. -/
def two_char_operators : List (Char × Char × Int) :=
  [('+', '+', TOKEN_INCREMENT), ('+', '=', TOKEN_ADD_EQUALS), ('-', '-', TOKEN_DECREMENT),
   ('-', '>', TOKEN_POINTER_MEMBER_DEREF), ('/', '=', TOKEN_DIV_EQUALS),
   ('*', '=', TOKEN_MUL_EQUALS), ('%', '=', TOKEN_MOD_EQUALS),
   ('>', '=', TOKEN_GREATER_EQUALS), ('<', '=', TOKEN_LESS_EQUALS), ('=', '=', TOKEN_EQUALS),
   ('!', '=', TOKEN_NOT_EQUALS), ('|', '|', TOKEN_LOGICAL_OR),
   ('|', '=', TOKEN_BITWISE_OR_EQUALS), ('&', '&', TOKEN_LOGICAL_AND),
   ('&', '=', TOKEN_BITWISE_AND_EQUALS)]

/-- The token a scanner entered in state `lx` at file position `pos` appends. -/
def token_at (lx : Lexer) (pos : Nat) (type : Int) (text : List Char) : Token :=
  { filename := lx.current_filename, line_number := lx.current_line,
    column_number := lx.current_column, type := type, text := text, offset := pos }

/-- The lexer after `n` characters of one line were read and `token` was appended. -/
def after_token (lx : Lexer) (n : Nat) (token : Token) : Lexer :=
  { lx with current_column := lx.current_column + n, tokens := lx.tokens ++ [token] }

/-- The lexer after `n` characters of one line were read. -/
def advance (lx : Lexer) (n : Nat) : Lexer :=
  { lx with current_column := lx.current_column + n }

/-- The characters a numeric literal is made of: hex digits, `.`, `x` and `X`. -/
def is_numeric (c : Char) : Bool := isxdigit c || c == '.' || c == 'x' || c == 'X'

/-- The kind `lex_number` gives its token. -/
def number_kind (has_decimal_point : Bool) : Int :=
  if has_decimal_point then TOKEN_FLOAT_LITERAL else TOKEN_INTEGER_LITERAL

/-- One plus the number of newline characters among the first `k` characters of the
input. -/
def line_of (inp : List Char) (k : Nat) : Nat := 1 + (inp.take k).count NEWLINE

/-- One plus the number of characters between the last newline among the first `k`
characters of the input (or the start of the input) and position `k`. -/
def column_of (inp : List Char) (k : Nat) : Nat :=
  1 + ((inp.take k).reverse.takeWhile (fun c => c != NEWLINE)).length

/-- The token starts at a character of the input and carries the line and the column
of that character. -/
def Placed (inp : List Char) (t : Token) : Prop :=
  t.offset < inp.length ∧ t.line_number = line_of inp t.offset ∧
    t.column_number = column_of inp t.offset

/-- The state of a run over the input `inp`, an input without the byte 0xFF: the
handle holds what is left of `inp` after `pos` characters, the cursor of the lexer is
the line and column of position `pos`, and every token appended so far is placed. -/
def Tracks (inp : List Char) (lx : Lexer) (fp : FILE) : Prop :=
  EOFBYTE ∉ inp ∧ fp.rest = inp.drop fp.pos ∧ lx.current_line = line_of inp fp.pos ∧
    lx.current_column = column_of inp fp.pos ∧ ∀ t ∈ lx.tokens, Placed inp t

/-- The invariant `Tracks` for the state an outcome carries. -/
def Outcome.Tracks (inp : List Char) (o : Outcome) : Prop := CInterp.Tracks inp o.lexer o.file

/-- The run did not end because the fuel of the model ran out. -/
def Outcome.complete : Outcome → Bool
  | .stopped .out_of_fuel _ _ => false
  | _ => true

/-- The outcome is complete and leaves at most `n` characters unread. -/
def Outcome.Within (n : Nat) (o : Outcome) : Prop :=
  o.complete = true ∧ o.file.rest.length ≤ n

/-- What a scanner entered at file position `p`, with `c` the next character, does to
the token list: nothing, or it appends one token that is recorded at `p` and whose
text starts with `c`; the one exception is the text `!=` that `lex_symbol` gives the
spelling `~=`. -/
def Outcome.Adds (c : Char) (p : Nat) (lx : Lexer) (o : Outcome) : Prop :=
  o.lexer.tokens = lx.tokens ∨
    ∃ t, o.lexer.tokens = lx.tokens ++ [t] ∧ t.offset = p ∧
      (t.text.head? = some c ∨ (c = '~' ∧ t.text = ['!', '=']))

/-- The text `set_token_symbol_text` gives a token of the given type. -/
def symbol_text (type : Int) : List Char :=
  if type > 256 then (TOKEN_SYMBOL_TEXT.getD (type - 256).toNat "").toList
  else [Char.ofNat (type % 256).toNat]

/-- The text of a symbol token of type `ty` starts with `c`, or it is the text `!=`
for the spelling `~=`. -/
def SymbolText (c : Char) (ty : Int) : Prop :=
  (symbol_text ty).head? = some c ∨ (c = '~' ∧ symbol_text ty = ['!', '='])

instance (c : Char) (ty : Int) : Decidable (SymbolText c ty) := by
  unfold SymbolText; infer_instance

/-- What a part of `lex_symbol` does to the token list: nothing, or it appends the
local token with a type whose text fits the first character `c`. -/
def Outcome.AddsSymbol (c : Char) (lx0 : Lexer) (token : Token) (o : Outcome) : Prop :=
  o.lexer.tokens = lx0.tokens ∨
    ∃ ty, SymbolText c ty ∧
      o.lexer.tokens = lx0.tokens ++ [set_token_symbol_text { token with type := ty }]

/-- The token is recorded at a position of the input where its text starts: the
character there is the first character of the text (for the spelling `~=` the text
is `!=`). -/
def Starts (inp : List Char) (t : Token) : Prop :=
  ∃ c, inp[t.offset]? = some c ∧
    (t.text.head? = some c ∨ (c = '~' ∧ t.text = ['!', '=']))

/-- The input of two newlines followed by `foo`. -/
def foo_input : List Char := [NEWLINE, NEWLINE, 'f', 'o', 'o']

/-- The identifier token `foo` of the file `f`, at position 2, line 3, column 1. -/
def foo_token : Token :=
  { filename := "f", line_number := 3, column_number := 1, type := TOKEN_IDENT,
    text := ['f', 'o', 'o'], offset := 2 }

/-- The lexer after the characters of `s` were read one after the other. -/
def read_over (lx : Lexer) (s : List Char) : Lexer := s.foldl (fun l c => bump c l) lx

/-- The whitespace characters: space, tab, newline, vertical tab, form feed and
carriage return. -/
def whitespace_chars : List Char :=
  [' ', Char.ofNat 9, NEWLINE, Char.ofNat 11, Char.ofNat 12, Char.ofNat 13]

/-- The characters that have a `case` in the `switch` of `Lexer::lex_symbol`. -/
def symbol_leads : List Char :=
  ['+', '-', '/', '*', '%', '(', ')', LBRACE, RBRACE, '[', ']', '>', '<', '=', '!', '|',
   '&', '~', '.', ';']

/-- Values for what the C++ standard leaves open, used for runs on single inputs:
`lex_symbol` is read as `true`, uninitialised bytes are `x`. -/
def some_unspec : Unspec := { symbol_result := true, stack := fun _ => 'x' }

/-- One element of the body of a string literal that holds no byte 0xFF: a character
other than the double quote, the backslash, NUL and the byte 0xFF, or a backslash
followed by one character other than the byte 0xFF. -/
def body_item (item : List Char) : Bool :=
  match item with
  | [c] => c != DQUOTE && c != BACKSLASH && c != NUL && c != EOFBYTE
  | [b, e] => b == BACKSLASH && e != EOFBYTE
  | _ => false

/-- The literal with the given body elements between two double quotes. -/
def string_literal (items : List (List Char)) : List Char :=
  DQUOTE :: (items.flatten ++ [DQUOTE])

/-- The array after the characters of `s` were stored from index `i` on. -/
def write_at (buf : List Char) (i : Nat) : List Char → List Char
  | [] => buf
  | c :: cs => write_at (buf.set i c) (i + 1) cs

/-- The statement `cur = next_char(fp);` followed by the `while` loop of
`Lexer::lex_string_literal`: the loop as it is entered and as every pass of its body
re-enters it. -/
def lex_string_literal_from (token : Token) (fuel : Nat) (buf : List Char) (i : Nat)
    (lx : Lexer) (fp : FILE) : Outcome :=
  match next_char lx fp with
  | (cur, lx, fp) => lex_string_literal_loop token fuel cur buf i lx fp

/-- The texts of well-formed integer literals: a non-empty run of decimal digits, or
`0x` or `0X` followed by hexadecimal digits. -/
def integer_text (text : List Char) : Bool :=
  (!text.isEmpty && text.all isdigit) ||
  (match text with
   | z :: x :: ds => z == '0' && (x == 'x' || x == 'X') && ds.all isxdigit
   | _ => false)

/-- What the loop of `lex_number` has stored as long as no `.` was read: decimal
digits only and `is_hex` not set, or `0x` or `0X` followed by hexadecimal digits. -/
def NumberPrefix (text : List Char) (is_hex : Bool) : Prop :=
  (is_hex = false ∧ text.all isdigit = true) ∨
  (∃ x ds, text = '0' :: x :: ds ∧ (x = 'x' ∨ x = 'X') ∧ ds.all isxdigit = true)

/-- What `lex_number` does to the token list: nothing, or it appends one token, and
if that is an integer literal, its text is well-formed. -/
def Outcome.AddsNumber (lx : Lexer) (o : Outcome) : Prop :=
  o.lexer.tokens = lx.tokens ∨
    ∃ t, o.lexer.tokens = lx.tokens ++ [t] ∧
      (t.type = TOKEN_INTEGER_LITERAL → integer_text t.text = true)

/-- The token one line further down and `k` characters further into the file. -/
def Token.shifted (k : Nat) (t : Token) : Token :=
  { t with line_number := t.line_number + 1, offset := t.offset + k }

/-- The lexer one line further down, with its tokens shifted as well. -/
def Lexer.shifted (k : Nat) (lx : Lexer) : Lexer :=
  { lx with current_line := lx.current_line + 1, tokens := lx.tokens.map (Token.shifted k) }

/-- The stream with `k` more characters read before it. -/
def FILE.shifted (k : Nat) (fp : FILE) : FILE := { fp with pos := fp.pos + k }

/-- The same outcome one line further down and `k` characters further into the file:
the same return value or stop, the same unread characters, the same column, and
tokens with the same kind, text, column and file name. -/
def Outcome.shifted (k : Nat) : Outcome → Outcome
  | .returned b lx fp => .returned b (lx.shifted k) (fp.shifted k)
  | .stopped e lx fp => .stopped e (lx.shifted k) (fp.shifted k)

/-- What a token list shows of kind, text, column and line. -/
def token_view (ts : List Token) : List (Int × List Char × Nat × Nat) :=
  ts.map fun t => (t.type, t.text, t.column_number, t.line_number)

/-- The value a run returns, if it returns. -/
def Outcome.result : Outcome → Option Bool
  | .returned b _ _ => some b
  | .stopped _ _ _ => none

/-- The texts of the tokens with a single space between adjacent tokens. -/
def joined_texts (ts : List Token) : List Char :=
  List.intercalate [' '] (ts.map Token.text)

/-- The kind and the text of every token. -/
def kinds_and_texts (ts : List Token) : List (Int × List Char) :=
  ts.map fun t => (t.type, t.text)

/-- The run of 256 digits `1`. -/
def ones : List Char := List.replicate 256 '1'

/-! ## The character cursor -/

theorem next_char_nil (lx : Lexer) (p : Nat) :
    next_char lx ⟨[], p⟩ = (NUL, lx, ⟨[], p⟩) := rfl

/-- The byte 0xFF is read and taken for the end of the stream. -/
theorem next_char_eof (lx : Lexer) (cs : List Char) (p : Nat) :
    next_char lx ⟨EOFBYTE :: cs, p⟩ = (NUL, lx, ⟨cs, p + 1⟩) := by
  simp only [next_char, fgetc, if_true]

theorem next_char_cons (lx : Lexer) (c : Char) (cs : List Char) (p : Nat)
    (h : c ≠ EOFBYTE) :
    next_char lx ⟨c :: cs, p⟩ = (c, bump c lx, ⟨cs, p + 1⟩) := by
  simp only [next_char, fgetc, bump, h, if_false]
  split <;> rfl

theorem next_char_cons_if (lx : Lexer) (c : Char) (cs : List Char) (p : Nat) :
    next_char lx ⟨c :: cs, p⟩ =
      if c = EOFBYTE then (NUL, lx, ⟨cs, p + 1⟩) else (c, bump c lx, ⟨cs, p + 1⟩) := by
  split
  · next h => subst h; exact next_char_eof lx cs p
  · next h => exact next_char_cons lx c cs p h

theorem nul_ne_eof : NUL ≠ EOFBYTE := by decide

theorem peek_char_nil (lx : Lexer) (p : Nat) :
    peek_char lx ⟨[], p⟩ = (NUL, lx, ⟨[], p⟩) := rfl

theorem peek_char_cons (lx : Lexer) (c : Char) (cs : List Char) (p : Nat) (h : c ≠ NUL)
    (h2 : c ≠ EOFBYTE) :
    peek_char lx ⟨c :: cs, p⟩ = (c, lx, ⟨c :: cs, p⟩) := by
  simp only [peek_char, next_char_cons _ _ _ _ h2, h, ne_eq, not_false_eq_true, if_true,
    ungetc, bump]
  split <;> simp

theorem peek_char_nul (lx : Lexer) (cs : List Char) (p : Nat) :
    peek_char lx ⟨NUL :: cs, p⟩ = (NUL, bump NUL lx, ⟨cs, p + 1⟩) := by
  simp [peek_char, next_char_cons _ _ _ _ nul_ne_eof]

/-- The look-ahead at the byte 0xFF: the byte is read and not pushed back. -/
theorem peek_char_eof (lx : Lexer) (cs : List Char) (p : Nat) :
    peek_char lx ⟨EOFBYTE :: cs, p⟩ = (NUL, lx, ⟨cs, p + 1⟩) := by
  simp [peek_char, next_char_eof]

theorem peek_char_cons_if (lx : Lexer) (c : Char) (cs : List Char) (p : Nat) :
    peek_char lx ⟨c :: cs, p⟩ =
      if c = NUL then (NUL, bump NUL lx, ⟨cs, p + 1⟩)
      else if c = EOFBYTE then (NUL, lx, ⟨cs, p + 1⟩)
      else (c, lx, ⟨c :: cs, p⟩) := by
  split
  · next h => subst h; exact peek_char_nul lx cs p
  · next h =>
    split
    · next h2 => subst h2; exact peek_char_eof lx cs p
    · next h2 => exact peek_char_cons lx c cs p h h2

theorem peek_char_head {lx : Lexer} {fp : FILE} {c : Char} {lx1 : Lexer} {fp1 : FILE}
    (e : peek_char lx fp = (c, lx1, fp1)) (hc : c ≠ NUL) : fp1.rest.head? = some c := by
  obtain ⟨s, p⟩ := fp
  cases s with
  | nil =>
    rw [peek_char_nil] at e
    simp only [Prod.mk.injEq] at e
    exact absurd e.1.symm hc
  | cons a as =>
    rw [peek_char_cons_if] at e
    split_ifs at e with e1 e2
    · simp only [Prod.mk.injEq] at e
      exact absurd e.1.symm hc
    · simp only [Prod.mk.injEq] at e
      exact absurd e.1.symm hc
    · simp only [Prod.mk.injEq] at e
      obtain ⟨rfl, _, rfl⟩ := e
      rfl

/-- A character `peek_char` returns is not the byte 0xFF. -/
theorem peek_char_ne_eof {lx : Lexer} {fp : FILE} {c : Char} {lx1 : Lexer} {fp1 : FILE}
    (e : peek_char lx fp = (c, lx1, fp1)) : c ≠ EOFBYTE := by
  obtain ⟨s, p⟩ := fp
  cases s with
  | nil =>
    rw [peek_char_nil] at e
    simp only [Prod.mk.injEq] at e
    rw [← e.1]
    exact nul_ne_eof
  | cons a as =>
    rw [peek_char_cons_if] at e
    split_ifs at e with e1 e2
    · simp only [Prod.mk.injEq] at e
      rw [← e.1]
      exact nul_ne_eof
    · simp only [Prod.mk.injEq] at e
      rw [← e.1]
      exact nul_ne_eof
    · simp only [Prod.mk.injEq] at e
      rw [← e.1]
      exact e2

theorem isalnum_ne_eof {c : Char} (h : isalnum c = true) : c ≠ EOFBYTE := by
  rintro rfl; revert h; decide

theorem isalnum_ne_nul {c : Char} (h : isalnum c = true) : c ≠ NUL := by
  rintro rfl; revert h; decide

theorem isalnum_ne_newline {c : Char} (h : isalnum c = true) : c ≠ NEWLINE := by
  rintro rfl; revert h; decide

theorem bump_of_ne_newline {c : Char} (h : c ≠ NEWLINE) (lx : Lexer) :
    bump c lx = advance lx 1 := by
  simp [bump, h, advance]

theorem advance_advance (lx : Lexer) (m n : Nat) :
    advance (advance lx m) n = advance lx (m + n) := by
  simp [advance, Nat.add_assoc]

theorem take_set_succ (buf : List Char) (i : Nat) (c : Char) (h : i < buf.length) :
    (buf.set i c).take (i + 1) = buf.take i ++ [c] := by
  induction buf generalizing i with
  | nil => simp at h
  | cons b bs ih =>
    cases i with
    | zero => simp
    | succ j =>
      simp only [List.length_cons, Nat.add_lt_add_iff_right] at h
      simp [List.set, ih j h]

/-- The character `peek_char` returns is the head of the unread stream, or the
sentinel. -/
theorem peek_char_fst (lx : Lexer) (s : List Char) (p : Nat) :
    (peek_char lx ⟨s, p⟩).1 = NUL ∨ s.head? = some (peek_char lx ⟨s, p⟩).1 := by
  cases s with
  | nil => left; rfl
  | cons c cs =>
    rw [peek_char_cons_if]
    split
    · left; rfl
    · split
      · left; rfl
      · right; rfl

theorem peek_char_tokens (lx : Lexer) (fp : FILE) :
    (peek_char lx fp).2.1.tokens = lx.tokens := by
  obtain ⟨s, p⟩ := fp
  cases s with
  | nil => rfl
  | cons c cs =>
    rw [peek_char_cons_if]
    split
    · simp [bump]; split <;> rfl
    · split <;> rfl

/-- Leaving the loop of `lex_identifier`. -/
theorem lex_identifier_loop_exit (token : Token) (fuel : Nat) (cur : Char) (buf : List Char)
    (i : Nat) (lx : Lexer) (fp : FILE) (hcur : cur = NUL ∨ isalnum cur = false)
    (hi : 0 < i) (hlen : i ≤ buf.length) :
    lex_identifier_loop token (fuel + 1) cur buf i lx fp =
      .returned true (push_back lx { token with text := buf.take i }) fp := by
  have h1 : ¬ (cur ≠ NUL ∧ isalnum cur = true) := by
    rcases hcur with h | h
    · simp [h]
    · simp [h]
  have h2 : ¬ (buf.length < i) := by omega
  have h3 : ¬ (i = 0) := by omega
  simp [lex_identifier_loop, h1, make_token_text, h2, h3]

/-- The loop of `lex_identifier` on a run of alphanumeric characters that fits in
the array. -/
theorem lex_identifier_loop_fits (token : Token) (run : List Char) :
    ∀ (c : Char) (rest : List Char) (fuel : Nat) (buf : List Char) (i : Nat) (lx : Lexer)
      (p : Nat),
      isalnum c = true → (∀ x ∈ run, isalnum x = true) →
      (∀ d, rest.head? = some d → isalnum d = false) →
      buf.length = 256 → run.length + 2 ≤ fuel → i + run.length + 1 ≤ 256 →
      lex_identifier_loop token fuel c buf i lx ⟨c :: (run ++ rest), p⟩ =
        .returned true
          (push_back (peek_char (advance lx (run.length + 1)) ⟨rest, p + (run.length + 1)⟩).2.1
            { token with text := buf.take i ++ c :: run })
          (peek_char (advance lx (run.length + 1)) ⟨rest, p + (run.length + 1)⟩).2.2 := by
  induction run with
  | nil =>
    intro c rest fuel buf i lx p hc _ hrest hbuf hfuel hi
    obtain ⟨f, rfl⟩ : ∃ f, fuel = f + 2 := ⟨fuel - 2, by simp at hfuel; omega⟩
    have hi256 : i < 256 := by simp at hi; omega
    rw [lex_identifier_loop]
    simp only [ne_eq, isalnum_ne_nul hc, not_false_eq_true, hc, and_self, if_true, hi256,
      not_true_eq_false, if_false, next_char_cons _ _ _ _ (isalnum_ne_eof hc),
      List.nil_append, bump_of_ne_newline (isalnum_ne_newline hc)]
    rw [lex_identifier_loop_exit]
    · simp [take_set_succ buf i c (by omega)]
    · rcases peek_char_fst (advance lx 1) rest (p + 1) with h | h
      · left; exact h
      · right; exact hrest _ h
    · omega
    · simp [hbuf]; omega
  | cons d run ih =>
    intro c rest fuel buf i lx p hc hrun hrest hbuf hfuel hi
    obtain ⟨f, rfl⟩ : ∃ f, fuel = f + 1 := ⟨fuel - 1, by simp at hfuel; omega⟩
    have hd : isalnum d = true := hrun d (by simp)
    have hi256 : i < 256 := by simp at hi; omega
    rw [lex_identifier_loop]
    simp only [ne_eq, isalnum_ne_nul hc, not_false_eq_true, hc, and_self, if_true, hi256,
      not_true_eq_false, if_false, next_char_cons _ _ _ _ (isalnum_ne_eof hc),
      List.cons_append, bump_of_ne_newline (isalnum_ne_newline hc),
      peek_char_cons _ d _ _ (isalnum_ne_nul hd) (isalnum_ne_eof hd)]
    rw [ih d rest f (buf.set i c) (i + 1) (advance lx 1) (p + 1) hd
      (fun x hx => hrun x (by simp [hx])) hrest (by simp [hbuf])
      (by simp at hfuel ⊢; omega) (by simp at hi ⊢; omega)]
    simp only [advance_advance, take_set_succ buf i c (by omega), List.length_cons,
      List.append_assoc, List.singleton_append]
    have e1 : 1 + (run.length + 1) = run.length + 1 + 1 := by omega
    have e2 : p + 1 + (run.length + 1) = p + (run.length + 1 + 1) := by omega
    rw [e1, e2]



/-- The loop of `lex_identifier` on a run of alphanumeric characters that does not
fit in the array. -/
theorem lex_identifier_loop_overflow (token : Token) (run : List Char) :
    ∀ (c : Char) (rest : List Char) (fuel : Nat) (buf : List Char) (i : Nat) (lx : Lexer)
      (p : Nat),
      isalnum c = true → (∀ x ∈ run, isalnum x = true) →
      run.length + 1 ≤ fuel → 256 < i + run.length + 1 →
      ∃ lx1 fp1, lex_identifier_loop token fuel c buf i lx ⟨c :: (run ++ rest), p⟩ =
        .returned false lx1 fp1 ∧ lx1.tokens = lx.tokens := by
  induction run with
  | nil =>
    intro c rest fuel buf i lx p hc _ hfuel hi
    obtain ⟨f, rfl⟩ : ∃ f, fuel = f + 1 := ⟨fuel - 1, by simp at hfuel; omega⟩
    have hi256 : ¬ (i < 256) := by simp at hi; omega
    rw [lex_identifier_loop]
    simp only [ne_eq, isalnum_ne_nul hc, not_false_eq_true, hc, and_self, if_true, hi256]
    exact ⟨_, _, rfl, rfl⟩
  | cons d run ih =>
    intro c rest fuel buf i lx p hc hrun hfuel hi
    obtain ⟨f, rfl⟩ : ∃ f, fuel = f + 1 := ⟨fuel - 1, by simp at hfuel; omega⟩
    have hd : isalnum d = true := hrun d (by simp)
    rw [lex_identifier_loop]
    by_cases hi256 : i < 256
    · simp only [ne_eq, isalnum_ne_nul hc, not_false_eq_true, hc, and_self, if_true, hi256,
        not_true_eq_false, if_false, next_char_cons _ _ _ _ (isalnum_ne_eof hc),
        List.cons_append, bump_of_ne_newline (isalnum_ne_newline hc),
        peek_char_cons _ d _ _ (isalnum_ne_nul hd) (isalnum_ne_eof hd)]
      obtain ⟨lx1, fp1, h1, h2⟩ := ih d rest f (buf.set i c) (i + 1) (advance lx 1) (p + 1) hd
        (fun x hx => hrun x (by simp [hx])) (by simp at hfuel ⊢; omega)
        (by simp at hi ⊢; omega)
      exact ⟨lx1, fp1, h1, h2⟩
    · simp only [ne_eq, isalnum_ne_nul hc, not_false_eq_true, hc, and_self, if_true, hi256]
      exact ⟨_, _, rfl, rfl⟩

theorem isalnum_of_isalpha {c : Char} (h : isalpha c = true) : isalnum c = true := by
  simp [isalnum, h]

theorem length_uninitialised (u : Unspec) (n : Nat) : (uninitialised u n).length = n := by
  simp [uninitialised]

/-- The scanner `lex_identifier` on a letter followed by a run of alphanumeric
characters, at most 256 in all: one identifier token with the run as text. What
`peek_char` does at the end of the run is kept as it is. -/
theorem lex_identifier_fits (u : Unspec) (lx : Lexer) (pos : Nat) (c : Char)
    (run rest : List Char) (hc : isalnum c = true) (hrun : ∀ x ∈ run, isalnum x = true)
    (hrest : ∀ d, rest.head? = some d → isalnum d = false) (hlen : run.length + 1 ≤ 256) :
    lex_identifier u lx ⟨c :: (run ++ rest), pos⟩ =
      .returned true
        (push_back (peek_char (advance lx (run.length + 1)) ⟨rest, pos + (run.length + 1)⟩).2.1
          (token_at lx pos TOKEN_IDENT (c :: run)))
        (peek_char (advance lx (run.length + 1)) ⟨rest, pos + (run.length + 1)⟩).2.2 := by
  simp only [lex_identifier, peek_char_cons _ c _ _ (isalnum_ne_nul hc) (isalnum_ne_eof hc)]
  rw [lex_identifier_loop_fits _ run c rest _ _ 0 lx pos hc hrun hrest
    (length_uninitialised u 256) (by simp) (by omega)]
  simp [start_token, token_at]

/-- The scanner `lex_identifier` on a letter followed by a run of alphanumeric
characters, more than 256 in all: failure, and no token is appended. -/
theorem lex_identifier_overflow (u : Unspec) (lx : Lexer) (pos : Nat) (c : Char)
    (run rest : List Char) (hc : isalnum c = true) (hrun : ∀ x ∈ run, isalnum x = true)
    (hlen : 256 < run.length + 1) :
    ∃ lx1 fp1, lex_identifier u lx ⟨c :: (run ++ rest), pos⟩ = .returned false lx1 fp1 ∧
      lx1.tokens = lx.tokens := by
  simp only [lex_identifier, peek_char_cons _ c _ _ (isalnum_ne_nul hc) (isalnum_ne_eof hc)]
  exact lex_identifier_loop_overflow _ run c rest _ _ 0 lx pos hc hrun
    (by simp only [List.length_cons, List.length_append]; omega) (by omega)

/-- What `peek_char` does when the next character is neither NUL nor the byte 0xFF:
nothing. -/
theorem peek_char_of_head_ne_nul (lx : Lexer) (s : List Char) (p : Nat)
    (h : s.head? ≠ some NUL) (h2 : s.head? ≠ some EOFBYTE) :
    peek_char lx ⟨s, p⟩ = (s.headD NUL, lx, ⟨s, p⟩) := by
  cases s with
  | nil => rfl
  | cons c cs =>
    have hc : c ≠ NUL := by
      intro e; exact h (by simp [e])
    have hc2 : c ≠ EOFBYTE := by
      intro e; exact h2 (by simp [e])
    simp [peek_char_cons _ c cs p hc hc2]

theorem head_dropWhile_false (f : Char → Bool) (s : List Char) :
    ∀ d, (s.dropWhile f).head? = some d → f d = false := by
  induction s with
  | nil => simp
  | cons c cs ih =>
    intro d hd
    by_cases hf : f c = true
    · simp only [List.dropWhile_cons_of_pos hf] at hd
      exact ih d hd
    · simp only [List.dropWhile_cons_of_neg hf, List.head?_cons, Option.some.injEq] at hd
      subst hd
      simpa using hf

theorem takeWhile_of_head (f : Char → Bool) (s : List Char) (c : Char)
    (h : s.head? = some c) (hf : f c = true) :
    ∃ run, s.takeWhile f = c :: run ∧ (∀ x ∈ run, f x = true) ∧
      s = c :: (run ++ s.dropWhile f) := by
  cases s with
  | nil => simp at h
  | cons a as =>
    simp only [List.head?_cons, Option.some.injEq] at h
    subst h
    refine ⟨as.takeWhile f, ?_, ?_, ?_⟩
    · simp [List.takeWhile_cons_of_pos hf]
    · intro x hx
      exact (List.mem_takeWhile_imp hx)
    · simp [List.dropWhile_cons_of_pos hf, List.takeWhile_append_dropWhile]

/-! ## The identifier scanner: C7 and C8 -/

/-- C8 (amended): the limit is 256. For every `n` and every stream that starts with a
run of exactly `n` alphanumeric characters, the first a letter, `lex_identifier`
returns `true` if and only if `n ≤ 256`; for `n > 256` it returns `false` and appends
no token. -/
theorem lex_identifier_length_limit (u : Unspec) (lx : Lexer) (pos : Nat) (n : Nat) (c : Char)
    (run rest : List Char) (hc : isalpha c = true) (hrun : ∀ x ∈ run, isalnum x = true)
    (hrest : ∀ d, rest.head? = some d → isalnum d = false) (hn : (c :: run).length = n) :
    ((∃ lx1 fp1, lex_identifier u lx ⟨c :: (run ++ rest), pos⟩ = .returned true lx1 fp1) ↔
      n ≤ 256) ∧
    (256 < n →
      ∃ lx1 fp1, lex_identifier u lx ⟨c :: (run ++ rest), pos⟩ = .returned false lx1 fp1 ∧
        lx1.tokens = lx.tokens) := by
  have hover : 256 < n → ∃ lx1 fp1,
      lex_identifier u lx ⟨c :: (run ++ rest), pos⟩ = .returned false lx1 fp1 ∧
      lx1.tokens = lx.tokens := by
    intro h
    exact lex_identifier_overflow u lx pos c run rest (isalnum_of_isalpha hc) hrun
      (by simp at hn; omega)
  refine ⟨⟨?_, ?_⟩, hover⟩
  · rintro ⟨lx1, fp1, h⟩
    by_contra hgt
    obtain ⟨lx2, fp2, h2, _⟩ := hover (by omega)
    rw [h2] at h
    cases h
  · intro h
    exact ⟨_, _, lex_identifier_fits u lx pos c run rest (isalnum_of_isalpha hc) hrun hrest
      (by simp at hn; omega)⟩

/-- C8 (amended) on the stream `ab+`: a run of two characters. -/
theorem lex_identifier_length_limit_witness :
    isalpha 'a' = true ∧ (∀ x ∈ ['b'], isalnum x = true) ∧
    (∀ d, ['+'].head? = some d → isalnum d = false) ∧ ('a' :: ['b']).length = 2 ∧
    (((∃ lx1 fp1, lex_identifier ⟨true, fun _ => NUL⟩ Lexer.new ⟨'a' :: (['b'] ++ ['+']), 0⟩ =
        .returned true lx1 fp1) ↔ 2 ≤ 256) ∧
     (256 < 2 →
      ∃ lx1 fp1, lex_identifier ⟨true, fun _ => NUL⟩ Lexer.new ⟨'a' :: (['b'] ++ ['+']), 0⟩ =
        .returned false lx1 fp1 ∧ lx1.tokens = Lexer.new.tokens)) :=
  ⟨by decide, by decide, by decide, rfl,
    lex_identifier_length_limit ⟨true, fun _ => NUL⟩ Lexer.new 0 2 'a' ['b'] ['+'] (by decide)
      (by decide) (by decide) rfl⟩

/-- C8 as stated fails: an identifier of 256 characters (256 times `a`, then the end
of the stream) is accepted, and its token has all 256 characters. -/
theorem lex_identifier_accepts_256 :
    (List.replicate 256 'a').length = 256 ∧
    lex_identifier ⟨true, fun _ => NUL⟩ Lexer.new ⟨List.replicate 256 'a', 0⟩ =
      .returned true
        (after_token Lexer.new 256 (token_at Lexer.new 0 TOKEN_IDENT (List.replicate 256 'a')))
        ⟨[], 256⟩ := by
  refine ⟨List.length_replicate _ _, ?_⟩
  have h := lex_identifier_fits ⟨true, fun _ => NUL⟩ Lexer.new 0 'a' (List.replicate 255 'a') []
    (by decide) (by intro x hx; rw [List.eq_of_mem_replicate hx]; decide)
    (by intro d hd; cases hd) (by rw [List.length_replicate])
  have e : 'a' :: (List.replicate 255 'a' ++ []) = List.replicate 256 'a' := by
    rw [List.append_nil]; rfl
  rw [e, List.length_replicate] at h
  rw [h]
  rfl

/-! ## The loop of the number scanner -/

theorem is_numeric_iff (c : Char) :
    (isxdigit c = true ∨ c = '.' ∨ c = 'x' ∨ c = 'X') ↔ is_numeric c = true := by
  simp [is_numeric, or_assoc]

theorem is_numeric_ne_nul {c : Char} (h : is_numeric c = true) : c ≠ NUL := by
  rintro rfl; revert h; decide

theorem is_numeric_ne_newline {c : Char} (h : is_numeric c = true) : c ≠ NEWLINE := by
  rintro rfl; revert h; decide

theorem is_numeric_ne_eof {c : Char} (h : is_numeric c = true) : c ≠ EOFBYTE := by
  rintro rfl; revert h; decide


/-- Leaving the loop of `lex_number` with success. -/
theorem lex_number_end_true (token : Token) (buf : List Char) (i : Nat) (hdp : Bool)
    (lx : Lexer) (fp : FILE) (lx1 : Lexer) (fp1 : FILE)
    (h : lex_number_end token buf i hdp lx fp = .returned true lx1 fp1) :
    lx1 = push_back lx { token with type := number_kind hdp, text := buf.take i } ∧
      fp1 = fp := by
  unfold lex_number_end make_token_text at h
  by_cases h1 : i > 0
  · by_cases h2 : buf.length < i
    · simp [h1, h2] at h
    · simp only [h1, h2, not_true_eq_false, not_false_eq_true, if_true, if_false,
        Outcome.returned.injEq, true_and] at h
      unfold number_kind
      exact ⟨h.1.symm, h.2.symm⟩
  · simp [h1] at h

/-- The loop of `lex_number`, entered after `peek_char` on the stream `s`: when it
returns `true`, the token text is what the array held plus the longest run of numeric
characters at the head of `s`, and the stream is left as the last `peek_char` left it. -/
theorem lex_number_loop_true (token : Token) (s : List Char) :
    ∀ (fuel : Nat) (buf : List Char) (i : Nat) (is_hex hdp : Bool) (lx : Lexer) (p : Nat)
      (lx1 : Lexer) (fp1 : FILE),
      buf.length = 256 →
      lex_number_loop token fuel (peek_char lx ⟨s, p⟩).1 buf i is_hex hdp
        (peek_char lx ⟨s, p⟩).2.1 (peek_char lx ⟨s, p⟩).2.2 = .returned true lx1 fp1 →
      lx1 = push_back
          (peek_char (advance lx (s.takeWhile is_numeric).length)
            ⟨s.dropWhile is_numeric, p + (s.takeWhile is_numeric).length⟩).2.1
          { token with
            type := number_kind (hdp || decide ('.' ∈ s.takeWhile is_numeric))
            text := buf.take i ++ s.takeWhile is_numeric } ∧
      fp1 = (peek_char (advance lx (s.takeWhile is_numeric).length)
            ⟨s.dropWhile is_numeric, p + (s.takeWhile is_numeric).length⟩).2.2 := by
  induction s with
  | nil =>
    intro fuel buf i is_hex hdp lx p lx1 fp1 hbuf h
    cases fuel with
    | zero => simp [lex_number_loop] at h
    | succ f =>
      simp only [peek_char_nil, lex_number_loop, ne_eq, not_true_eq_false, if_false] at h
      have := lex_number_end_true _ _ _ _ _ _ _ _ h
      simpa [peek_char_nil, advance] using this
  | cons c t ih =>
    intro fuel buf i is_hex hdp lx p lx1 fp1 hbuf h
    cases fuel with
    | zero => simp [lex_number_loop] at h
    | succ f =>
      by_cases hnum : is_numeric c = true
      · have hc := is_numeric_ne_nul hnum
        have hnum1 : (isxdigit c = true ∨ c = '.' ∨ c = 'x' ∨ c = 'X') :=
          (is_numeric_iff c).2 hnum
        rw [peek_char_cons _ c t p hc (is_numeric_ne_eof hnum)] at h
        rw [lex_number_loop] at h
        by_cases hi : i < 256
        · simp only [ne_eq, hc, not_false_eq_true, if_true, hi, not_true_eq_false, if_false,
            hnum1, next_char_cons _ _ _ _ (is_numeric_ne_eof hnum),
            bump_of_ne_newline (is_numeric_ne_newline hnum)] at h
          split_ifs at h with e1 e2 e3 e4 e5 <;> try (simp at h; done)
          obtain ⟨r1, r2⟩ := ih f (buf.set i c) (i + 1) _ _ (advance lx 1) (p + 1) lx1 fp1
            (by simp [hbuf]) h
          simp only [List.takeWhile_cons_of_pos hnum, List.dropWhile_cons_of_pos hnum,
            List.length_cons]
          rw [advance_advance, Nat.add_comm 1, Nat.add_assoc p 1, Nat.add_comm 1] at r1 r2
          have e_t : List.take (i + 1) (buf.set i c) ++ List.takeWhile is_numeric t =
              List.take i buf ++ c :: List.takeWhile is_numeric t := by
            rw [take_set_succ _ _ _ (by omega)]; simp
          have e_k : (hdp || decide (c = '.') || decide ('.' ∈ List.takeWhile is_numeric t)) =
              (hdp || decide ('.' ∈ c :: List.takeWhile is_numeric t)) := by
            by_cases hdot : c = '.'
            · simp [hdot]
            · have hdot1 : ¬ ('.' = c) := fun e => hdot e.symm
              simp [hdot, hdot1]
          rw [e_t, e_k] at r1
          exact ⟨r1, r2⟩
        · simp [hc, hi] at h
      · have hnum1 : ¬ (isxdigit c = true ∨ c = '.' ∨ c = 'x' ∨ c = 'X') := by
          rw [is_numeric_iff]; exact hnum
        simp only [List.takeWhile_cons_of_neg hnum, List.dropWhile_cons_of_neg hnum,
          List.length_nil, Nat.add_zero, List.append_nil, List.not_mem_nil, decide_False,
          Bool.or_false]
        have hadv : advance lx 0 = lx := by simp [advance]
        rw [hadv]
        by_cases hc : c = NUL
        · subst hc
          rw [peek_char_nul] at h ⊢
          rw [lex_number_loop] at h
          simp only [ne_eq, not_true_eq_false, if_false] at h
          exact lex_number_end_true _ _ _ _ _ _ _ _ h
        · by_cases hc2 : c = EOFBYTE
          · subst hc2
            rw [peek_char_eof] at h ⊢
            rw [lex_number_loop] at h
            simp only [ne_eq, not_true_eq_false, if_false] at h
            exact lex_number_end_true _ _ _ _ _ _ _ _ h
          · rw [peek_char_cons _ c t p hc hc2] at h ⊢
            rw [lex_number_loop] at h
            by_cases hi : i < 256
            · simp only [ne_eq, hc, not_false_eq_true, if_true, hi, not_true_eq_false,
                if_false, hnum1] at h
              exact lex_number_end_true _ _ _ _ _ _ _ _ h
            · simp [hc, hi] at h



theorem isdigit_is_numeric {c : Char} (h : isdigit c = true) : is_numeric c = true := by
  simp [is_numeric, isxdigit, h]

theorem isdigit_not_hex_letter {c : Char} (h : isdigit c = true) : hex_letter c = false := by
  simp only [isdigit, decide_eq_true_eq] at h
  simp only [hex_letter, decide_eq_false_iff_not]
  omega

theorem isdigit_ne {c d : Char} (h : isdigit c = true) (hd : isdigit d = false) : c ≠ d := by
  rintro rfl; simp [h] at hd

/-- Leaving the loop of `lex_number` with a text that is not empty and fits. -/
theorem lex_number_end_ok (token : Token) (buf : List Char) (i : Nat) (hdp : Bool)
    (lx : Lexer) (fp : FILE) (h1 : 0 < i) (h2 : i ≤ buf.length) :
    lex_number_end token buf i hdp lx fp =
      .returned true (push_back lx { token with type := number_kind hdp, text := buf.take i })
        fp := by
  have h3 : ¬ (buf.length < i) := by omega
  simp [lex_number_end, make_token_text, h1, h3, number_kind]

/-- One turn of the loop of `lex_number` on a decimal digit, with room in the array. -/
theorem lex_number_loop_digit (token : Token) (fuel : Nat) (d : Char) (t : List Char)
    (buf : List Char) (i : Nat) (is_hex hdp : Bool) (lx : Lexer) (p : Nat)
    (hd : isdigit d = true) (hi : i < 256) :
    lex_number_loop token (fuel + 1) (peek_char lx ⟨d :: t, p⟩).1 buf i is_hex hdp
        (peek_char lx ⟨d :: t, p⟩).2.1 (peek_char lx ⟨d :: t, p⟩).2.2 =
      lex_number_loop token fuel (peek_char (advance lx 1) ⟨t, p + 1⟩).1 (buf.set i d) (i + 1)
        is_hex hdp (peek_char (advance lx 1) ⟨t, p + 1⟩).2.1
        (peek_char (advance lx 1) ⟨t, p + 1⟩).2.2 := by
  have hnum := isdigit_is_numeric hd
  have hc := is_numeric_ne_nul hnum
  have hnum1 : (isxdigit d = true ∨ d = '.' ∨ d = 'x' ∨ d = 'X') := (is_numeric_iff d).2 hnum
  have hx : isxdigit d = true := by simp [isxdigit, hd]
  have n1 : d ≠ '.' := isdigit_ne hd (by decide)
  have n2 : d ≠ 'x' := isdigit_ne hd (by decide)
  have n3 : d ≠ 'X' := isdigit_ne hd (by decide)
  rw [peek_char_cons _ d t p hc (is_numeric_ne_eof hnum), lex_number_loop]
  simp only [ne_eq, hc, not_false_eq_true, if_true, hi, not_true_eq_false, if_false,
    hx, true_or, next_char_cons _ _ _ _ (is_numeric_ne_eof hnum),
    bump_of_ne_newline (is_numeric_ne_newline hnum), n1, n2, n3,
    isdigit_not_hex_letter hd, false_and, or_self, decide_False, Bool.or_false,
    Bool.false_eq_true]

/-- The loop of `lex_number` on a run of decimal digits that ends the literal. -/
theorem lex_number_loop_digits_ok (token : Token) (run : List Char) :
    ∀ (rest : List Char) (fuel : Nat) (buf : List Char) (i : Nat) (is_hex hdp : Bool)
      (lx : Lexer) (p : Nat),
      (∀ x ∈ run, isdigit x = true) → (∀ d, rest.head? = some d → is_numeric d = false) →
      buf.length = 256 → run.length + 1 ≤ fuel → 0 < i + run.length →
      (i + run.length ≤ 255 ∨ (i + run.length = 256 ∧ rest.headD NUL = NUL)) →
      ∃ lx1 fp1,
        lex_number_loop token fuel (peek_char lx ⟨run ++ rest, p⟩).1 buf i is_hex hdp
          (peek_char lx ⟨run ++ rest, p⟩).2.1 (peek_char lx ⟨run ++ rest, p⟩).2.2 =
        .returned true lx1 fp1 := by
  induction run with
  | nil =>
    intro rest fuel buf i is_hex hdp lx p _ hrest hbuf hfuel hpos hlim
    obtain ⟨f, rfl⟩ : ∃ f, fuel = f + 1 := ⟨fuel - 1, by omega⟩
    simp only [List.length_nil, Nat.add_zero] at hpos hlim
    simp only [List.nil_append]
    rw [lex_number_loop]
    by_cases hc : (peek_char lx ⟨rest, p⟩).1 = NUL
    · simp only [hc, ne_eq, not_true_eq_false, if_false]
      rw [lex_number_end_ok _ _ _ _ _ _ hpos (by omega)]
      exact ⟨_, _, rfl⟩
    · have hq : rest.head? = some (peek_char lx ⟨rest, p⟩).1 := by
        rcases peek_char_fst lx rest p with h | h
        · exact absurd h hc
        · exact h
      have hi : i < 256 := by
        rcases hlim with h | ⟨_, h⟩
        · omega
        · cases rest with
          | nil => simp at hq
          | cons d ds =>
            simp only [List.head?_cons, Option.some.injEq] at hq
            simp only [List.headD_cons] at h
            rw [← hq] at hc
            exact absurd h hc
      have hnn : ¬ (isxdigit (peek_char lx ⟨rest, p⟩).1 = true ∨
          (peek_char lx ⟨rest, p⟩).1 = '.' ∨ (peek_char lx ⟨rest, p⟩).1 = 'x' ∨
          (peek_char lx ⟨rest, p⟩).1 = 'X') := by
        rw [is_numeric_iff]
        simp [hrest _ hq]
      simp only [ne_eq, hc, not_false_eq_true, if_true, hi, not_true_eq_false, if_false, hnn]
      rw [lex_number_end_ok _ _ _ _ _ _ hpos (by omega)]
      exact ⟨_, _, rfl⟩
  | cons d run ih =>
    intro rest fuel buf i is_hex hdp lx p hrun hrest hbuf hfuel hpos hlim
    obtain ⟨f, rfl⟩ : ∃ f, fuel = f + 1 := ⟨fuel - 1, by simp at hfuel; omega⟩
    simp only [List.length_cons] at hfuel hpos hlim
    have hd : isdigit d = true := hrun d (by simp)
    simp only [List.cons_append]
    rw [lex_number_loop_digit token f d _ buf i is_hex hdp lx p hd (by omega)]
    exact ih rest f (buf.set i d) (i + 1) is_hex hdp (advance lx 1) (p + 1)
      (fun x hx => hrun x (by simp [hx])) hrest (by simp [hbuf]) (by omega) (by omega)
      (by
        rcases hlim with h | ⟨h, h1⟩
        · left; omega
        · right; exact ⟨by omega, h1⟩)

/-- The loop of `lex_number` on a run of decimal digits that does not fit in the
array. -/
theorem lex_number_loop_digits_overflow (token : Token) (run : List Char) :
    ∀ (rest : List Char) (fuel : Nat) (buf : List Char) (i : Nat) (is_hex hdp : Bool)
      (lx : Lexer) (p : Nat),
      (∀ x ∈ run, isdigit x = true) → run.length ≤ fuel → i ≤ 256 → 256 < i + run.length →
      ∃ lx1 fp1,
        lex_number_loop token fuel (peek_char lx ⟨run ++ rest, p⟩).1 buf i is_hex hdp
          (peek_char lx ⟨run ++ rest, p⟩).2.1 (peek_char lx ⟨run ++ rest, p⟩).2.2 =
        .returned false lx1 fp1 ∧ lx1.tokens = lx.tokens := by
  induction run with
  | nil =>
    intro rest fuel buf i is_hex hdp lx p _ _ hi hover
    simp at hover; omega
  | cons d run ih =>
    intro rest fuel buf i is_hex hdp lx p hrun hfuel hi hover
    obtain ⟨f, rfl⟩ : ∃ f, fuel = f + 1 := ⟨fuel - 1, by simp at hfuel; omega⟩
    simp only [List.length_cons] at hfuel hover
    have hd : isdigit d = true := hrun d (by simp)
    simp only [List.cons_append]
    by_cases hi256 : i < 256
    · rw [lex_number_loop_digit token f d _ buf i is_hex hdp lx p hd hi256]
      obtain ⟨lx1, fp1, h1, h2⟩ := ih rest f (buf.set i d) (i + 1) is_hex hdp (advance lx 1)
        (p + 1) (fun x hx => hrun x (by simp [hx])) (by omega) (by omega) (by omega)
      exact ⟨lx1, fp1, h1, h2⟩
    · have hc := is_numeric_ne_nul (isdigit_is_numeric hd)
      rw [peek_char_cons _ d _ p hc (is_numeric_ne_eof (isdigit_is_numeric hd)),
        lex_number_loop]
      simp only [ne_eq, hc, not_false_eq_true, if_true, hi256]
      exact ⟨_, _, rfl, rfl⟩

/-! ## The number scanner: C5 and C9 -/

/-- The scanner `lex_number`, when it returns `true`: one token was appended, with the
longest run of numeric characters as text; the last `peek_char` is kept as it is. -/
theorem lex_number_true (lx : Lexer) (s : List Char) (pos : Nat) (lx1 : Lexer) (fp1 : FILE)
    (h : lex_number lx ⟨s, pos⟩ = .returned true lx1 fp1) :
    lx1 = push_back
        (peek_char (advance lx (s.takeWhile is_numeric).length)
          ⟨s.dropWhile is_numeric, pos + (s.takeWhile is_numeric).length⟩).2.1
        (token_at lx pos (number_kind (decide ('.' ∈ s.takeWhile is_numeric)))
          (s.takeWhile is_numeric)) ∧
    fp1 = (peek_char (advance lx (s.takeWhile is_numeric).length)
          ⟨s.dropWhile is_numeric, pos + (s.takeWhile is_numeric).length⟩).2.2 := by
  have h1 := lex_number_loop_true (start_token lx ⟨s, pos⟩) s _ (List.replicate 256 NUL) 0
    false false lx pos lx1 fp1 (List.length_replicate _ _) h
  simpa [start_token, token_at] using h1

/-- The scanner `lex_number` on a run of decimal digits followed by a character that
is not numeric, or by the end of the stream: success for 1 to 255 digits, and for 256
digits when the end of the stream (or a NUL byte) follows. -/
theorem lex_number_digits_ok (lx : Lexer) (pos : Nat) (run rest : List Char)
    (hrun : ∀ x ∈ run, isdigit x = true)
    (hrest : ∀ d, rest.head? = some d → is_numeric d = false) (hpos : 0 < run.length)
    (hlim : run.length ≤ 255 ∨ (run.length = 256 ∧ rest.headD NUL = NUL)) :
    ∃ lx1 fp1, lex_number lx ⟨run ++ rest, pos⟩ = .returned true lx1 fp1 := by
  have hfuel : run.length + 1 ≤ (peek_char lx ⟨run ++ rest, pos⟩).2.2.rest.length + 1 := by
    cases run with
    | nil => simp at hpos
    | cons d run =>
      have hc := is_numeric_ne_nul (isdigit_is_numeric (hrun d (by simp)))
      rw [List.cons_append,
        peek_char_cons _ d _ pos hc (is_numeric_ne_eof (isdigit_is_numeric (hrun d (by simp))))]
      simp
  exact lex_number_loop_digits_ok (start_token lx ⟨run ++ rest, pos⟩) run rest _
    (List.replicate 256 NUL) 0 false false lx pos hrun hrest (List.length_replicate _ _)
    hfuel (by omega) (by
      rcases hlim with h | ⟨h, h1⟩
      · left; omega
      · right; exact ⟨by omega, h1⟩)

/-- The scanner `lex_number` on a run of more than 256 decimal digits: failure, and
no token is appended. -/
theorem lex_number_digits_overflow (lx : Lexer) (pos : Nat) (run rest : List Char)
    (hrun : ∀ x ∈ run, isdigit x = true) (hlen : 256 < run.length) :
    ∃ lx1 fp1, lex_number lx ⟨run ++ rest, pos⟩ = .returned false lx1 fp1 ∧
      lx1.tokens = lx.tokens := by
  have hfuel : run.length ≤ (peek_char lx ⟨run ++ rest, pos⟩).2.2.rest.length + 1 := by
    cases run with
    | nil => simp at hlen
    | cons d run =>
      have hc := is_numeric_ne_nul (isdigit_is_numeric (hrun d (by simp)))
      rw [List.cons_append,
        peek_char_cons _ d _ pos hc (is_numeric_ne_eof (isdigit_is_numeric (hrun d (by simp))))]
      simp only [List.length_cons, List.length_append]; omega
  exact lex_number_loop_digits_overflow (start_token lx ⟨run ++ rest, pos⟩) run rest _
    (List.replicate 256 NUL) 0 false false lx pos hrun hfuel (by omega) (by omega)

/-- The loop of `lex_number` on a run of decimal digits that fills the array exactly
and is followed by one more character: the test for room comes first and fails. -/
theorem lex_number_loop_digits_then_char (token : Token) (run : List Char) :
    ∀ (d : Char) (ds : List Char) (fuel : Nat) (buf : List Char) (i : Nat)
      (is_hex hdp : Bool) (lx : Lexer) (p : Nat),
      (∀ x ∈ run, isdigit x = true) → d ≠ NUL → d ≠ EOFBYTE → run.length + 1 ≤ fuel →
      i + run.length = 256 →
      ∃ lx1 fp1,
        lex_number_loop token fuel (peek_char lx ⟨run ++ d :: ds, p⟩).1 buf i is_hex hdp
          (peek_char lx ⟨run ++ d :: ds, p⟩).2.1 (peek_char lx ⟨run ++ d :: ds, p⟩).2.2 =
        .returned false lx1 fp1 ∧ lx1.tokens = lx.tokens := by
  induction run with
  | nil =>
    intro d ds fuel buf i is_hex hdp lx p _ hd hd2 hfuel hi
    obtain ⟨f, rfl⟩ : ∃ f, fuel = f + 1 := ⟨fuel - 1, by simp at hfuel; omega⟩
    have hi256 : ¬ (i < 256) := by simp at hi; omega
    rw [List.nil_append, peek_char_cons _ d _ p hd hd2, lex_number_loop]
    simp only [ne_eq, hd, not_false_eq_true, if_true, hi256]
    exact ⟨_, _, rfl, rfl⟩
  | cons x run ih =>
    intro d ds fuel buf i is_hex hdp lx p hrun hd hd2 hfuel hi
    obtain ⟨f, rfl⟩ : ∃ f, fuel = f + 1 := ⟨fuel - 1, by simp at hfuel; omega⟩
    simp only [List.length_cons] at hfuel hi
    have hx : isdigit x = true := hrun x (by simp)
    simp only [List.cons_append]
    rw [lex_number_loop_digit token f x _ buf i is_hex hdp lx p hx (by omega)]
    obtain ⟨lx1, fp1, h1, h2⟩ := ih d ds f (buf.set i x) (i + 1) is_hex hdp (advance lx 1)
      (p + 1) (fun y hy => hrun y (by simp [hy])) hd hd2 (by omega) (by omega)
    exact ⟨lx1, fp1, h1, h2⟩

/-- The scanner `lex_number` on exactly 256 decimal digits followed by a character
other than NUL and the byte 0xFF: failure, whatever that character is. -/
theorem lex_number_rejects_256_then_char (lx : Lexer) (pos : Nat) (run : List Char) (d : Char)
    (ds : List Char) (hrun : ∀ x ∈ run, isdigit x = true) (hd : d ≠ NUL) (hd2 : d ≠ EOFBYTE)
    (hlen : run.length = 256) :
    ∃ lx1 fp1, lex_number lx ⟨run ++ d :: ds, pos⟩ = .returned false lx1 fp1 ∧
      lx1.tokens = lx.tokens := by
  have hfuel : run.length + 1 ≤ (peek_char lx ⟨run ++ d :: ds, pos⟩).2.2.rest.length + 1 := by
    cases run with
    | nil => simp at hlen
    | cons x run =>
      have hc := is_numeric_ne_nul (isdigit_is_numeric (hrun x (by simp)))
      rw [List.cons_append,
        peek_char_cons _ x _ pos hc (is_numeric_ne_eof (isdigit_is_numeric (hrun x (by simp))))]
      simp only [List.length_cons, List.length_append]; omega
  exact lex_number_loop_digits_then_char (start_token lx ⟨run ++ d :: ds, pos⟩) run d ds _
    (List.replicate 256 NUL) 0 false false lx pos hrun hd hd2 hfuel (by omega)

/-- The scanner `lex_number` on runs of decimal digits: for every `n ≥ 1` and every
stream that consists of a run of exactly `n` decimal digits followed by the end of the
stream or by a character outside the numeric set, it returns `true` when `n ≤ 255`,
returns `true` when `n = 256` and the run ends the stream, and returns `false` without
appending a token when `n ≥ 257`. -/
theorem lex_number_digit_run_limit (lx : Lexer) (pos : Nat) (n : Nat) (run rest : List Char)
    (hrun : ∀ x ∈ run, isdigit x = true)
    (hrest : ∀ d, rest.head? = some d → is_numeric d = false) (hn : run.length = n)
    (hpos : 1 ≤ n) :
    (n ≤ 255 → ∃ lx1 fp1, lex_number lx ⟨run ++ rest, pos⟩ = .returned true lx1 fp1) ∧
    (n = 256 → rest = [] →
      ∃ lx1 fp1, lex_number lx ⟨run ++ rest, pos⟩ = .returned true lx1 fp1) ∧
    (257 ≤ n →
      ∃ lx1 fp1, lex_number lx ⟨run ++ rest, pos⟩ = .returned false lx1 fp1 ∧
        lx1.tokens = lx.tokens) := by
  refine ⟨?_, ?_, ?_⟩
  · intro h
    exact lex_number_digits_ok lx pos run rest hrun hrest (by omega) (Or.inl (by omega))
  · intro h hnil
    exact lex_number_digits_ok lx pos run rest hrun hrest (by omega)
      (Or.inr ⟨by omega, by rw [hnil]; rfl⟩)
  · intro h
    exact lex_number_digits_overflow lx pos run rest hrun (by omega)

/-- The scanner `lex_number` on the stream `42;`: a run of two digits. -/
theorem lex_number_digit_run_limit_witness :
    (∀ x ∈ ['4', '2'], isdigit x = true) ∧
    (∀ d, [';'].head? = some d → is_numeric d = false) ∧ ['4', '2'].length = 2 ∧ 1 ≤ 2 ∧
    ((2 ≤ 255 →
        ∃ lx1 fp1, lex_number Lexer.new ⟨['4', '2'] ++ [';'], 0⟩ = .returned true lx1 fp1) ∧
     (2 = 256 → [';'] = [] →
        ∃ lx1 fp1, lex_number Lexer.new ⟨['4', '2'] ++ [';'], 0⟩ = .returned true lx1 fp1) ∧
     (257 ≤ 2 →
        ∃ lx1 fp1, lex_number Lexer.new ⟨['4', '2'] ++ [';'], 0⟩ = .returned false lx1 fp1 ∧
          lx1.tokens = Lexer.new.tokens)) :=
  ⟨by decide, by decide, rfl, by decide,
    lex_number_digit_run_limit Lexer.new 0 2 ['4', '2'] [';'] (by decide) (by decide) rfl
      (by decide)⟩

/-- C9, evaluated on a run of 256 decimal digits. When the run ends the stream,
`lex_number` returns `true`; when a blank follows the same run, it returns `false`: the
outcome depends on what follows the literal, not on its length alone. The sibling
`lex_identifier` returns `true` on 256 letters followed by a blank, as it does at the
end of the stream. -/
theorem lex_number_accepts_256 :
    (List.replicate 256 '7').length = 256 ∧
    (∃ lx1 fp1, lex_number Lexer.new ⟨List.replicate 256 '7' ++ [], 0⟩ =
      .returned true lx1 fp1) ∧
    (∃ lx1 fp1, lex_number Lexer.new ⟨List.replicate 256 '7' ++ [' '], 0⟩ =
      .returned false lx1 fp1) ∧
    (∃ lx1 fp1, lex_identifier some_unspec Lexer.new
        ⟨'a' :: (List.replicate 255 'a' ++ [' ']), 0⟩ = .returned true lx1 fp1) ∧
    (∃ lx1 fp1, lex_identifier some_unspec Lexer.new
        ⟨'a' :: (List.replicate 255 'a' ++ []), 0⟩ = .returned true lx1 fp1) := by
  have hrun : ∀ x ∈ List.replicate 256 '7', isdigit x = true := by
    intro x hx; rw [List.eq_of_mem_replicate hx]; decide
  have hrun2 : ∀ x ∈ List.replicate 255 'a', isalnum x = true := by
    intro x hx; rw [List.eq_of_mem_replicate hx]; decide
  refine ⟨List.length_replicate _ _, ?_, ?_, ?_, ?_⟩
  · exact lex_number_digits_ok Lexer.new 0 (List.replicate 256 '7') [] hrun
      (by intro d hd; cases hd) (by rw [List.length_replicate]; omega)
      (Or.inr ⟨List.length_replicate _ _, rfl⟩)
  · obtain ⟨lx1, fp1, h, _⟩ := lex_number_rejects_256_then_char Lexer.new 0
      (List.replicate 256 '7') ' ' [] hrun (by decide) (by decide) (List.length_replicate _ _)
    exact ⟨lx1, fp1, h⟩
  · exact ⟨_, _, lex_identifier_fits some_unspec Lexer.new 0 'a' (List.replicate 255 'a') [' ']
      (by decide) hrun2
      (by intro d hd
          simp only [List.head?_cons, Option.some.injEq] at hd
          rw [← hd]; decide)
      (by rw [List.length_replicate])⟩
  · exact ⟨_, _, lex_identifier_fits some_unspec Lexer.new 0 'a' (List.replicate 255 'a') []
      (by decide) hrun2 (by intro d hd; cases hd) (by rw [List.length_replicate])⟩

/-! ## The symbol scanner: C2, C3 and C4 -/

/-- The scanner `lex_symbol` on the fifteen two-character operator spellings
`++ += -- -> /= *= %= >= <= == != || |= && &=`: it reads exactly those two characters
and appends exactly one token, of the kind the table names and with the spelling as
its text. There is no `return` statement behind `push_back`: the value the caller
reads is left open by the source. -/
theorem lex_symbol_two_char_table (c1 c2 : Char) (kind : Int)
    (h : (c1, c2, kind) ∈ two_char_operators) (u : Unspec) (lx : Lexer) (rest : List Char)
    (pos : Nat) :
    lex_symbol u lx ⟨c1 :: c2 :: rest, pos⟩ =
      .returned u.symbol_result (after_token lx 2 (token_at lx pos kind [c1, c2]))
        ⟨rest, pos + 2⟩ := by
  simp only [two_char_operators, List.mem_cons, Prod.mk.injEq, List.mem_singleton,
    List.not_mem_nil, or_false] at h
  rcases h with h | h | h | h | h | h | h | h | h | h | h | h | h | h | h
  all_goals obtain ⟨e1, e2, e3⟩ := h
  all_goals subst e1 e2 e3
  all_goals
    simp [lex_symbol, lex_symbol_switch, lex_symbol_minus, lex_symbol_slash, lex_symbol_two,
      lex_symbol_one, lex_symbol_end, next_char_cons_if, EOFBYTE,
      peek_char_cons_if, NUL, start_token, push_back, set_token_symbol_text,
      TOKEN_SYMBOL_TEXT, bump, NEWLINE, LBRACE, RBRACE, after_token, token_at,
      TOKEN_INCREMENT, TOKEN_ADD_EQUALS, TOKEN_DECREMENT, TOKEN_POINTER_MEMBER_DEREF,
      TOKEN_DIV_EQUALS, TOKEN_MUL_EQUALS, TOKEN_MOD_EQUALS, TOKEN_GREATER_EQUALS,
      TOKEN_LESS_EQUALS, TOKEN_EQUALS, TOKEN_NOT_EQUALS, TOKEN_LOGICAL_OR,
      TOKEN_BITWISE_OR_EQUALS, TOKEN_LOGICAL_AND, TOKEN_BITWISE_AND_EQUALS, Nat.add_assoc]

set_option maxRecDepth 100000 in
/-- C3, evaluated on `a+=1`. The scanner `lex_symbol` appends the token `+=` and ends
without a `return` statement, so the value the driver tests in
`if (!lex_symbol(fp))` is not set by the code. When that value is `false`, `lex_file`
returns `false` right behind `+=`: the tokens are the identifier `a` and the
add-assign `+=`, and `1` is left unread. Only when the value is `true` does the run
give the three tokens `a`, `+=`, `1`. -/
theorem lex_file_add_assign_result_open (stack : Nat → Char) (filename : String) :
    (∃ lx fp, lex_file ⟨false, stack⟩ Lexer.new filename ['a', '+', '=', '1'] =
        .returned false lx fp ∧
      lx.tokens.map (fun t => (t.type, t.text)) =
        [(TOKEN_IDENT, ['a']), (TOKEN_ADD_EQUALS, ['+', '='])] ∧
      fp = ⟨['1'], 3⟩) ∧
    (∃ lx fp, lex_file ⟨true, stack⟩ Lexer.new filename ['a', '+', '=', '1'] =
        .returned true lx fp ∧
      lx.tokens.map (fun t => (t.type, t.text)) =
        [(TOKEN_IDENT, ['a']), (TOKEN_ADD_EQUALS, ['+', '=']),
         (TOKEN_INTEGER_LITERAL, ['1'])] ∧
      fp = ⟨[], 4⟩) :=
  ⟨⟨_, _, rfl, rfl, rfl⟩, ⟨_, _, rfl, rfl, rfl⟩⟩

/-- C4, evaluated on the code: when the stream starts with `-=`, `lex_symbol` reads
both characters, leaves the token type at its initial `-1` (the statement is the
comparison `token.type == TOKEN_SUB_EQUALS`), and stops at the assertion
`token.type > 0`; no token is appended. -/
theorem lex_symbol_sub_equals_stops (u : Unspec) (lx : Lexer) (rest : List Char) (pos : Nat) :
    lex_symbol u lx ⟨'-' :: '=' :: rest, pos⟩ =
      .stopped .assertion { lx with current_column := lx.current_column + 2 }
        ⟨rest, pos + 2⟩ := by
  simp [lex_symbol, lex_symbol_switch, lex_symbol_minus, lex_symbol_end, next_char_cons_if,
    EOFBYTE, peek_char_cons_if, NUL, start_token,
    bump, NEWLINE, Nat.add_assoc]

set_option maxRecDepth 100000 in
/-- C2, evaluated on the code: when the stream starts with `~=`, `lex_symbol` reads the
two characters `~=` and appends a token of kind `TOKEN_NOT_EQUALS` whose text is `!=`,
not the characters read; with `true` read as the result of `lex_symbol`, `lex_file`
succeeds on the file `~=` with that token. -/
theorem lex_symbol_tilde_equals_text :
    (∀ (u : Unspec) (lx : Lexer) (rest : List Char) (pos : Nat),
      lex_symbol u lx ⟨'~' :: '=' :: rest, pos⟩ =
        .returned u.symbol_result (after_token lx 2 (token_at lx pos TOKEN_NOT_EQUALS ['!', '=']))
          ⟨rest, pos + 2⟩) ∧
    (∀ (stack : Nat → Char) (filename : String),
      lex_file ⟨true, stack⟩ Lexer.new filename ['~', '='] =
        .returned true
          { current_filename := filename, current_line := 1, current_column := 3,
            tokens := [{ filename := filename, line_number := 1, column_number := 1,
                         type := TOKEN_NOT_EQUALS, text := ['!', '='], offset := 0 }] }
          ⟨[], 2⟩) := by
  refine ⟨?_, ?_⟩
  · intro u lx rest pos
    simp [lex_symbol, lex_symbol_switch, lex_symbol_one, lex_symbol_end, next_char_cons_if,
      EOFBYTE, peek_char_cons_if, NUL, start_token, push_back, set_token_symbol_text,
      TOKEN_SYMBOL_TEXT, bump, NEWLINE, LBRACE, RBRACE, after_token, token_at,
      TOKEN_NOT_EQUALS, Nat.add_assoc]
  · intro stack filename
    rfl

/-! ## The number scanner on single inputs -/

set_option maxRecDepth 100000 in
/-- C6, evaluated on the code: on `0x1.5` the scanner `lex_number` succeeds and appends
a float-literal token whose text `0x1.5` contains `x`. -/
theorem lex_number_hex_float_accepted :
    lex_number Lexer.new (fopen "0x1.5".toList) =
      .returned true
        (after_token Lexer.new 5 (token_at Lexer.new 0 TOKEN_FLOAT_LITERAL "0x1.5".toList))
        ⟨[], 5⟩ := by
  rfl

/-! ## The character-literal scanner on single inputs -/

/-- C10, evaluated on the code: on the empty literal (two quote characters)
`lex_char_literal` succeeds and appends a token whose text is those two characters. -/
theorem lex_char_literal_empty_accepted (u : Unspec) :
    lex_char_literal u Lexer.new (fopen [QUOTE, QUOTE]) =
      .returned true
        (after_token Lexer.new 2
          (token_at Lexer.new 0 TOKEN_CHARACTER_LITERAL [QUOTE, QUOTE]))
        ⟨[], 2⟩ := by
  rfl

/-! ## The fuel of the model is enough -/

theorem length_of_next_char {lx : Lexer} {fp : FILE} {c : Char} {lx1 : Lexer} {fp1 : FILE}
    (e : next_char lx fp = (c, lx1, fp1)) : fp1.rest.length = fp.rest.length - 1 := by
  obtain ⟨s, p⟩ := fp
  cases s with
  | nil =>
    rw [next_char_nil] at e
    simp only [Prod.mk.injEq] at e
    obtain ⟨_, _, rfl⟩ := e
    rfl
  | cons a as =>
    rw [next_char_cons_if] at e
    split_ifs at e
    all_goals simp only [Prod.mk.injEq] at e
    all_goals obtain ⟨_, _, rfl⟩ := e
    all_goals simp

theorem next_char_ne_nul {lx : Lexer} {fp : FILE} {c : Char} {lx1 : Lexer} {fp1 : FILE}
    (e : next_char lx fp = (c, lx1, fp1)) (hc : c ≠ NUL) : fp.rest ≠ [] := by
  obtain ⟨s, p⟩ := fp
  cases s with
  | nil =>
    rw [next_char_nil] at e
    simp only [Prod.mk.injEq] at e
    exact absurd e.1.symm hc
  | cons a as => simp

theorem length_of_peek_char {lx : Lexer} {fp : FILE} {c : Char} {lx1 : Lexer} {fp1 : FILE}
    (e : peek_char lx fp = (c, lx1, fp1)) : fp1.rest.length ≤ fp.rest.length := by
  obtain ⟨s, p⟩ := fp
  cases s with
  | nil =>
    rw [peek_char_nil] at e
    simp only [Prod.mk.injEq] at e
    obtain ⟨_, _, rfl⟩ := e
    exact Nat.le_refl _
  | cons a as =>
    rw [peek_char_cons_if] at e
    split_ifs at e
    all_goals simp only [Prod.mk.injEq] at e
    all_goals obtain ⟨_, _, rfl⟩ := e
    all_goals simp

theorem length_pos_of_head {s : List Char} {c : Char} (h : s.head? = some c) :
    0 < s.length := by
  cases s with
  | nil => cases h
  | cons a as => simp

theorem within_make_token_text (n : Nat) (token : Token) (buf : List Char) (i : Nat)
    (lx : Lexer) (fp : FILE) (h : fp.rest.length ≤ n) :
    Outcome.Within n
      (match make_token_text token buf i with
       | .error e => .stopped e lx fp
       | .ok token => .returned true (push_back lx token) fp) := by
  unfold make_token_text
  split_ifs
  all_goals exact ⟨rfl, h⟩

theorem within_lex_identifier_loop (token : Token) (fuel : Nat) :
    ∀ (cur : Char) (buf : List Char) (i : Nat) (lx : Lexer) (fp : FILE) (n : Nat),
      (cur ≠ NUL → fp.rest.head? = some cur) → fp.rest.length < fuel → fp.rest.length ≤ n →
      (lex_identifier_loop token fuel cur buf i lx fp).Within n := by
  induction fuel with
  | zero => intro cur buf i lx fp n _ h; omega
  | succ f ih =>
    intro cur buf i lx fp n hh hf hn
    rw [lex_identifier_loop]
    rcases e2 : next_char lx fp with ⟨c2, lx2, fp2⟩
    have l2 := length_of_next_char e2
    dsimp only
    rcases e3 : peek_char lx2 fp2 with ⟨c3, lx3, fp3⟩
    have l3 := length_of_peek_char e3
    dsimp only
    by_cases hc : cur ≠ NUL ∧ isalnum cur = true
    · have hpos := length_pos_of_head (hh hc.1)
      rw [if_pos hc]
      split_ifs
      · exact ih _ _ _ _ _ _ (peek_char_head e3) (by omega) (by omega)
      · exact ⟨rfl, hn⟩
    · rw [if_neg hc]
      exact within_make_token_text n _ _ _ _ _ hn



theorem within_lex_identifier (u : Unspec) (lx : Lexer) (c : Char) (cs : List Char) (p : Nat)
    (hc : isalpha c = true) : (lex_identifier u lx ⟨c :: cs, p⟩).Within cs.length := by
  have ha := isalnum_of_isalpha hc
  have hn := isalnum_ne_nul ha
  unfold lex_identifier
  rw [peek_char_cons _ c cs p hn (isalnum_ne_eof ha)]
  dsimp only
  rw [lex_identifier_loop]
  rcases e3 : peek_char (next_char lx ⟨c :: cs, p⟩).2.1 (next_char lx ⟨c :: cs, p⟩).2.2 with
    ⟨c3, lx3, fp3⟩
  have l3 := length_of_peek_char e3
  rw [next_char_cons _ _ _ _ (isalnum_ne_eof ha)] at l3
  have l3 : fp3.rest.length ≤ cs.length := l3
  simp only [ne_eq, hn, not_false_eq_true, ha, and_self, if_true, Nat.zero_lt_succ,
    Nat.lt_add_one, not_true_eq_false, if_false, Nat.ofNat_pos]
  rw [e3]
  dsimp only
  exact within_lex_identifier_loop _ _ _ _ _ _ _ _ (peek_char_head e3)
    (by simp only [List.length_cons]; omega) l3

theorem within_lex_number_end (n : Nat) (token : Token) (buf : List Char) (i : Nat)
    (hdp : Bool) (lx : Lexer) (fp : FILE) (h : fp.rest.length ≤ n) :
    (lex_number_end token buf i hdp lx fp).Within n := by
  unfold lex_number_end
  exact within_make_token_text n _ _ _ _ _ h

theorem within_lex_number_loop (token : Token) (fuel : Nat) :
    ∀ (cur : Char) (buf : List Char) (i : Nat) (is_hex hdp : Bool) (lx : Lexer) (fp : FILE)
      (n : Nat),
      (cur ≠ NUL → fp.rest.head? = some cur) → fp.rest.length < fuel → fp.rest.length ≤ n →
      (lex_number_loop token fuel cur buf i is_hex hdp lx fp).Within n := by
  induction fuel with
  | zero => intro cur buf i is_hex hdp lx fp n _ h; omega
  | succ f ih =>
    intro cur buf i is_hex hdp lx fp n hh hf hn
    rw [lex_number_loop]
    rcases e2 : next_char lx fp with ⟨c2, lx2, fp2⟩
    have l2 := length_of_next_char e2
    dsimp only
    rcases e3 : peek_char lx2 fp2 with ⟨c3, lx3, fp3⟩
    have l3 := length_of_peek_char e3
    dsimp only
    by_cases hc : cur ≠ NUL
    · have hpos := length_pos_of_head (hh hc)
      rw [if_pos hc]
      split_ifs
      all_goals first
        | exact ⟨rfl, hn⟩
        | (refine ⟨rfl, ?_⟩; show fp2.rest.length ≤ n; omega)
        | exact within_lex_number_end n _ _ _ _ _ _ hn
        | (refine ih _ _ _ _ _ _ _ _ (peek_char_head e3) ?_ ?_ <;> omega)
    · rw [if_neg hc]
      exact within_lex_number_end n _ _ _ _ _ _ hn

theorem within_lex_number (lx : Lexer) (c : Char) (cs : List Char) (p : Nat)
    (hc : isdigit c = true) : (lex_number lx ⟨c :: cs, p⟩).Within cs.length := by
  unfold lex_number
  dsimp only
  have e : (peek_char lx ⟨c :: cs, p⟩).2.2.rest.length + 1 = cs.length + 1 + 1 := by
    rw [peek_char_cons _ c cs p (is_numeric_ne_nul (isdigit_is_numeric hc))
      (is_numeric_ne_eof (isdigit_is_numeric hc))]
    simp
  rw [e, lex_number_loop_digit _ _ c cs (List.replicate 256 NUL) 0 _ _ lx p hc (by decide)]
  rcases e3 : peek_char (advance lx 1) ⟨cs, p + 1⟩ with ⟨c3, lx3, fp3⟩
  have l3 : fp3.rest.length ≤ cs.length := length_of_peek_char e3
  dsimp only
  exact within_lex_number_loop _ _ _ _ _ _ _ _ _ _ (peek_char_head e3)
    (Nat.lt_succ_of_le l3) l3



theorem length_lex_char_literal_loop (steps : Nat) :
    ∀ (i : Nat) (buf : List Char) (lx : Lexer) (fp : FILE) (i1 : Nat) (buf1 : List Char)
      (lx1 : Lexer) (fp1 : FILE),
      lex_char_literal_loop steps i buf lx fp = (i1, buf1, lx1, fp1) →
      fp1.rest.length ≤ fp.rest.length := by
  induction steps with
  | zero =>
    intro i buf lx fp i1 buf1 lx1 fp1 e
    simp only [lex_char_literal_loop, Prod.mk.injEq] at e
    rw [← e.2.2.2]
  | succ k ih =>
    intro i buf lx fp i1 buf1 lx1 fp1 e
    rw [lex_char_literal_loop] at e
    rcases e2 : next_char lx fp with ⟨c2, lx2, fp2⟩
    have l2 := length_of_next_char e2
    rw [e2] at e
    dsimp only at e
    split_ifs at e
    · simp only [Prod.mk.injEq] at e
      rw [← e.2.2.2]; omega
    · have := ih _ _ _ _ _ _ _ _ e
      omega

theorem within_lex_char_literal (u : Unspec) (lx : Lexer) (c : Char) (cs : List Char)
    (p : Nat) : (lex_char_literal u lx ⟨c :: cs, p⟩).Within cs.length := by
  unfold lex_char_literal
  rcases el : lex_char_literal_loop 4 0 (uninitialised u 4) lx ⟨c :: cs, p⟩ with
    ⟨i, buf, lx2, fp2⟩
  have l2 : fp2.rest.length ≤ cs.length := by
    rw [lex_char_literal_loop] at el
    rcases e : next_char lx ⟨c :: cs, p⟩ with ⟨c1, lx1, fp1⟩
    have l1 := length_of_next_char e
    rw [e] at el
    simp only [gt_iff_lt, Nat.lt_irrefl, and_false, if_false] at el
    have l3 := length_lex_char_literal_loop _ _ _ _ _ _ _ _ _ el
    simp only [List.length_cons, Nat.add_sub_cancel] at l1
    omega
  dsimp only
  split_ifs
  all_goals first
    | exact ⟨rfl, l2⟩
    | exact within_make_token_text _ _ _ _ _ _ l2

theorem within_lex_string_literal_loop (token : Token) (fuel : Nat) :
    ∀ (cur : Char) (buf : List Char) (i : Nat) (lx : Lexer) (fp : FILE) (n : Nat),
      0 < fuel → (cur ≠ NUL → fp.rest.length + 1 < fuel) → fp.rest.length ≤ n →
      (lex_string_literal_loop token fuel cur buf i lx fp).Within n := by
  induction fuel with
  | zero => intro cur buf i lx fp n h; omega
  | succ f ih =>
    intro cur buf i lx fp n _ hf hn
    rw [lex_string_literal_loop]
    rcases e2 : next_char lx fp with ⟨c2, lx2, fp2⟩
    have l2 := length_of_next_char e2
    dsimp only
    rcases e3 : next_char lx2 fp2 with ⟨c3, lx3, fp3⟩
    have l3 := length_of_next_char e3
    dsimp only
    by_cases hc : cur ≠ NUL
    · have hf1 := hf hc
      have k2 : c2 ≠ NUL → 0 < fp.rest.length := fun h =>
        List.length_pos.2 (next_char_ne_nul e2 h)
      have k3 : c3 ≠ NUL → 0 < fp2.rest.length := fun h =>
        List.length_pos.2 (next_char_ne_nul e3 h)
      rw [if_pos hc]
      split_ifs
      all_goals first
        | exact ⟨rfl, hn⟩
        | (refine ⟨rfl, ?_⟩; show fp2.rest.length ≤ n; omega)
        | exact within_make_token_text n _ _ _ _ _ hn
        | (refine ih c2 _ _ lx2 fp2 _ (by omega) ?_ (by omega)
           intro h; have := k2 h; omega)
        | (refine ih c3 _ _ lx3 fp3 _ (by omega) ?_ (by omega)
           intro h; have := k3 h; omega)
    · rw [if_neg hc]
      exact within_make_token_text n _ _ _ _ _ hn

theorem within_lex_string_literal (u : Unspec) (lx : Lexer) (c : Char) (cs : List Char)
    (p : Nat) : (lex_string_literal u lx ⟨c :: cs, p⟩).Within cs.length := by
  unfold lex_string_literal
  rcases e : next_char lx ⟨c :: cs, p⟩ with ⟨c1, lx1, fp1⟩
  have l1 := length_of_next_char e
  simp only [List.length_cons, Nat.add_sub_cancel] at l1
  dsimp only
  exact within_lex_string_literal_loop _ _ _ _ _ _ _ _ (Nat.succ_pos _)
    (fun _ => Nat.lt_succ_self _) (Nat.le_of_eq l1)

theorem discard_line_loop_some (start_line : Nat) (fuel : Nat) :
    ∀ (lx : Lexer) (fp : FILE), fp.rest.length < fuel →
      ∃ lx1 fp1, discard_line_loop start_line fuel lx fp = some (lx1, fp1) ∧
        fp1.rest.length ≤ fp.rest.length := by
  induction fuel with
  | zero => intro lx fp h; omega
  | succ f ih =>
    intro lx fp hf
    rw [discard_line_loop]
    rcases e2 : next_char lx fp with ⟨c2, lx2, fp2⟩
    have l2 := length_of_next_char e2
    dsimp only
    split_ifs with h1 h2
    · exact ⟨_, _, rfl, by omega⟩
    · have hpos : 0 < fp.rest.length := List.length_pos.2 (next_char_ne_nul e2 h2)
      obtain ⟨lx1, fp1, h3, h4⟩ := ih lx2 fp2 (by omega)
      exact ⟨lx1, fp1, h3, by omega⟩
    · exact ⟨_, _, rfl, Nat.le_refl _⟩

theorem within_discard_line (n : Nat) (lx : Lexer) (fp : FILE) (h : fp.rest.length ≤ n) :
    Outcome.Within n
      (match discard_line lx fp with
       | none => .stopped .out_of_fuel lx fp
       | some (lx, fp) => .returned true lx fp) := by
  obtain ⟨lx1, fp1, h1, h2⟩ := discard_line_loop_some lx.current_line (fp.rest.length + 1)
    lx fp (Nat.lt_succ_self _)
  unfold discard_line
  rw [h1]
  exact ⟨rfl, Nat.le_trans h2 h⟩

theorem within_lex_symbol_end (n : Nat) (u : Unspec) (token : Token) (lx : Lexer) (fp : FILE)
    (h : fp.rest.length ≤ n) : (lex_symbol_end u token lx fp).Within n := by
  unfold lex_symbol_end
  split_ifs <;> exact ⟨rfl, h⟩

theorem within_lex_symbol_one (n : Nat) (u : Unspec) (token : Token) (cur c1 : Char)
    (t1 : Int) (lx : Lexer) (fp : FILE) (h : fp.rest.length ≤ n) :
    (lex_symbol_one u token cur c1 t1 lx fp).Within n := by
  unfold lex_symbol_one
  rcases e2 : peek_char lx fp with ⟨c2, lx2, fp2⟩
  have l2 := length_of_peek_char e2
  dsimp only
  rcases e3 : next_char lx2 fp2 with ⟨c3, lx3, fp3⟩
  have l3 := length_of_next_char e3
  dsimp only
  split_ifs
  · exact within_lex_symbol_end n u _ _ _ (by omega)
  · exact within_lex_symbol_end n u _ _ _ (by omega)

theorem within_lex_symbol_two (n : Nat) (u : Unspec) (token : Token) (cur c1 : Char)
    (t1 : Int) (c2 : Char) (t2 : Int) (lx : Lexer) (fp : FILE) (h : fp.rest.length ≤ n) :
    (lex_symbol_two u token cur c1 t1 c2 t2 lx fp).Within n := by
  unfold lex_symbol_two
  rcases e2 : peek_char lx fp with ⟨p2, lx2, fp2⟩
  have l2 := length_of_peek_char e2
  dsimp only
  rcases e3 : next_char lx2 fp2 with ⟨c3, lx3, fp3⟩
  have l3 := length_of_next_char e3
  dsimp only
  split_ifs
  · exact within_lex_symbol_end n u _ _ _ (by omega)
  · exact within_lex_symbol_one n u _ _ _ _ _ _ (by omega)

theorem within_ite (n : Nat) (c : Prop) [Decidable c] (a b : Outcome)
    (ha : a.Within n) (hb : b.Within n) : (if c then a else b).Within n := by
  split
  · exact ha
  · exact hb

theorem within_lex_symbol_minus (n : Nat) (u : Unspec) (token : Token) (cur : Char)
    (lx : Lexer) (fp : FILE) (h : fp.rest.length ≤ n) :
    (lex_symbol_minus u token cur lx fp).Within n := by
  unfold lex_symbol_minus
  rcases e3 : peek_char lx fp with ⟨p3, lx3, fp3⟩
  have l3 := length_of_peek_char e3
  dsimp only
  rcases e4 : next_char lx3 fp3 with ⟨c4, lx4, fp4⟩
  have l4 := length_of_next_char e4
  rcases e5 : peek_char lx3 fp3 with ⟨p5, lx5, fp5⟩
  have l5 := length_of_peek_char e5
  dsimp only
  rcases e6 : next_char lx5 fp5 with ⟨c6, lx6, fp6⟩
  have l6 := length_of_next_char e6
  dsimp only
  apply within_ite
  · exact within_lex_symbol_end n u _ _ _ (by omega)
  · apply within_ite
    · exact within_lex_symbol_end n u _ _ _ (by omega)
    · exact within_lex_symbol_one n u _ _ _ _ _ _ (by omega)

theorem within_lex_symbol_slash (n : Nat) (u : Unspec) (token : Token) (cur : Char)
    (lx : Lexer) (fp : FILE) (h : fp.rest.length ≤ n) :
    (lex_symbol_slash u token cur lx fp).Within n := by
  unfold lex_symbol_slash
  rcases e3 : peek_char lx fp with ⟨p3, lx3, fp3⟩
  have l3 := length_of_peek_char e3
  dsimp only
  apply within_ite
  · exact within_discard_line n _ _ (by omega)
  · exact within_lex_symbol_one n u _ _ _ _ _ _ (by omega)

theorem within_lex_symbol_switch (n : Nat) (u : Unspec) (token : Token) (cur : Char)
    (lx : Lexer) (fp : FILE) (h : fp.rest.length ≤ n) :
    (lex_symbol_switch u token cur lx fp).Within n := by
  unfold lex_symbol_switch
  have hend : ∀ (t : Token), (lex_symbol_end u t lx fp).Within n :=
    fun t => within_lex_symbol_end n u t lx fp h
  have hone : ∀ (c1 : Char) (t1 : Int), (lex_symbol_one u token cur c1 t1 lx fp).Within n :=
    fun c1 t1 => within_lex_symbol_one n u token cur c1 t1 lx fp h
  have htwo : ∀ (c1 : Char) (t1 : Int) (c2 : Char) (t2 : Int),
      (lex_symbol_two u token cur c1 t1 c2 t2 lx fp).Within n :=
    fun c1 t1 c2 t2 => within_lex_symbol_two n u token cur c1 t1 c2 t2 lx fp h
  refine within_ite n _ _ _ (htwo _ _ _ _) ?_
  refine within_ite n _ _ _ (within_lex_symbol_minus n u _ _ _ _ h) ?_
  refine within_ite n _ _ _ (within_lex_symbol_slash n u _ _ _ _ h) ?_
  refine within_ite n _ _ _ (hone _ _) ?_
  refine within_ite n _ _ _ (hone _ _) ?_
  refine within_ite n _ _ _ (hend _) ?_
  refine within_ite n _ _ _ (hone _ _) ?_
  refine within_ite n _ _ _ (hone _ _) ?_
  refine within_ite n _ _ _ (hone _ _) ?_
  refine within_ite n _ _ _ (hone _ _) ?_
  refine within_ite n _ _ _ (htwo _ _ _ _) ?_
  refine within_ite n _ _ _ (htwo _ _ _ _) ?_
  refine within_ite n _ _ _ (hone _ _) ?_
  refine within_ite n _ _ _ (hend _) ?_
  refine within_ite n _ _ _ (hend _) ?_
  exact hend _

theorem within_lex_symbol (u : Unspec) (lx : Lexer) (c : Char) (cs : List Char) (p : Nat) :
    (lex_symbol u lx ⟨c :: cs, p⟩).Within cs.length := by
  unfold lex_symbol
  rcases e : next_char lx ⟨c :: cs, p⟩ with ⟨c1, lx1, fp1⟩
  have l1 := length_of_next_char e
  simp only [List.length_cons, Nat.add_sub_cancel] at l1
  dsimp only
  exact within_lex_symbol_switch _ u _ _ _ _ (Nat.le_of_eq l1)

theorem skip_space_some (fuel : Nat) :
    ∀ (cur : Char) (lx : Lexer) (fp : FILE),
      (cur ≠ NUL → fp.rest.head? = some cur) → fp.rest.length < fuel →
      ∃ cur1 lx1 fp1, skip_space fuel cur lx fp = some (cur1, lx1, fp1) ∧
        fp1.rest.length ≤ fp.rest.length ∧ (cur1 ≠ NUL → fp1.rest.head? = some cur1) := by
  induction fuel with
  | zero => intro cur lx fp _ h; omega
  | succ f ih =>
    intro cur lx fp hh hf
    rw [skip_space]
    rcases e2 : next_char lx fp with ⟨c2, lx2, fp2⟩
    have l2 := length_of_next_char e2
    dsimp only
    rcases e3 : peek_char lx2 fp2 with ⟨c3, lx3, fp3⟩
    have l3 := length_of_peek_char e3
    dsimp only
    split_ifs with h1
    · have hpos := length_pos_of_head (hh h1.1)
      obtain ⟨cur1, lx1, fp1, k1, k2, k3⟩ := ih c3 lx3 fp3 (peek_char_head e3) (by omega)
      exact ⟨cur1, lx1, fp1, k1, by omega, k3⟩
    · exact ⟨_, _, _, rfl, Nat.le_refl _, hh⟩

/-- The driver loop never stops for lack of fuel when it starts with more fuel than
the stream has characters. -/
theorem lex_file_loop_complete (u : Unspec) (fuel : Nat) :
    ∀ (lx : Lexer) (fp : FILE), fp.rest.length < fuel →
      (lex_file_loop u fuel lx fp).complete = true := by
  induction fuel with
  | zero => intro lx fp h; omega
  | succ f ih =>
    intro lx fp hf
    rw [lex_file_loop]
    rcases e2 : peek_char lx fp with ⟨c2, lx2, fp2⟩
    have l2 := length_of_peek_char e2
    dsimp only
    obtain ⟨cur, lx3, fp3, k1, k2, k3⟩ := skip_space_some (fp2.rest.length + 1) c2 lx2 fp2
      (peek_char_head e2) (Nat.lt_succ_self _)
    rw [k1]
    dsimp only
    by_cases hc : cur = NUL
    · simp only [hc, if_true]
      rfl
    · simp only [hc, if_false]
      obtain ⟨s3, p3⟩ := fp3
      cases s3 with
      | nil => exact absurd (k3 hc) (by simp)
      | cons a cs =>
        have ha : a = cur := by
          have := k3 hc
          simpa using this
        subst ha
        simp only [List.length_cons] at k2
        have hr : Outcome.Within cs.length
            (if isalpha a = true then lex_identifier u lx3 ⟨a :: cs, p3⟩
             else if isdigit a = true then lex_number lx3 ⟨a :: cs, p3⟩
             else if a = QUOTE then lex_char_literal u lx3 ⟨a :: cs, p3⟩
             else if a = DQUOTE then lex_string_literal u lx3 ⟨a :: cs, p3⟩
             else lex_symbol u lx3 ⟨a :: cs, p3⟩) := by
          split_ifs with g1 g2
          · exact within_lex_identifier u lx3 a cs p3 g1
          · exact within_lex_number lx3 a cs p3 g2
          · exact within_lex_char_literal u lx3 a cs p3
          · exact within_lex_string_literal u lx3 a cs p3
          · exact within_lex_symbol u lx3 a cs p3
        revert hr
        generalize (if isalpha a = true then lex_identifier u lx3 ⟨a :: cs, p3⟩
             else if isdigit a = true then lex_number lx3 ⟨a :: cs, p3⟩
             else if a = QUOTE then lex_char_literal u lx3 ⟨a :: cs, p3⟩
             else if a = DQUOTE then lex_string_literal u lx3 ⟨a :: cs, p3⟩
             else lex_symbol u lx3 ⟨a :: cs, p3⟩) = r
        intro hr
        cases r with
        | returned b lx4 fp4 =>
          cases b with
          | true =>
            have : fp4.rest.length ≤ cs.length := hr.2
            exact ih lx4 fp4 (by omega)
          | false => rfl
        | stopped e lx4 fp4 => exact hr.1

/-- The method `lex_file` never stops for lack of fuel: every outcome of the model is
an outcome of the source (a return value or a stop at an assertion or an access the
source does not allow). -/
theorem lex_file_complete (u : Unspec) (lx : Lexer) (filename : String) (inp : List Char) :
    (lex_file u lx filename inp).complete = true := by
  unfold lex_file
  exact lex_file_loop_complete u _ _ _ (Nat.lt_succ_self _)

/-! ## Position tracking: C1 -/

theorem drop_eq_cons {inp : List Char} {k : Nat} {c : Char} {cs : List Char}
    (h : inp.drop k = c :: cs) :
    k < inp.length ∧ inp.drop (k + 1) = cs ∧ inp.take (k + 1) = inp.take k ++ [c] := by
  induction inp generalizing k with
  | nil => simp at h
  | cons a as ih =>
    cases k with
    | zero =>
      simp only [List.drop_zero, List.cons.injEq] at h
      obtain ⟨rfl, rfl⟩ := h
      simp
    | succ j =>
      simp only [List.drop_succ_cons] at h
      obtain ⟨h1, h2, h3⟩ := ih h
      refine ⟨by simp; omega, by simpa using h2, by simp [h3]⟩

theorem line_of_succ {inp : List Char} {k : Nat} {c : Char} {cs : List Char}
    (h : inp.drop k = c :: cs) :
    line_of inp (k + 1) = if c = NEWLINE then line_of inp k + 1 else line_of inp k := by
  obtain ⟨_, _, h3⟩ := drop_eq_cons h
  simp only [line_of, h3, List.count_append]
  split
  · next e => subst e; simp; omega
  · next e => simp [List.count_singleton, e]

theorem column_of_succ {inp : List Char} {k : Nat} {c : Char} {cs : List Char}
    (h : inp.drop k = c :: cs) :
    column_of inp (k + 1) = if c = NEWLINE then 1 else column_of inp k + 1 := by
  obtain ⟨_, _, h3⟩ := drop_eq_cons h
  simp only [column_of, h3, List.reverse_append, List.reverse_singleton, List.singleton_append]
  split
  · next e => subst e; simp
  · next e => simp [e]; omega

theorem tracks_next_char (inp : List Char) (lx : Lexer) (fp : FILE) (h : Tracks inp lx fp) :
    Tracks inp (next_char lx fp).2.1 (next_char lx fp).2.2 := by
  obtain ⟨s, p⟩ := fp
  cases s with
  | nil => exact h
  | cons c cs =>
    obtain ⟨h0, h1, h2, h3, h4⟩ := h
    simp only at h1 h2 h3
    have hc : c ≠ EOFBYTE := by
      intro e
      apply h0
      have hm : c ∈ inp.drop p := by rw [← h1]; exact List.mem_cons_self _ _
      rw [← e]
      exact List.mem_of_mem_drop hm
    rw [next_char_cons _ _ _ _ hc]
    refine ⟨h0, (drop_eq_cons h1.symm).2.1.symm, ?_, ?_, ?_⟩
    · simp only [line_of_succ h1.symm, bump]
      split <;> simp [h2]
    · simp only [column_of_succ h1.symm, bump]
      split <;> simp [h3]
    · simp only [bump]
      split <;> exact h4

theorem tracks_peek_char (inp : List Char) (lx : Lexer) (fp : FILE) (h : Tracks inp lx fp) :
    Tracks inp (peek_char lx fp).2.1 (peek_char lx fp).2.2 := by
  obtain ⟨s, p⟩ := fp
  cases s with
  | nil => exact h
  | cons c cs =>
    rw [peek_char_cons_if]
    split
    · next e =>
      have := tracks_next_char inp lx ⟨c :: cs, p⟩ h
      rw [e, next_char_cons _ _ _ _ nul_ne_eof] at this
      exact this
    · split
      · next e =>
        have := tracks_next_char inp lx ⟨c :: cs, p⟩ h
        rw [e, next_char_eof] at this
        exact this
      · exact h

theorem tracks_push_back (inp : List Char) (lx : Lexer) (fp : FILE) (t : Token)
    (h : Tracks inp lx fp) (ht : Placed inp t) : Tracks inp (push_back lx t) fp := by
  obtain ⟨h0, h1, h2, h3, h4⟩ := h
  refine ⟨h0, h1, h2, h3, ?_⟩
  intro x hx
  simp only [push_back, List.mem_append, List.mem_singleton] at hx
  rcases hx with hx | rfl
  · exact h4 x hx
  · exact ht

theorem placed_start_token (inp : List Char) (lx : Lexer) (fp : FILE) (h : Tracks inp lx fp)
    (hne : fp.rest ≠ []) : Placed inp (start_token lx fp) := by
  obtain ⟨_, h1, h2, h3, _⟩ := h
  refine ⟨?_, h2, h3⟩
  simp only [start_token]
  by_contra hlt
  exact hne (by rw [h1]; exact List.drop_eq_nil_of_le (by omega))

theorem placed_of_eq (inp : List Char) (t t1 : Token) (h : Placed inp t)
    (h1 : t1.offset = t.offset) (h2 : t1.line_number = t.line_number)
    (h3 : t1.column_number = t.column_number) : Placed inp t1 := by
  unfold Placed at *
  rw [h1, h2, h3]; exact h

theorem placed_make_token_text (inp : List Char) (t t1 : Token) (buf : List Char) (i : Nat)
    (h : Placed inp t) (h1 : make_token_text t buf i = .ok t1) : Placed inp t1 := by
  unfold make_token_text at h1
  split_ifs at h1
  simp only [Except.ok.injEq] at h1
  subst h1
  exact h



theorem tracks_of_next_char {inp : List Char} {lx : Lexer} {fp : FILE} {c : Char}
    {lx1 : Lexer} {fp1 : FILE} (e : next_char lx fp = (c, lx1, fp1)) (h : Tracks inp lx fp) :
    Tracks inp lx1 fp1 := by
  have := tracks_next_char inp lx fp h
  rw [e] at this
  exact this

theorem tracks_of_peek_char {inp : List Char} {lx : Lexer} {fp : FILE} {c : Char}
    {lx1 : Lexer} {fp1 : FILE} (e : peek_char lx fp = (c, lx1, fp1)) (h : Tracks inp lx fp) :
    Tracks inp lx1 fp1 := by
  have := tracks_peek_char inp lx fp h
  rw [e] at this
  exact this

theorem tracks_discard_line_loop (inp : List Char) (start_line : Nat) (fuel : Nat) :
    ∀ (lx : Lexer) (fp : FILE) (lx1 : Lexer) (fp1 : FILE), Tracks inp lx fp →
      discard_line_loop start_line fuel lx fp = some (lx1, fp1) → Tracks inp lx1 fp1 := by
  induction fuel with
  | zero => intro lx fp lx1 fp1 _ h; simp [discard_line_loop] at h
  | succ f ih =>
    intro lx fp lx1 fp1 ht h
    rw [discard_line_loop] at h
    rcases hn : next_char lx fp with ⟨c, lx2, fp2⟩
    have ht2 := tracks_of_next_char hn ht
    rw [hn] at h
    dsimp only at h
    by_cases e1 : lx.current_line = start_line
    · by_cases e2 : c = NUL
      · simp only [e1, e2, if_true, Option.some.injEq, Prod.mk.injEq] at h
        rw [← h.1, ← h.2]; exact ht2
      · simp only [e1, e2, if_true, if_false] at h
        exact ih _ _ lx1 fp1 ht2 h
    · simp only [e1, if_false, Option.some.injEq, Prod.mk.injEq] at h
      rw [← h.1, ← h.2]; exact ht

theorem tracks_make_token_text (inp : List Char) (token : Token) (ht : Placed inp token)
    (buf : List Char) (i : Nat) (lx : Lexer) (fp : FILE) (h : Tracks inp lx fp) :
    Outcome.Tracks inp
      (match make_token_text token buf i with
       | .error e => .stopped e lx fp
       | .ok token => .returned true (push_back lx token) fp) := by
  cases hm : make_token_text token buf i with
  | error e => exact h
  | ok t1 => exact tracks_push_back inp lx fp t1 h (placed_make_token_text inp _ _ _ _ ht hm)

theorem tracks_lex_identifier_loop (inp : List Char) (token : Token) (ht : Placed inp token)
    (fuel : Nat) :
    ∀ (cur : Char) (buf : List Char) (i : Nat) (lx : Lexer) (fp : FILE), Tracks inp lx fp →
      (lex_identifier_loop token fuel cur buf i lx fp).Tracks inp := by
  induction fuel with
  | zero => intro cur buf i lx fp h; exact h
  | succ f ih =>
    intro cur buf i lx fp h
    rw [lex_identifier_loop]
    rcases hn : next_char lx fp with ⟨c, lx2, fp2⟩
    have h2 := tracks_of_next_char hn h
    dsimp only
    rcases hp : peek_char lx2 fp2 with ⟨c3, lx3, fp3⟩
    have h3 := tracks_of_peek_char hp h2
    dsimp only
    split_ifs
    all_goals first
      | exact h
      | exact ih _ _ _ _ _ h3
      | exact tracks_make_token_text inp token ht _ _ _ _ h

theorem tracks_lex_identifier (inp : List Char) (u : Unspec) (lx : Lexer) (fp : FILE)
    (h : Tracks inp lx fp) (hne : fp.rest ≠ []) : (lex_identifier u lx fp).Tracks inp := by
  unfold lex_identifier
  rcases hp : peek_char lx fp with ⟨c, lx2, fp2⟩
  dsimp only
  refine tracks_lex_identifier_loop inp _ ?_ _ _ _ _ _ _ (tracks_of_peek_char hp h)
  exact placed_start_token inp lx fp h hne

theorem tracks_lex_number_end (inp : List Char) (token : Token) (ht : Placed inp token)
    (buf : List Char) (i : Nat) (hdp : Bool) (lx : Lexer) (fp : FILE) (h : Tracks inp lx fp) :
    (lex_number_end token buf i hdp lx fp).Tracks inp := by
  unfold lex_number_end
  refine tracks_make_token_text inp _ ?_ _ _ _ _ h
  exact ht

theorem tracks_lex_number_loop (inp : List Char) (token : Token) (ht : Placed inp token)
    (fuel : Nat) :
    ∀ (cur : Char) (buf : List Char) (i : Nat) (is_hex hdp : Bool) (lx : Lexer) (fp : FILE),
      Tracks inp lx fp → (lex_number_loop token fuel cur buf i is_hex hdp lx fp).Tracks inp := by
  induction fuel with
  | zero => intro cur buf i is_hex hdp lx fp h; exact h
  | succ f ih =>
    intro cur buf i is_hex hdp lx fp h
    rw [lex_number_loop]
    rcases hn : next_char lx fp with ⟨c, lx2, fp2⟩
    have h2 := tracks_of_next_char hn h
    dsimp only
    rcases hp : peek_char lx2 fp2 with ⟨c3, lx3, fp3⟩
    have h3 := tracks_of_peek_char hp h2
    dsimp only
    split_ifs
    all_goals first
      | exact h
      | exact h2
      | exact tracks_lex_number_end inp token ht _ _ _ _ _ h
      | exact ih _ _ _ _ _ _ _ h3

theorem tracks_lex_number (inp : List Char) (lx : Lexer) (fp : FILE)
    (h : Tracks inp lx fp) (hne : fp.rest ≠ []) : (lex_number lx fp).Tracks inp := by
  unfold lex_number
  rcases hp : peek_char lx fp with ⟨c, lx2, fp2⟩
  dsimp only
  exact tracks_lex_number_loop inp _ (placed_start_token inp lx fp h hne) _ _ _ _ _ _ _ _
    (tracks_of_peek_char hp h)

theorem tracks_lex_char_literal_loop (inp : List Char) (steps : Nat) :
    ∀ (i : Nat) (buf : List Char) (lx : Lexer) (fp : FILE) (i1 : Nat) (buf1 : List Char)
      (lx1 : Lexer) (fp1 : FILE), Tracks inp lx fp →
      lex_char_literal_loop steps i buf lx fp = (i1, buf1, lx1, fp1) → Tracks inp lx1 fp1 := by
  induction steps with
  | zero =>
    intro i buf lx fp i1 buf1 lx1 fp1 h e
    simp only [lex_char_literal_loop, Prod.mk.injEq] at e
    rw [← e.2.2.1, ← e.2.2.2]; exact h
  | succ k ih =>
    intro i buf lx fp i1 buf1 lx1 fp1 h e
    rw [lex_char_literal_loop] at e
    rcases hn : next_char lx fp with ⟨c, lx2, fp2⟩
    have h2 := tracks_of_next_char hn h
    rw [hn] at e
    dsimp only at e
    split_ifs at e
    · simp only [Prod.mk.injEq] at e
      rw [← e.2.2.1, ← e.2.2.2]; exact h2
    · exact ih _ _ _ _ _ _ _ _ h2 e

theorem tracks_lex_char_literal (inp : List Char) (u : Unspec) (lx : Lexer) (fp : FILE)
    (h : Tracks inp lx fp) (hne : fp.rest ≠ []) : (lex_char_literal u lx fp).Tracks inp := by
  unfold lex_char_literal
  rcases hl : lex_char_literal_loop 4 0 (uninitialised u 4) lx fp with ⟨i, buf, lx2, fp2⟩
  have h2 := tracks_lex_char_literal_loop inp 4 0 _ lx fp _ _ _ _ h hl
  have hp : Placed inp { start_token lx fp with type := TOKEN_CHARACTER_LITERAL } :=
    placed_of_eq inp _ _ (placed_start_token inp lx fp h hne) rfl rfl rfl
  dsimp only
  split_ifs
  all_goals first
    | exact h2
    | exact tracks_make_token_text inp _ hp _ _ _ _ h2

theorem tracks_lex_string_literal_loop (inp : List Char) (token : Token)
    (ht : Placed inp token) (fuel : Nat) :
    ∀ (cur : Char) (buf : List Char) (i : Nat) (lx : Lexer) (fp : FILE), Tracks inp lx fp →
      (lex_string_literal_loop token fuel cur buf i lx fp).Tracks inp := by
  induction fuel with
  | zero => intro cur buf i lx fp h; exact h
  | succ f ih =>
    intro cur buf i lx fp h
    rw [lex_string_literal_loop]
    rcases hn : next_char lx fp with ⟨c, lx2, fp2⟩
    have h2 := tracks_of_next_char hn h
    dsimp only
    rcases hn3 : next_char lx2 fp2 with ⟨c3, lx3, fp3⟩
    have h3 := tracks_of_next_char hn3 h2
    dsimp only
    split_ifs
    all_goals first
      | exact h
      | exact h2
      | exact ih _ _ _ _ _ h2
      | exact ih _ _ _ _ _ h3
      | exact tracks_make_token_text inp token ht _ _ _ _ h

theorem tracks_lex_string_literal (inp : List Char) (u : Unspec) (lx : Lexer) (fp : FILE)
    (h : Tracks inp lx fp) (hne : fp.rest ≠ []) : (lex_string_literal u lx fp).Tracks inp := by
  unfold lex_string_literal
  rcases hn : next_char lx fp with ⟨c, lx2, fp2⟩
  dsimp only
  refine tracks_lex_string_literal_loop inp _ ?_ _ _ _ _ _ _ (tracks_of_next_char hn h)
  exact placed_start_token inp lx fp h hne

theorem placed_set_token_symbol_text (inp : List Char) (t : Token) (h : Placed inp t) :
    Placed inp (set_token_symbol_text t) := by
  unfold set_token_symbol_text
  split <;> exact h

theorem tracks_lex_symbol_end (inp : List Char) (u : Unspec) (token : Token)
    (ht : Placed inp token) (lx : Lexer) (fp : FILE) (h : Tracks inp lx fp) :
    (lex_symbol_end u token lx fp).Tracks inp := by
  unfold lex_symbol_end
  split_ifs
  · exact tracks_push_back inp lx fp _ h (placed_set_token_symbol_text inp _ ht)
  · exact h

theorem tracks_lex_symbol_one (inp : List Char) (u : Unspec) (token : Token)
    (ht : Placed inp token) (cur c1 : Char) (t1 : Int) (lx : Lexer) (fp : FILE)
    (h : Tracks inp lx fp) : (lex_symbol_one u token cur c1 t1 lx fp).Tracks inp := by
  unfold lex_symbol_one
  rcases hp : peek_char lx fp with ⟨c, lx2, fp2⟩
  have h2 := tracks_of_peek_char hp h
  dsimp only
  rcases hn : next_char lx2 fp2 with ⟨c3, lx3, fp3⟩
  have h3 := tracks_of_next_char hn h2
  dsimp only
  split_ifs
  · refine tracks_lex_symbol_end inp u _ ?_ _ _ h3
    exact ht
  · refine tracks_lex_symbol_end inp u _ ?_ _ _ h2
    exact ht

theorem tracks_lex_symbol_two (inp : List Char) (u : Unspec) (token : Token)
    (ht : Placed inp token) (cur c1 : Char) (t1 : Int) (c2 : Char) (t2 : Int) (lx : Lexer)
    (fp : FILE) (h : Tracks inp lx fp) :
    (lex_symbol_two u token cur c1 t1 c2 t2 lx fp).Tracks inp := by
  unfold lex_symbol_two
  rcases hp : peek_char lx fp with ⟨c, lx2, fp2⟩
  have h2 := tracks_of_peek_char hp h
  dsimp only
  rcases hn : next_char lx2 fp2 with ⟨c3, lx3, fp3⟩
  have h3 := tracks_of_next_char hn h2
  dsimp only
  split_ifs
  · refine tracks_lex_symbol_end inp u _ ?_ _ _ h3
    exact ht
  · exact tracks_lex_symbol_one inp u token ht _ _ _ _ _ h2



theorem tracks_discard_line (inp : List Char) (lx : Lexer) (fp : FILE) (h : Tracks inp lx fp) :
    Outcome.Tracks inp
      (match discard_line lx fp with
       | none => .stopped .out_of_fuel lx fp
       | some (lx, fp) => .returned true lx fp) := by
  cases hd : discard_line lx fp with
  | none => exact h
  | some v =>
    obtain ⟨lx1, fp1⟩ := v
    exact tracks_discard_line_loop inp _ _ lx fp lx1 fp1 h hd

theorem tracks_ite (inp : List Char) (c : Prop) [Decidable c] (a b : Outcome)
    (ha : a.Tracks inp) (hb : b.Tracks inp) : (if c then a else b).Tracks inp := by
  split
  · exact ha
  · exact hb

theorem tracks_lex_symbol_minus (inp : List Char) (u : Unspec) (token : Token)
    (ht : Placed inp token) (cur : Char) (lx : Lexer) (fp : FILE) (h : Tracks inp lx fp) :
    (lex_symbol_minus u token cur lx fp).Tracks inp := by
  unfold lex_symbol_minus
  rcases hp3 : peek_char lx fp with ⟨p3, lx3, fp3⟩
  have h3 := tracks_of_peek_char hp3 h
  dsimp only
  rcases hn4 : next_char lx3 fp3 with ⟨c4, lx4, fp4⟩
  have h4 := tracks_of_next_char hn4 h3
  rcases hp5 : peek_char lx3 fp3 with ⟨p5, lx5, fp5⟩
  have h5 := tracks_of_peek_char hp5 h3
  dsimp only
  rcases hn6 : next_char lx5 fp5 with ⟨c6, lx6, fp6⟩
  have h6 := tracks_of_next_char hn6 h5
  dsimp only
  apply tracks_ite
  · refine tracks_lex_symbol_end inp u _ ?_ _ _ h4
    exact ht
  · apply tracks_ite
    · exact tracks_lex_symbol_end inp u _ ht _ _ h6
    · exact tracks_lex_symbol_one inp u _ ht _ _ _ _ _ h5

theorem tracks_lex_symbol_slash (inp : List Char) (u : Unspec) (token : Token)
    (ht : Placed inp token) (cur : Char) (lx : Lexer) (fp : FILE) (h : Tracks inp lx fp) :
    (lex_symbol_slash u token cur lx fp).Tracks inp := by
  unfold lex_symbol_slash
  rcases hp3 : peek_char lx fp with ⟨p3, lx3, fp3⟩
  have h3 := tracks_of_peek_char hp3 h
  dsimp only
  apply tracks_ite
  · exact tracks_discard_line inp _ _ h3
  · exact tracks_lex_symbol_one inp u _ ht _ _ _ _ _ h3

theorem tracks_lex_symbol_switch (inp : List Char) (u : Unspec) (token : Token)
    (ht : Placed inp token) (cur : Char) (lx : Lexer) (fp : FILE) (h : Tracks inp lx fp) :
    (lex_symbol_switch u token cur lx fp).Tracks inp := by
  unfold lex_symbol_switch
  have hend : ∀ (ty : Int), (lex_symbol_end u { token with type := ty } lx fp).Tracks inp :=
    fun ty => tracks_lex_symbol_end inp u { token with type := ty } ht lx fp h
  refine tracks_ite inp _ _ _ (tracks_lex_symbol_two inp u _ ht _ _ _ _ _ _ _ h) ?_
  refine tracks_ite inp _ _ _ (tracks_lex_symbol_minus inp u _ ht _ _ _ h) ?_
  refine tracks_ite inp _ _ _ (tracks_lex_symbol_slash inp u _ ht _ _ _ h) ?_
  refine tracks_ite inp _ _ _ (tracks_lex_symbol_one inp u _ ht _ _ _ _ _ h) ?_
  refine tracks_ite inp _ _ _ (tracks_lex_symbol_one inp u _ ht _ _ _ _ _ h) ?_
  refine tracks_ite inp _ _ _ (hend _) ?_
  refine tracks_ite inp _ _ _ (tracks_lex_symbol_one inp u _ ht _ _ _ _ _ h) ?_
  refine tracks_ite inp _ _ _ (tracks_lex_symbol_one inp u _ ht _ _ _ _ _ h) ?_
  refine tracks_ite inp _ _ _ (tracks_lex_symbol_one inp u _ ht _ _ _ _ _ h) ?_
  refine tracks_ite inp _ _ _ (tracks_lex_symbol_one inp u _ ht _ _ _ _ _ h) ?_
  refine tracks_ite inp _ _ _ (tracks_lex_symbol_two inp u _ ht _ _ _ _ _ _ _ h) ?_
  refine tracks_ite inp _ _ _ (tracks_lex_symbol_two inp u _ ht _ _ _ _ _ _ _ h) ?_
  refine tracks_ite inp _ _ _ (tracks_lex_symbol_one inp u _ ht _ _ _ _ _ h) ?_
  refine tracks_ite inp _ _ _ (hend _) ?_
  refine tracks_ite inp _ _ _ (hend _) ?_
  exact tracks_lex_symbol_end inp u _ ht _ _ h

theorem tracks_lex_symbol (inp : List Char) (u : Unspec) (lx : Lexer) (fp : FILE)
    (h : Tracks inp lx fp) (hne : fp.rest ≠ []) : (lex_symbol u lx fp).Tracks inp := by
  unfold lex_symbol
  rcases hn : next_char lx fp with ⟨cur, lx2, fp2⟩
  dsimp only
  exact tracks_lex_symbol_switch inp u _ (placed_start_token inp lx fp h hne) _ _ _
    (tracks_of_next_char hn h)

theorem tracks_skip_space (inp : List Char) (fuel : Nat) :
    ∀ (cur : Char) (lx : Lexer) (fp : FILE) (cur1 : Char) (lx1 : Lexer) (fp1 : FILE),
      Tracks inp lx fp → (cur ≠ NUL → fp.rest.head? = some cur) →
      skip_space fuel cur lx fp = some (cur1, lx1, fp1) →
      Tracks inp lx1 fp1 ∧ (cur1 ≠ NUL → fp1.rest.head? = some cur1) := by
  induction fuel with
  | zero => intro cur lx fp cur1 lx1 fp1 _ _ e; simp [skip_space] at e
  | succ f ih =>
    intro cur lx fp cur1 lx1 fp1 h hh e
    rw [skip_space] at e
    rcases hn : next_char lx fp with ⟨c2, lx2, fp2⟩
    have h2 := tracks_of_next_char hn h
    rw [hn] at e
    dsimp only at e
    rcases hp : peek_char lx2 fp2 with ⟨c3, lx3, fp3⟩
    have h3 := tracks_of_peek_char hp h2
    rw [hp] at e
    dsimp only at e
    split_ifs at e
    · exact ih _ _ _ _ _ _ h3 (peek_char_head hp) e
    · simp only [Option.some.injEq, Prod.mk.injEq] at e
      obtain ⟨rfl, rfl, rfl⟩ := e
      exact ⟨h, hh⟩

theorem tracks_lex_file_loop (inp : List Char) (u : Unspec) (fuel : Nat) :
    ∀ (lx : Lexer) (fp : FILE), Tracks inp lx fp → (lex_file_loop u fuel lx fp).Tracks inp := by
  induction fuel with
  | zero => intro lx fp h; exact h
  | succ f ih =>
    intro lx fp h
    rw [lex_file_loop]
    rcases hp : peek_char lx fp with ⟨c2, lx2, fp2⟩
    have h2 := tracks_of_peek_char hp h
    dsimp only
    cases hs : skip_space (fp2.rest.length + 1) c2 lx2 fp2 with
    | none => exact h2
    | some v =>
      obtain ⟨cur, lx3, fp3⟩ := v
      obtain ⟨h3, hh3⟩ := tracks_skip_space inp _ _ _ _ _ _ _ h2 (peek_char_head hp) hs
      dsimp only
      by_cases hc : cur = NUL
      · simp only [hc, if_true]
        exact h3
      · simp only [hc, if_false]
        have hne : fp3.rest ≠ [] := by
          intro e
          have := hh3 hc
          rw [e] at this
          cases this
        have hr : Outcome.Tracks inp
            (if isalpha cur = true then lex_identifier u lx3 fp3
             else if isdigit cur = true then lex_number lx3 fp3
             else if cur = QUOTE then lex_char_literal u lx3 fp3
             else if cur = DQUOTE then lex_string_literal u lx3 fp3
             else lex_symbol u lx3 fp3) := by
          split_ifs
          · exact tracks_lex_identifier inp u lx3 fp3 h3 hne
          · exact tracks_lex_number inp lx3 fp3 h3 hne
          · exact tracks_lex_char_literal inp u lx3 fp3 h3 hne
          · exact tracks_lex_string_literal inp u lx3 fp3 h3 hne
          · exact tracks_lex_symbol inp u lx3 fp3 h3 hne
        revert hr
        generalize (if isalpha cur = true then lex_identifier u lx3 fp3
             else if isdigit cur = true then lex_number lx3 fp3
             else if cur = QUOTE then lex_char_literal u lx3 fp3
             else if cur = DQUOTE then lex_string_literal u lx3 fp3
             else lex_symbol u lx3 fp3) = r
        intro hr
        cases r with
        | returned b lx4 fp4 =>
          cases b with
          | true => exact ih lx4 fp4 hr
          | false => exact hr
        | stopped e lx4 fp4 => exact hr

theorem tracks_lex_file (u : Unspec) (filename : String) (inp : List Char)
    (h : EOFBYTE ∉ inp) : (lex_file u Lexer.new filename inp).Tracks inp := by
  unfold lex_file
  apply tracks_lex_file_loop
  refine ⟨h, rfl, rfl, rfl, ?_⟩
  intro t ht
  cases ht

/-! ## Where the text of a token starts -/

theorem next_char_tokens (lx : Lexer) (fp : FILE) :
    (next_char lx fp).2.1.tokens = lx.tokens := by
  obtain ⟨s, p⟩ := fp
  cases s with
  | nil => rfl
  | cons c cs =>
    rw [next_char_cons_if]
    split
    · rfl
    · simp only [bump]; split <;> rfl

theorem tokens_of_next_char {lx : Lexer} {fp : FILE} {c : Char} {lx1 : Lexer} {fp1 : FILE}
    (e : next_char lx fp = (c, lx1, fp1)) : lx1.tokens = lx.tokens := by
  have := next_char_tokens lx fp
  rw [e] at this
  exact this

theorem tokens_of_peek_char {lx : Lexer} {fp : FILE} {c : Char} {lx1 : Lexer} {fp1 : FILE}
    (e : peek_char lx fp = (c, lx1, fp1)) : lx1.tokens = lx.tokens := by
  have := peek_char_tokens lx fp
  rw [e] at this
  exact this

theorem head_take_succ (buf : List Char) (k : Nat) : (buf.take (k + 1)).head? = buf.head? := by
  cases buf <;> rfl

theorem head_set_succ (buf : List Char) (k : Nat) (x : Char) :
    (buf.set (k + 1) x).head? = buf.head? := by
  cases buf <;> rfl

theorem head_set_zero (buf : List Char) (x : Char) (h : 0 < buf.length) :
    (buf.set 0 x).head? = some x := by
  cases buf with
  | nil => simp at h
  | cons a as => rfl

theorem adds_lex_identifier (u : Unspec) (lx : Lexer) (c : Char) (cs : List Char) (p : Nat)
    (hc : isalpha c = true) : (lex_identifier u lx ⟨c :: cs, p⟩).Adds c p lx := by
  have ha := isalnum_of_isalpha hc
  obtain ⟨run, h1, h2, h3⟩ := takeWhile_of_head isalnum (c :: cs) c rfl ha
  rw [h3]
  by_cases hl : run.length + 1 ≤ 256
  · right
    rw [lex_identifier_fits u lx p c run _ ha h2 (head_dropWhile_false isalnum (c :: cs)) hl]
    refine ⟨token_at lx p TOKEN_IDENT (c :: run), ?_, rfl, Or.inl rfl⟩
    show (push_back _ _).tokens = _
    simp only [push_back, peek_char_tokens, advance]
  · left
    obtain ⟨lx1, fp1, e1, e2⟩ := lex_identifier_overflow u lx p c run
      (List.dropWhile isalnum (c :: cs)) ha h2 (by omega)
    rw [e1]
    exact e2

set_option maxHeartbeats 1600000 in
/-- The loop of `lex_number` leaves the token list alone unless it returns `true`. -/
theorem lex_number_loop_keeps (token : Token) (fuel : Nat) :
    ∀ (cur : Char) (buf : List Char) (i : Nat) (is_hex hdp : Bool) (lx : Lexer) (fp : FILE),
      (lex_number_loop token fuel cur buf i is_hex hdp lx fp).lexer.tokens = lx.tokens ∨
      ∃ lx1 fp1, lex_number_loop token fuel cur buf i is_hex hdp lx fp =
        .returned true lx1 fp1 := by
  induction fuel with
  | zero => intro cur buf i is_hex hdp lx fp; left; rfl
  | succ f ih =>
    intro cur buf i is_hex hdp lx fp
    have hend : ∀ b k d, (lex_number_end token b k d lx fp).lexer.tokens = lx.tokens ∨
        ∃ lx1 fp1, lex_number_end token b k d lx fp = .returned true lx1 fp1 := by
      intro b k d
      unfold lex_number_end
      split
      · left; rfl
      · right; exact ⟨_, _, rfl⟩
    rw [lex_number_loop]
    rcases e2 : next_char lx fp with ⟨c2, lx2, fp2⟩
    have t2 := tokens_of_next_char e2
    dsimp only
    rcases e3 : peek_char lx2 fp2 with ⟨c3, lx3, fp3⟩
    have t3 := tokens_of_peek_char e3
    dsimp only
    split_ifs
    all_goals first
      | exact hend _ _ _
      | (left; show lx.tokens = lx.tokens; rfl)
      | (left; show lx2.tokens = lx.tokens; exact t2)
      | (rcases ih c3 (buf.set i cur) (i + 1) (is_hex || decide (cur = 'x' ∨ cur = 'X'))
            (hdp || decide (cur = '.')) lx3 fp3 with h | h
         · left; rw [h, t3, t2]
         · right; exact h)

theorem adds_lex_number (lx : Lexer) (c : Char) (cs : List Char) (p : Nat)
    (hc : isdigit c = true) : (lex_number lx ⟨c :: cs, p⟩).Adds c p lx := by
  have hnum := isdigit_is_numeric hc
  have hk : (lex_number lx ⟨c :: cs, p⟩).lexer.tokens = lx.tokens ∨
      ∃ lx1 fp1, lex_number lx ⟨c :: cs, p⟩ = .returned true lx1 fp1 := by
    unfold lex_number
    rw [peek_char_cons _ c cs p (is_numeric_ne_nul hnum) (is_numeric_ne_eof hnum)]
    exact lex_number_loop_keeps _ _ _ _ _ _ _ _ _
  rcases hk with h | ⟨lx1, fp1, h⟩
  · left; exact h
  · right
    obtain ⟨r1, _⟩ := lex_number_true lx (c :: cs) p lx1 fp1 h
    rw [h]
    refine ⟨token_at lx p
      (number_kind (decide ('.' ∈ List.takeWhile is_numeric (c :: cs))))
      (List.takeWhile is_numeric (c :: cs)), ?_, rfl, Or.inl ?_⟩
    · show lx1.tokens = _
      rw [r1]
      simp only [push_back, peek_char_tokens, advance]
    · simp [token_at, List.takeWhile_cons_of_pos hnum]



theorem lex_char_literal_loop_head (steps : Nat) :
    ∀ (i : Nat) (buf : List Char) (lx : Lexer) (fp : FILE) (i1 : Nat) (buf1 : List Char)
      (lx1 : Lexer) (fp1 : FILE), 0 < i →
      lex_char_literal_loop steps i buf lx fp = (i1, buf1, lx1, fp1) →
      buf1.head? = buf.head? ∧ lx1.tokens = lx.tokens := by
  induction steps with
  | zero =>
    intro i buf lx fp i1 buf1 lx1 fp1 _ e
    simp only [lex_char_literal_loop, Prod.mk.injEq] at e
    obtain ⟨_, rfl, rfl, _⟩ := e
    exact ⟨rfl, rfl⟩
  | succ k ih =>
    intro i buf lx fp i1 buf1 lx1 fp1 hi e
    obtain ⟨j, rfl⟩ : ∃ j, i = j + 1 := ⟨i - 1, by omega⟩
    rw [lex_char_literal_loop] at e
    rcases e2 : next_char lx fp with ⟨c2, lx2, fp2⟩
    have t2 := tokens_of_next_char e2
    rw [e2] at e
    dsimp only at e
    split_ifs at e
    · simp only [Prod.mk.injEq] at e
      obtain ⟨_, rfl, rfl, _⟩ := e
      exact ⟨head_set_succ _ _ _, t2⟩
    · obtain ⟨r1, r2⟩ := ih _ _ _ _ _ _ _ _ (Nat.succ_pos _) e
      exact ⟨by rw [r1, head_set_succ], by rw [r2, t2]⟩

theorem adds_make_token_text (c : Char) (p : Nat) (lx0 lx : Lexer) (fp : FILE) (token : Token)
    (buf : List Char) (k : Nat) (ht : lx.tokens = lx0.tokens) (ho : token.offset = p)
    (hb : buf.head? = some c) :
    Outcome.Adds c p lx0
      (match make_token_text token buf (k + 1) with
       | .error e => .stopped e lx fp
       | .ok token => .returned true (push_back lx token) fp) := by
  unfold make_token_text
  split_ifs
  all_goals first
    | (left; exact ht)
    | (right
       refine ⟨{ token with text := buf.take (k + 1) }, ?_, ho, Or.inl ?_⟩
       · show lx.tokens ++ _ = _
         rw [ht]
       · show (buf.take (k + 1)).head? = some c
         rw [head_take_succ, hb])

theorem adds_lex_char_literal (u : Unspec) (lx : Lexer) (c : Char) (cs : List Char)
    (p : Nat) (hce : c ≠ EOFBYTE) : (lex_char_literal u lx ⟨c :: cs, p⟩).Adds c p lx := by
  unfold lex_char_literal
  rcases el : lex_char_literal_loop 4 0 (uninitialised u 4) lx ⟨c :: cs, p⟩ with
    ⟨i, buf, lx2, fp2⟩
  have hl : buf.head? = some c ∧ lx2.tokens = lx.tokens := by
    rw [lex_char_literal_loop, next_char_cons _ _ _ _ hce] at el
    simp only [gt_iff_lt, Nat.lt_irrefl, and_false, if_false] at el
    obtain ⟨r1, r2⟩ := lex_char_literal_loop_head _ _ _ _ _ _ _ _ _ (Nat.succ_pos _) el
    refine ⟨?_, ?_⟩
    · rw [r1]; exact head_set_zero _ c (by rw [length_uninitialised]; omega)
    · rw [r2]; simp only [bump]; split <;> rfl
  dsimp only
  split_ifs
  all_goals first
    | (left; exact hl.2)
    | exact adds_make_token_text c p lx lx2 fp2
        { start_token lx ⟨c :: cs, p⟩ with type := TOKEN_CHARACTER_LITERAL } buf i hl.2 rfl hl.1

theorem adds_lex_string_literal_loop (c : Char) (p : Nat) (lx0 : Lexer) (token : Token)
    (ho : token.offset = p) (fuel : Nat) :
    ∀ (cur : Char) (buf : List Char) (i : Nat) (lx : Lexer) (fp : FILE),
      lx.tokens = lx0.tokens → buf.head? = some c →
      (lex_string_literal_loop token fuel cur buf (i + 1) lx fp).Adds c p lx0 := by
  induction fuel with
  | zero => intro cur buf i lx fp ht _; left; exact ht
  | succ f ih =>
    intro cur buf i lx fp ht hb
    rw [lex_string_literal_loop]
    rcases e2 : next_char lx fp with ⟨c2, lx2, fp2⟩
    have t2 := tokens_of_next_char e2
    dsimp only
    rcases e3 : next_char lx2 fp2 with ⟨c3, lx3, fp3⟩
    have t3 := tokens_of_next_char e3
    dsimp only
    have hb1 : (buf.set (i + 1) cur).head? = some c := by rw [head_set_succ, hb]
    have hb2 : ((buf.set (i + 1) cur).set (i + 1 + 1) c2).head? = some c := by
      rw [head_set_succ, hb1]
    split_ifs
    all_goals first
      | (left; exact ht)
      | exact adds_make_token_text c p lx0 lx fp token _ (i + 1) ht ho hb1
      | (left; show lx2.tokens = lx0.tokens; rw [t2, ht])
      | exact ih c3 _ (i + 1 + 1) lx3 fp3 (by rw [t3, t2, ht]) hb2
      | exact ih c2 _ (i + 1) lx2 fp2 (by rw [t2, ht]) hb1
      | exact adds_make_token_text c p lx0 lx fp token _ (i + 1) ht ho hb

theorem adds_lex_string_literal (u : Unspec) (lx : Lexer) (c : Char) (cs : List Char)
    (p : Nat) (hc : c ≠ NUL) (hce : c ≠ EOFBYTE) :
    (lex_string_literal u lx ⟨c :: cs, p⟩).Adds c p lx := by
  unfold lex_string_literal
  rw [next_char_cons _ _ _ _ hce]
  dsimp only
  have hlen := length_uninitialised u 2048
  generalize uninitialised u 2048 = buf0 at hlen ⊢
  generalize ({ rest := cs, pos := p + 1 } : FILE).rest.length + 2 = fuel0
  have ht : (bump c lx).tokens = lx.tokens := by simp only [bump]; split <;> rfl
  have hb : (buf0.set 0 c).head? = some c := head_set_zero _ c (by omega)
  have ho : ({ start_token lx ⟨c :: cs, p⟩ with type := TOKEN_STRING_LITERAL } : Token).offset
      = p := rfl
  generalize ({ start_token lx ⟨c :: cs, p⟩ with type := TOKEN_STRING_LITERAL } : Token)
    = token at ho ⊢
  cases fuel0 with
  | zero => left; exact ht
  | succ f =>
    rw [lex_string_literal_loop]
    rcases e2 : next_char (bump c lx) ⟨cs, p + 1⟩ with ⟨c2, lx2, fp2⟩
    have t2 := tokens_of_next_char e2
    dsimp only
    rcases e3 : next_char lx2 fp2 with ⟨c3, lx3, fp3⟩
    have t3 := tokens_of_next_char e3
    dsimp only
    have h0 : ¬ (0 > 0 ∧ c = DQUOTE) := by simp
    rw [if_pos hc, if_neg (by decide : ¬ ¬ (0 < 2048)), if_neg h0]
    by_cases hbs : c = BACKSLASH
    · rw [if_pos hbs, if_neg (by decide : ¬ ¬ (0 + 1 < 2048))]
      exact adds_lex_string_literal_loop c p lx token ho f c3 _ 1 lx3 fp3
        (by rw [t3, t2, ht]) (by rw [head_set_succ, hb])
    · rw [if_neg hbs]
      exact adds_lex_string_literal_loop c p lx token ho f c2 _ 0 lx2 fp2 (by rw [t2, ht]) hb



theorem set_token_symbol_text_text (t : Token) :
    (set_token_symbol_text t).text = symbol_text t.type := by
  unfold set_token_symbol_text symbol_text
  split <;> rfl

theorem set_token_symbol_text_offset (t : Token) :
    (set_token_symbol_text t).offset = t.offset := by
  unfold set_token_symbol_text
  split <;> rfl

theorem addsSymbol_end (c : Char) (lx0 : Lexer) (u : Unspec) (token : Token) (ty : Int)
    (lx : Lexer) (fp : FILE) (ht : lx.tokens = lx0.tokens) (hty : SymbolText c ty) :
    (lex_symbol_end u { token with type := ty } lx fp).AddsSymbol c lx0 token := by
  unfold lex_symbol_end
  split_ifs
  all_goals first
    | (left; exact ht)
    | (right; exact ⟨ty, hty, by show lx.tokens ++ _ = _; rw [ht]⟩)

theorem addsSymbol_end_untyped (c : Char) (lx0 : Lexer) (u : Unspec) (token : Token)
    (lx : Lexer) (fp : FILE) (ht : lx.tokens = lx0.tokens) (hty : token.type = -1) :
    (lex_symbol_end u token lx fp).AddsSymbol c lx0 token := by
  unfold lex_symbol_end
  have h : ¬ (token.type > 0) := by rw [hty]; decide
  rw [if_pos h]
  left; exact ht

theorem addsSymbol_one (c : Char) (lx0 : Lexer) (u : Unspec) (token : Token) (cur c1 : Char)
    (t1 : Int) (lx : Lexer) (fp : FILE) (ht : lx.tokens = lx0.tokens)
    (h1 : SymbolText c t1) (h2 : SymbolText c cur.toNat) :
    (lex_symbol_one u token cur c1 t1 lx fp).AddsSymbol c lx0 token := by
  unfold lex_symbol_one
  rcases e2 : peek_char lx fp with ⟨p2, lx2, fp2⟩
  have t2 := tokens_of_peek_char e2
  dsimp only
  rcases e3 : next_char lx2 fp2 with ⟨c3, lx3, fp3⟩
  have t3 := tokens_of_next_char e3
  dsimp only
  split_ifs
  · exact addsSymbol_end c lx0 u token t1 lx3 fp3 (by rw [t3, t2, ht]) h1
  · exact addsSymbol_end c lx0 u token _ lx2 fp2 (by rw [t2, ht]) h2

theorem addsSymbol_two (c : Char) (lx0 : Lexer) (u : Unspec) (token : Token) (cur c1 : Char)
    (t1 : Int) (c2 : Char) (t2 : Int) (lx : Lexer) (fp : FILE) (ht : lx.tokens = lx0.tokens)
    (h1 : SymbolText c t1) (h2 : SymbolText c t2) (h3 : SymbolText c cur.toNat) :
    (lex_symbol_two u token cur c1 t1 c2 t2 lx fp).AddsSymbol c lx0 token := by
  unfold lex_symbol_two
  rcases e2 : peek_char lx fp with ⟨p2, lx2, fp2⟩
  have k2 := tokens_of_peek_char e2
  dsimp only
  rcases e3 : next_char lx2 fp2 with ⟨c3, lx3, fp3⟩
  have k3 := tokens_of_next_char e3
  dsimp only
  split_ifs
  · exact addsSymbol_end c lx0 u token t1 lx3 fp3 (by rw [k3, k2, ht]) h1
  · exact addsSymbol_one c lx0 u token cur c2 t2 lx2 fp2 (by rw [k2, ht]) h2 h3

theorem addsSymbol_minus (c : Char) (lx0 : Lexer) (u : Unspec) (token : Token) (cur : Char)
    (lx : Lexer) (fp : FILE) (ht : lx.tokens = lx0.tokens) (hty : token.type = -1)
    (h1 : SymbolText c TOKEN_DECREMENT) (h2 : SymbolText c TOKEN_POINTER_MEMBER_DEREF)
    (h3 : SymbolText c cur.toNat) :
    (lex_symbol_minus u token cur lx fp).AddsSymbol c lx0 token := by
  unfold lex_symbol_minus
  rcases e3 : peek_char lx fp with ⟨p3, lx3, fp3⟩
  have k3 := tokens_of_peek_char e3
  dsimp only
  rcases e4 : next_char lx3 fp3 with ⟨c4, lx4, fp4⟩
  have k4 := tokens_of_next_char e4
  rcases e5 : peek_char lx3 fp3 with ⟨p5, lx5, fp5⟩
  have k5 := tokens_of_peek_char e5
  dsimp only
  rcases e6 : next_char lx5 fp5 with ⟨c6, lx6, fp6⟩
  have k6 := tokens_of_next_char e6
  dsimp only
  split_ifs
  · exact addsSymbol_end c lx0 u token _ lx4 fp4 (by rw [k4, k3, ht]) h1
  · exact addsSymbol_end_untyped c lx0 u token lx6 fp6 (by rw [k6, k5, k3, ht]) hty
  · exact addsSymbol_one c lx0 u token cur _ _ lx5 fp5 (by rw [k5, k3, ht]) h2 h3

theorem discard_line_loop_tokens (start_line : Nat) (fuel : Nat) :
    ∀ (lx : Lexer) (fp : FILE) (lx1 : Lexer) (fp1 : FILE),
      discard_line_loop start_line fuel lx fp = some (lx1, fp1) → lx1.tokens = lx.tokens := by
  induction fuel with
  | zero => intro lx fp lx1 fp1 h; simp [discard_line_loop] at h
  | succ f ih =>
    intro lx fp lx1 fp1 h
    rw [discard_line_loop] at h
    rcases e2 : next_char lx fp with ⟨c2, lx2, fp2⟩
    have k2 := tokens_of_next_char e2
    rw [e2] at h
    dsimp only at h
    split_ifs at h
    · simp only [Option.some.injEq, Prod.mk.injEq] at h
      rw [← h.1]; exact k2
    · rw [ih _ _ _ _ h, k2]
    · simp only [Option.some.injEq, Prod.mk.injEq] at h
      rw [← h.1]

theorem addsSymbol_slash (c : Char) (lx0 : Lexer) (u : Unspec) (token : Token) (cur : Char)
    (lx : Lexer) (fp : FILE) (ht : lx.tokens = lx0.tokens)
    (h1 : SymbolText c TOKEN_DIV_EQUALS) (h3 : SymbolText c cur.toNat) :
    (lex_symbol_slash u token cur lx fp).AddsSymbol c lx0 token := by
  unfold lex_symbol_slash
  rcases e3 : peek_char lx fp with ⟨p3, lx3, fp3⟩
  have k3 := tokens_of_peek_char e3
  dsimp only
  split_ifs
  · left
    cases hd : discard_line lx3 fp3 with
    | none => show lx3.tokens = _; rw [k3, ht]
    | some v =>
      obtain ⟨lx4, fp4⟩ := v
      show lx4.tokens = _
      rw [discard_line_loop_tokens _ _ _ _ _ _ hd, k3, ht]
  · exact addsSymbol_one c lx0 u token cur _ _ lx3 fp3 (by rw [k3, ht]) h1 h3

theorem addsSymbol_switch (lx0 : Lexer) (u : Unspec) (token : Token) (cur : Char)
    (lx : Lexer) (fp : FILE) (ht : lx.tokens = lx0.tokens) (hty : token.type = -1) :
    (lex_symbol_switch u token cur lx fp).AddsSymbol cur lx0 token := by
  unfold lex_symbol_switch
  by_cases g1 : cur = '+'
  · rw [if_pos g1]
    subst g1
    exact addsSymbol_two _ lx0 u token _ _ _ _ _ lx fp ht (by decide) (by decide) (by decide)
  rw [if_neg g1]
  by_cases g2 : cur = '-'
  · rw [if_pos g2]
    subst g2
    exact addsSymbol_minus _ lx0 u token _ lx fp ht hty (by decide) (by decide) (by decide)
  rw [if_neg g2]
  by_cases g3 : cur = '/'
  · rw [if_pos g3]
    subst g3
    exact addsSymbol_slash _ lx0 u token _ lx fp ht (by decide) (by decide)
  rw [if_neg g3]
  by_cases g4 : cur = '*'
  · rw [if_pos g4]
    subst g4
    exact addsSymbol_one _ lx0 u token _ _ _ lx fp ht (by decide) (by decide)
  rw [if_neg g4]
  by_cases g5 : cur = '%'
  · rw [if_pos g5]
    subst g5
    exact addsSymbol_one _ lx0 u token _ _ _ lx fp ht (by decide) (by decide)
  rw [if_neg g5]
  by_cases g6 : cur = '(' ∨ cur = ')' ∨ cur = LBRACE ∨ cur = RBRACE ∨ cur = '[' ∨ cur = ']'
  · rw [if_pos g6]
    refine addsSymbol_end _ lx0 u token _ lx fp ht ?_
    rcases g6 with h | h | h | h | h | h <;> subst h <;> decide
  rw [if_neg g6]
  by_cases g7 : cur = '>'
  · rw [if_pos g7]
    subst g7
    exact addsSymbol_one _ lx0 u token _ _ _ lx fp ht (by decide) (by decide)
  rw [if_neg g7]
  by_cases g8 : cur = '<'
  · rw [if_pos g8]
    subst g8
    exact addsSymbol_one _ lx0 u token _ _ _ lx fp ht (by decide) (by decide)
  rw [if_neg g8]
  by_cases g9 : cur = '='
  · rw [if_pos g9]
    subst g9
    exact addsSymbol_one _ lx0 u token _ _ _ lx fp ht (by decide) (by decide)
  rw [if_neg g9]
  by_cases g10 : cur = '!'
  · rw [if_pos g10]
    subst g10
    exact addsSymbol_one _ lx0 u token _ _ _ lx fp ht (by decide) (by decide)
  rw [if_neg g10]
  by_cases g11 : cur = '|'
  · rw [if_pos g11]
    subst g11
    exact addsSymbol_two _ lx0 u token _ _ _ _ _ lx fp ht (by decide) (by decide) (by decide)
  rw [if_neg g11]
  by_cases g12 : cur = '&'
  · rw [if_pos g12]
    subst g12
    exact addsSymbol_two _ lx0 u token _ _ _ _ _ lx fp ht (by decide) (by decide) (by decide)
  rw [if_neg g12]
  by_cases g13 : cur = '~'
  · rw [if_pos g13]
    subst g13
    exact addsSymbol_one _ lx0 u token _ _ _ lx fp ht (by decide) (by decide)
  rw [if_neg g13]
  by_cases g14 : cur = '.'
  · rw [if_pos g14]
    subst g14
    exact addsSymbol_end _ lx0 u token _ lx fp ht (by decide)
  rw [if_neg g14]
  by_cases g15 : cur = ';'
  · rw [if_pos g15]
    subst g15
    exact addsSymbol_end _ lx0 u token _ lx fp ht (by decide)
  rw [if_neg g15]
  exact addsSymbol_end_untyped _ lx0 u token lx fp ht hty

theorem adds_lex_symbol (u : Unspec) (lx : Lexer) (c : Char) (cs : List Char) (p : Nat)
    (hce : c ≠ EOFBYTE) : (lex_symbol u lx ⟨c :: cs, p⟩).Adds c p lx := by
  unfold lex_symbol
  rw [next_char_cons _ _ _ _ hce]
  dsimp only
  have ht : (bump c lx).tokens = lx.tokens := by simp only [bump]; split <;> rfl
  rcases addsSymbol_switch lx u (start_token lx ⟨c :: cs, p⟩) c (bump c lx) ⟨cs, p + 1⟩ ht rfl
    with h | ⟨ty, h1, h2⟩
  · left; exact h
  · right
    refine ⟨_, h2, ?_, ?_⟩
    · rw [set_token_symbol_text_offset]; rfl
    · rw [set_token_symbol_text_text]; exact h1



theorem tokens_skip_space (fuel : Nat) :
    ∀ (cur : Char) (lx : Lexer) (fp : FILE) (cur1 : Char) (lx1 : Lexer) (fp1 : FILE),
      skip_space fuel cur lx fp = some (cur1, lx1, fp1) → lx1.tokens = lx.tokens := by
  induction fuel with
  | zero => intro cur lx fp cur1 lx1 fp1 e; simp [skip_space] at e
  | succ f ih =>
    intro cur lx fp cur1 lx1 fp1 e
    rw [skip_space] at e
    rcases e2 : next_char lx fp with ⟨c2, lx2, fp2⟩
    have k2 := tokens_of_next_char e2
    rw [e2] at e
    dsimp only at e
    rcases e3 : peek_char lx2 fp2 with ⟨c3, lx3, fp3⟩
    have k3 := tokens_of_peek_char e3
    rw [e3] at e
    dsimp only at e
    split_ifs at e
    · rw [ih _ _ _ _ _ _ e, k3, k2]
    · simp only [Option.some.injEq, Prod.mk.injEq] at e
      rw [← e.2.1]

theorem starts_lex_file_loop (inp : List Char) (u : Unspec) (fuel : Nat) :
    ∀ (lx : Lexer) (fp : FILE), Tracks inp lx fp → (∀ t ∈ lx.tokens, Starts inp t) →
      ∀ t ∈ (lex_file_loop u fuel lx fp).lexer.tokens, Starts inp t := by
  induction fuel with
  | zero => intro lx fp _ hs; exact hs
  | succ f ih =>
    intro lx fp h hs
    rw [lex_file_loop]
    rcases hp : peek_char lx fp with ⟨c2, lx2, fp2⟩
    have h2 := tracks_of_peek_char hp h
    have k2 := tokens_of_peek_char hp
    dsimp only
    cases hsk : skip_space (fp2.rest.length + 1) c2 lx2 fp2 with
    | none =>
      intro t ht
      exact hs t (by rw [← k2]; exact ht)
    | some v =>
      obtain ⟨cur, lx3, fp3⟩ := v
      obtain ⟨h3, hh3⟩ := tracks_skip_space inp _ _ _ _ _ _ _ h2 (peek_char_head hp) hsk
      have k3 := tokens_skip_space _ _ _ _ _ _ _ hsk
      have hs3 : ∀ t ∈ lx3.tokens, Starts inp t := by
        intro t ht
        exact hs t (by rw [← k2, ← k3]; exact ht)
      dsimp only
      by_cases hc : cur = NUL
      · simp only [hc, if_true]
        exact hs3
      · simp only [hc, if_false]
        obtain ⟨s3, p3⟩ := fp3
        cases s3 with
        | nil => exact absurd (hh3 hc) (by simp)
        | cons a cs =>
          have ha : a = cur := by
            have := hh3 hc
            simpa using this
          subst ha
          have hne : (⟨a :: cs, p3⟩ : FILE).rest ≠ [] := by simp
          have hdrop : inp.drop p3 = a :: cs := h3.2.1.symm
          have hae : a ≠ EOFBYTE := by
            intro e
            apply h3.1
            rw [← e]
            exact List.mem_of_mem_drop (by rw [hdrop]; exact List.mem_cons_self _ _)
          have hr : Outcome.Tracks inp
              (if isalpha a = true then lex_identifier u lx3 ⟨a :: cs, p3⟩
               else if isdigit a = true then lex_number lx3 ⟨a :: cs, p3⟩
               else if a = QUOTE then lex_char_literal u lx3 ⟨a :: cs, p3⟩
               else if a = DQUOTE then lex_string_literal u lx3 ⟨a :: cs, p3⟩
               else lex_symbol u lx3 ⟨a :: cs, p3⟩) ∧
              Outcome.Adds a p3 lx3
              (if isalpha a = true then lex_identifier u lx3 ⟨a :: cs, p3⟩
               else if isdigit a = true then lex_number lx3 ⟨a :: cs, p3⟩
               else if a = QUOTE then lex_char_literal u lx3 ⟨a :: cs, p3⟩
               else if a = DQUOTE then lex_string_literal u lx3 ⟨a :: cs, p3⟩
               else lex_symbol u lx3 ⟨a :: cs, p3⟩) := by
            split_ifs with g1 g2
            · exact ⟨tracks_lex_identifier inp u lx3 _ h3 hne, adds_lex_identifier u lx3 a cs p3 g1⟩
            · exact ⟨tracks_lex_number inp lx3 _ h3 hne, adds_lex_number lx3 a cs p3 g2⟩
            · exact ⟨tracks_lex_char_literal inp u lx3 _ h3 hne,
                adds_lex_char_literal u lx3 a cs p3 hae⟩
            · exact ⟨tracks_lex_string_literal inp u lx3 _ h3 hne,
                adds_lex_string_literal u lx3 a cs p3 hc hae⟩
            · exact ⟨tracks_lex_symbol inp u lx3 _ h3 hne, adds_lex_symbol u lx3 a cs p3 hae⟩
          revert hr
          generalize (if isalpha a = true then lex_identifier u lx3 ⟨a :: cs, p3⟩
               else if isdigit a = true then lex_number lx3 ⟨a :: cs, p3⟩
               else if a = QUOTE then lex_char_literal u lx3 ⟨a :: cs, p3⟩
               else if a = DQUOTE then lex_string_literal u lx3 ⟨a :: cs, p3⟩
               else lex_symbol u lx3 ⟨a :: cs, p3⟩) = r
          intro hr
          obtain ⟨hr1, hr2⟩ := hr
          have hall : ∀ t ∈ r.lexer.tokens, Starts inp t := by
            intro t ht
            rcases hr2 with e | ⟨t1, e, e1, e2⟩
            · rw [e] at ht
              exact hs3 t ht
            · rw [e] at ht
              simp only [List.mem_append, List.mem_singleton] at ht
              rcases ht with ht | rfl
              · exact hs3 t ht
              · exact ⟨a, by rw [← List.head?_drop, e1, hdrop]; rfl, e2⟩
          cases r with
          | returned b lx4 fp4 =>
            cases b with
            | true => exact ih lx4 fp4 hr1 hall
            | false => exact hall
          | stopped e lx4 fp4 => exact hall

/-- Every token `lex_file` appends on a fresh lexer, on an input without the byte
0xFF, is recorded at the position of the input where its text starts. -/
theorem lex_file_token_starts (u : Unspec) (filename : String) (inp : List Char)
    (h : EOFBYTE ∉ inp) :
    ∀ t ∈ (lex_file u Lexer.new filename inp).lexer.tokens, Starts inp t := by
  unfold lex_file
  apply starts_lex_file_loop
  · refine ⟨h, rfl, rfl, rfl, ?_⟩
    intro t ht
    cases ht
  · intro t ht
    cases ht

/-! ## C1 -/

set_option maxRecDepth 100000 in
/-- On an input with the byte 0xFF the column counter and the characters of the line
part: on `a`, 0xFF, `b` the identifier `b` is the third character of its line and is
recorded in column 2, because `next_char` reads the byte 0xFF without moving the
column. -/
theorem lex_file_column_behind_eof_byte :
    token_view (lex_file some_unspec Lexer.new "f" ['a', EOFBYTE, 'b']).lexer.tokens =
      [(TOKEN_IDENT, ['a'], 1, 1), (TOKEN_IDENT, ['b'], 2, 1)] ∧
    column_of ['a', EOFBYTE, 'b'] 2 = 3 :=
  ⟨rfl, by decide⟩

set_option maxRecDepth 100000 in
/-- C1: for every input lexed by `lex_file` on a freshly constructed lexer, the run of
the model is a whole run of the source (its fuel does not run out), and when the
input has no byte 0xFF, as every ASCII input, every token that was appended is
recorded at the position `offset` of the input where its text starts (`Starts`), its
`line_number` is one plus the number of newline characters before that position, and
its `column_number` is one plus the number of characters between the last newline
before that position (or the start of the input) and the position. NUL bytes in the
input are allowed. The input of two newlines followed by `foo` gives one identifier
token `foo` at line 3, column 1. -/
theorem lex_file_token_positions :
    (∀ (u : Unspec) (filename : String) (inp : List Char),
      (lex_file u Lexer.new filename inp).complete = true ∧
      (EOFBYTE ∉ inp →
        ∀ t ∈ (lex_file u Lexer.new filename inp).lexer.tokens,
          Starts inp t ∧ t.line_number = line_of inp t.offset ∧
            t.column_number = column_of inp t.offset)) ∧
    (∀ (u : Unspec) (filename : String),
      ∃ lx fp, lex_file u Lexer.new filename [NEWLINE, NEWLINE, 'f', 'o', 'o'] =
          .returned true lx fp ∧
        lx.tokens = [{ filename := filename, line_number := 3, column_number := 1,
                       type := TOKEN_IDENT, text := ['f', 'o', 'o'], offset := 2 }]) := by
  refine ⟨?_, ?_⟩
  · intro u filename inp
    refine ⟨lex_file_complete u Lexer.new filename inp, ?_⟩
    intro h t ht
    exact ⟨lex_file_token_starts u filename inp h t ht,
      ((tracks_lex_file u filename inp h).2.2.2.2 t ht).2⟩
  · intro u filename
    exact ⟨_, _, rfl, rfl⟩

set_option maxRecDepth 100000 in
/-- C1 on the input of two newlines followed by `foo`, at its one token: the token is
recorded at position 2, where `foo` starts, on line 3 in column 1. -/
theorem lex_file_token_positions_witness :
    EOFBYTE ∉ foo_input ∧
    foo_token ∈ (lex_file ⟨true, fun _ => NUL⟩ Lexer.new "f" foo_input).lexer.tokens ∧
    (Starts foo_input foo_token ∧
      foo_token.line_number = line_of foo_input foo_token.offset ∧
      foo_token.column_number = column_of foo_input foo_token.offset) := by
  have e : (lex_file ⟨true, fun _ => NUL⟩ Lexer.new "f" foo_input).lexer.tokens =
      [foo_token] := rfl
  have hmem : foo_token ∈
      (lex_file ⟨true, fun _ => NUL⟩ Lexer.new "f" foo_input).lexer.tokens := by
    rw [e]; exact List.mem_singleton_self _
  exact ⟨by decide, hmem,
    (lex_file_token_positions.1 ⟨true, fun _ => NUL⟩ "f" foo_input).2 (by decide) _ hmem⟩

/-! ## Unterminated string literals: C12 -/

set_option maxRecDepth 100000 in
/-- C12, evaluated on the unterminated literal of a double quote followed by `abc`:
`lex_string_literal` leaves its loop at the end of the stream, appends a
string-literal token and returns `true`, and so does `lex_file`. The text has five
bytes, the four that were read and the uninitialised `buf[4]`. -/
theorem lex_string_literal_unterminated_accepted (u : Unspec) :
    lex_string_literal u Lexer.new (fopen [DQUOTE, 'a', 'b', 'c']) =
      .returned true
        (after_token Lexer.new 4
          (token_at Lexer.new 0 TOKEN_STRING_LITERAL [DQUOTE, 'a', 'b', 'c', u.stack 4]))
        ⟨[], 4⟩ ∧
    lex_file u Lexer.new "f" [DQUOTE, 'a', 'b', 'c'] =
      .returned true
        (after_token { Lexer.new with current_filename := "f" } 4
          (token_at { Lexer.new with current_filename := "f" } 0 TOKEN_STRING_LITERAL
            [DQUOTE, 'a', 'b', 'c', u.stack 4]))
        ⟨[], 4⟩ :=
  ⟨rfl, rfl⟩

/-! ## Unrecognized symbols: C13 -/

/-- A character without a `case` in the `switch` takes the `default` branch, which
ends in `break`: the type of the token is still `-1` and the assertion stops the run. -/
theorem lex_symbol_default (u : Unspec) (lx : Lexer) (c : Char) (rest : List Char)
    (pos : Nat) (hc : c ∉ symbol_leads) (hce : c ≠ EOFBYTE) :
    lex_symbol u lx ⟨c :: rest, pos⟩ = .stopped .assertion (bump c lx) ⟨rest, pos + 1⟩ := by
  simp only [symbol_leads, List.mem_cons, List.mem_singleton, List.not_mem_nil, or_false,
    not_or] at hc
  obtain ⟨h1, h2, h3, h4, h5, h6, h7, h8, h9, h10, h11, h12, h13, h14, h15, h16, h17, h18,
    h19, h20⟩ := hc
  unfold lex_symbol
  rw [next_char_cons _ _ _ _ hce]
  simp only [lex_symbol_switch, h1, h2, h3, h4, h5, h6, h7, h8, h9, h10, h11, h12, h13, h14,
    h15, h16, h17, h18, h19, h20, if_false, or_self, lex_symbol_end, start_token]
  simp

/-- The driver on an input that starts with a character for `lex_symbol` that has no
`case`: the run stops at the assertion of `lex_symbol`. -/
theorem lex_file_default (u : Unspec) (lx : Lexer) (filename : String) (c : Char)
    (rest : List Char) (hc : c ∉ symbol_leads) (h0 : c ≠ NUL) (hce : c ≠ EOFBYTE)
    (h1 : isspace c = false) (h2 : isalpha c = false) (h3 : isdigit c = false)
    (h4 : c ≠ QUOTE) (h5 : c ≠ DQUOTE) :
    lex_file u lx filename (c :: rest) =
      .stopped .assertion (bump c { lx with current_filename := filename }) ⟨rest, 1⟩ := by
  unfold lex_file fopen
  rw [lex_file_loop, peek_char_cons _ c rest 0 h0 hce]
  simp only [List.length_cons]
  rw [skip_space]
  simp only [ne_eq, h0, not_false_eq_true, h1, Bool.false_eq_true, and_false, if_false,
    h2, h3, h4, h5, lex_symbol_default u _ c rest 0 hc hce]

/-- C13, evaluated on the characters the claim names: with `,`, `@`, `_`, `:`, `?`, `^`
or `#` as the next character, `lex_symbol` does not return `false`; it stops at
`assert(token.type > 0)` after the character was read, with no token appended, and
`lex_file` stops there too instead of returning `false`. -/
theorem lex_symbol_unrecognized_stops (u : Unspec) (lx : Lexer) (filename : String)
    (rest : List Char) (pos : Nat) :
    List.Forall
      (fun c =>
        lex_symbol u lx ⟨c :: rest, pos⟩ =
          .stopped .assertion (advance lx 1) ⟨rest, pos + 1⟩ ∧
        lex_file u lx filename (c :: rest) =
          .stopped .assertion (advance { lx with current_filename := filename } 1) ⟨rest, 1⟩)
      [',', '@', '_', ':', '?', '^', '#'] := by
  simp only [List.Forall]
  refine ⟨⟨?_, ?_⟩, ⟨?_, ?_⟩, ⟨?_, ?_⟩, ⟨?_, ?_⟩, ⟨?_, ?_⟩, ⟨?_, ?_⟩, ⟨?_, ?_⟩⟩
  all_goals first
    | exact lex_symbol_default u lx _ rest pos (by decide) (by decide)
    | exact lex_file_default u lx filename _ rest (by decide) (by decide) (by decide)
        (by decide) (by decide) (by decide) (by decide) (by decide)

/-! ## Whitespace: C15 -/

theorem isspace_of_whitespace {c : Char} (h : c ∈ whitespace_chars) :
    isspace c = true ∧ c ≠ NUL := by
  simp only [whitespace_chars, List.mem_cons, List.mem_singleton, List.not_mem_nil,
    or_false] at h
  rcases h with h | h | h | h | h | h <;> subst h <;> decide

theorem whitespace_ne_eof {c : Char} (h : c ∈ whitespace_chars) : c ≠ EOFBYTE := by
  simp only [whitespace_chars, List.mem_cons, List.mem_singleton, List.not_mem_nil,
    or_false] at h
  rcases h with h | h | h | h | h | h <;> subst h <;> decide

theorem read_over_tokens (s : List Char) :
    ∀ (l : Lexer), (read_over l s).tokens = l.tokens := by
  induction s with
  | nil => intro l; rfl
  | cons c t ih =>
    intro l
    have h := ih (bump c l)
    simp only [read_over, List.foldl_cons] at h ⊢
    rw [h]
    simp only [bump]; split <;> rfl

/-- The whitespace loop of the driver reads a stream of whitespace to its end. -/
theorem skip_space_whitespace (s : List Char) :
    ∀ (lx : Lexer) (p : Nat) (fuel : Nat), (∀ c ∈ s, c ∈ whitespace_chars) →
      s.length < fuel →
      skip_space fuel (s.headD NUL) lx ⟨s, p⟩ =
        some (NUL, read_over lx s, ⟨[], p + s.length⟩) := by
  induction s with
  | nil =>
    intro lx p fuel _ hf
    obtain ⟨f, rfl⟩ : ∃ f, fuel = f + 1 := ⟨fuel - 1, by simp at hf; omega⟩
    simp [skip_space, read_over]
  | cons c t ih =>
    intro lx p fuel hs hf
    obtain ⟨f, rfl⟩ : ∃ f, fuel = f + 1 := ⟨fuel - 1, by simp at hf; omega⟩
    obtain ⟨h1, h2⟩ := isspace_of_whitespace (hs c (by simp))
    have ht : ∀ d ∈ t, d ∈ whitespace_chars := fun d hd => hs d (by simp [hd])
    have hpk : peek_char (bump c lx) ⟨t, p + 1⟩ = (t.headD NUL, bump c lx, ⟨t, p + 1⟩) := by
      apply peek_char_of_head_ne_nul
      · cases t with
        | nil => simp
        | cons d ds =>
          have := (isspace_of_whitespace (ht d (by simp))).2
          simpa using this
      · cases t with
        | nil => simp
        | cons d ds =>
          have := whitespace_ne_eof (ht d (by simp))
          simpa using this
    rw [skip_space]
    simp only [List.headD_cons, ne_eq, h2, not_false_eq_true, h1, and_self, if_true,
      next_char_cons _ _ _ _ (whitespace_ne_eof (hs c (by simp))), hpk]
    rw [ih (bump c lx) (p + 1) f ht (by simp at hf; omega)]
    simp only [read_over, List.foldl_cons, List.length_cons, Nat.add_assoc, Nat.add_comm 1]

/-- C15: on an input made only of whitespace characters (space, tab, newline,
vertical tab, form feed, carriage return), the empty input included, `lex_file`
returns `true` with the whole input read, and the token list is the one it started
with: no token is appended. -/
theorem lex_file_whitespace (u : Unspec) (lx : Lexer) (filename : String) (s : List Char)
    (hs : ∀ c ∈ s, c ∈ whitespace_chars) :
    lex_file u lx filename s =
      .returned true (read_over { lx with current_filename := filename } s) ⟨[], s.length⟩ ∧
    (lex_file u lx filename s).lexer.tokens = lx.tokens := by
  have hpk : ∀ l : Lexer, peek_char l ⟨s, 0⟩ = (s.headD NUL, l, ⟨s, 0⟩) := by
    intro l
    apply peek_char_of_head_ne_nul
    · cases s with
      | nil => simp
      | cons d ds =>
        have := (isspace_of_whitespace (hs d (by simp))).2
        simpa using this
    · cases s with
      | nil => simp
      | cons d ds =>
        have := whitespace_ne_eof (hs d (by simp))
        simpa using this
  have h : lex_file u lx filename s =
      .returned true (read_over { lx with current_filename := filename } s)
        ⟨[], s.length⟩ := by
    unfold lex_file fopen
    rw [lex_file_loop]
    simp only [hpk]
    rw [skip_space_whitespace s _ 0 _ hs (Nat.lt_succ_self _)]
    simp
  refine ⟨h, ?_⟩
  rw [h]
  exact read_over_tokens s _

/-- C15 on the input of the six whitespace characters, and on the empty input. -/
theorem lex_file_whitespace_witness :
    (∀ c ∈ whitespace_chars, c ∈ whitespace_chars) ∧
    (lex_file some_unspec Lexer.new "f" whitespace_chars =
      .returned true
        (read_over { Lexer.new with current_filename := "f" } whitespace_chars)
        ⟨[], whitespace_chars.length⟩ ∧
     (lex_file some_unspec Lexer.new "f" whitespace_chars).lexer.tokens = []) :=
  ⟨fun _ h => h, lex_file_whitespace some_unspec Lexer.new "f" whitespace_chars (fun _ h => h)⟩

/-! ## The look-ahead: C17 -/

theorem body_item_cases {item : List Char} (h : body_item item = true) :
    (∃ c, item = [c] ∧ c ≠ DQUOTE ∧ c ≠ BACKSLASH ∧ c ≠ NUL ∧ c ≠ EOFBYTE) ∨
      ∃ e, item = [BACKSLASH, e] ∧ e ≠ EOFBYTE := by
  match item, h with
  | [c], h =>
    left
    simp only [body_item, Bool.and_eq_true, bne_iff_ne, ne_eq] at h
    exact ⟨c, rfl, h.1.1.1, h.1.1.2, h.1.2, h.2⟩
  | [b, e], h =>
    right
    simp only [body_item, Bool.and_eq_true, beq_iff_eq, bne_iff_ne, ne_eq] at h
    exact ⟨e, by rw [h.1], h.2⟩

theorem length_write_at (s : List Char) :
    ∀ (buf : List Char) (i : Nat), (write_at buf i s).length = buf.length := by
  induction s with
  | nil => intro buf i; rfl
  | cons c cs ih => intro buf i; rw [write_at, ih, List.length_set]

theorem write_at_append (s t : List Char) :
    ∀ (buf : List Char) (i : Nat),
      write_at buf i (s ++ t) = write_at (write_at buf i s) (i + s.length) t := by
  induction s with
  | nil => intro buf i; rfl
  | cons c cs ih =>
    intro buf i
    rw [List.cons_append, write_at, write_at, ih, List.length_cons]
    congr 1
    omega

theorem take_write_at (s : List Char) :
    ∀ (buf : List Char) (i : Nat), i + s.length ≤ buf.length →
      (write_at buf i s).take (i + s.length) = buf.take i ++ s := by
  induction s with
  | nil => intro buf i _; simp [write_at]
  | cons c cs ih =>
    intro buf i h
    rw [List.length_cons] at h
    rw [write_at, List.length_cons, ← Nat.add_assoc i, Nat.add_right_comm,
      ih _ _ (by rw [List.length_set]; omega), take_set_succ _ _ _ (by omega)]
    simp

theorem read_over_append (lx : Lexer) (s t : List Char) :
    read_over lx (s ++ t) = read_over (read_over lx s) t := by
  simp only [read_over, List.foldl_append]

theorem length_le_flatten (items : List (List Char)) (h : ∀ it ∈ items, body_item it = true) :
    items.length ≤ items.flatten.length := by
  induction items with
  | nil => simp
  | cons it its ih =>
    have h1 := ih (fun x hx => h x (by simp [hx]))
    have h2 : 1 ≤ it.length := by
      rcases body_item_cases (h it (by simp)) with ⟨c, rfl, _⟩ | ⟨e, rfl, _⟩ <;> simp
    simp only [List.flatten_cons, List.length_append, List.length_cons]
    omega

/-- The loop of `lex_string_literal` over body elements that fit into the array: they
are stored as they are, and the loop goes on behind them. -/
theorem lex_string_literal_from_items (token : Token) (items : List (List Char)) :
    ∀ (fuel : Nat) (buf : List Char) (i : Nat) (lx : Lexer) (more : List Char) (p : Nat),
      (∀ it ∈ items, body_item it = true) → items.length < fuel →
      i + items.flatten.length ≤ 2048 →
      lex_string_literal_from token fuel buf i lx ⟨items.flatten ++ more, p⟩ =
        lex_string_literal_from token (fuel - items.length) (write_at buf i items.flatten)
          (i + items.flatten.length) (read_over lx items.flatten)
          ⟨more, p + items.flatten.length⟩ := by
  induction items with
  | nil =>
    intro fuel buf i lx more p _ _ _
    rfl
  | cons it its ih =>
    intro fuel buf i lx more p hit hf hi
    obtain ⟨f, rfl⟩ : ∃ f, fuel = f + 1 := ⟨fuel - 1, by simp at hf; omega⟩
    have hits : ∀ x ∈ its, body_item x = true := fun x hx => hit x (by simp [hx])
    have hf1 : its.length < f := by simp at hf; omega
    rcases body_item_cases (hit it (by simp)) with ⟨c, rfl, c1, c2, c3, c4⟩ | ⟨e, rfl, e1⟩
    · simp only [List.flatten_cons, List.length_append, List.length_cons, List.length_nil,
        List.cons_append, List.nil_append, Nat.zero_add] at hi ⊢
      have step : lex_string_literal_from token (f + 1) buf i lx ⟨c :: (its.flatten ++ more), p⟩ =
          lex_string_literal_from token f (buf.set i c) (i + 1) (bump c lx)
            ⟨its.flatten ++ more, p + 1⟩ := by
        rw [lex_string_literal_from, next_char_cons _ _ _ _ c4]
        simp only []
        rw [lex_string_literal_loop]
        simp only [ne_eq, c3, not_false_eq_true, if_true, c1, and_false, if_false, c2,
          show i < 2048 by omega, not_true_eq_false]
        rfl
      rw [step, ih f _ (i + 1) _ more (p + 1) hits hf1 (by omega)]
      simp only [write_at, read_over, List.foldl_cons, Nat.succ_sub_succ, Nat.zero_add]
      congr 1
      · omega
      · congr 1; omega
    · simp only [List.flatten_cons, List.length_append, List.length_cons, List.length_nil,
        List.cons_append, List.nil_append] at hi ⊢
      have step : lex_string_literal_from token (f + 1) buf i lx
            ⟨BACKSLASH :: e :: (its.flatten ++ more), p⟩ =
          lex_string_literal_from token f ((buf.set i BACKSLASH).set (i + 1) e) (i + 2)
            (bump e (bump BACKSLASH lx)) ⟨its.flatten ++ more, p + 1 + 1⟩ := by
        have b0 : BACKSLASH ≠ EOFBYTE := by decide
        rw [lex_string_literal_from, next_char_cons _ _ _ _ b0]
        simp only []
        rw [lex_string_literal_loop]
        have b1 : BACKSLASH ≠ NUL := by decide
        have b2 : BACKSLASH ≠ DQUOTE := by decide
        simp only [ne_eq, b1, not_false_eq_true, if_true, b2, and_false, if_false,
          show i < 2048 by omega, not_true_eq_false, next_char_cons _ _ _ _ e1,
          show i + 1 < 2048 by omega]
        rfl
      rw [step, ih f _ (i + 2) _ more (p + 1 + 1) hits hf1 (by omega)]
      simp only [write_at, read_over, List.foldl_cons, Nat.succ_sub_succ, Nat.zero_add]
      congr 1
      · omega
      · congr 1; omega

/-- The loop of `lex_string_literal` at the closing double quote. -/
theorem lex_string_literal_from_quote (token : Token) (fuel : Nat) (buf : List Char) (i : Nat)
    (lx : Lexer) (rest : List Char) (p : Nat) (hf : 0 < fuel) (hi0 : 0 < i)
    (hi : i < buf.length) (hb : buf.length = 2048) :
    lex_string_literal_from token fuel buf i lx ⟨DQUOTE :: rest, p⟩ =
      .returned true
        (push_back (bump DQUOTE lx) { token with text := buf.take i ++ [DQUOTE] })
        ⟨rest, p + 1⟩ := by
  obtain ⟨f, rfl⟩ : ∃ f, fuel = f + 1 := ⟨fuel - 1, by omega⟩
  have b0 : DQUOTE ≠ EOFBYTE := by decide
  rw [lex_string_literal_from, next_char_cons _ _ _ _ b0]
  simp only []
  rw [lex_string_literal_loop]
  have b1 : DQUOTE ≠ NUL := by decide
  simp only [ne_eq, b1, not_false_eq_true, if_true, show i < 2048 by omega,
    not_true_eq_false, if_false, hi0, and_self, make_token_text, gt_iff_lt,
    Nat.zero_lt_succ, List.length_set, show ¬ (buf.length < i + 1) by omega,
    take_set_succ _ _ _ hi]

/-- The scanner `lex_string_literal` after the opening double quote. -/
theorem lex_string_literal_open (u : Unspec) (lx : Lexer) (s : List Char) (p : Nat) :
    lex_string_literal u lx ⟨DQUOTE :: s, p⟩ =
      lex_string_literal_from (token_at lx p TOKEN_STRING_LITERAL []) (s.length + 1)
        ((uninitialised u 2048).set 0 DQUOTE) 1 (bump DQUOTE lx) ⟨s, p + 1⟩ := by
  have b0 : DQUOTE ≠ EOFBYTE := by decide
  rw [lex_string_literal, next_char_cons _ _ _ _ b0]
  simp only []
  rw [lex_string_literal_loop]
  have b1 : DQUOTE ≠ NUL := by decide
  have b2 : DQUOTE ≠ BACKSLASH := by decide
  simp only [ne_eq, b1, not_false_eq_true, if_true, show (0 : Nat) < 2048 by omega,
    not_true_eq_false, if_false, Nat.lt_irrefl, false_and, b2]
  rfl

/-- The scanner `lex_string_literal` on a literal without the byte 0xFF: a double
quote, body elements that are each a character other than double quote, backslash,
NUL and the byte 0xFF or a backslash followed by one character other than the byte
0xFF, and a closing double quote, at most 2048 characters in all. It returns `true`,
appends exactly one token of kind `TOKEN_STRING_LITERAL` whose text is the whole
literal, and leaves the stream right behind the literal. The text is the bytes
`make_token_text` copies. -/
theorem lex_string_literal_well_formed (u : Unspec) (lx : Lexer)
    (items : List (List Char)) (rest : List Char) (pos : Nat)
    (hitems : ∀ it ∈ items, body_item it = true)
    (hlen : (string_literal items).length ≤ 2048) :
    lex_string_literal u lx ⟨string_literal items ++ rest, pos⟩ =
      .returned true
        (push_back (read_over lx (string_literal items))
          (token_at lx pos TOKEN_STRING_LITERAL (string_literal items)))
        ⟨rest, pos + (string_literal items).length⟩ ∧
    (lex_string_literal u lx ⟨string_literal items ++ rest, pos⟩).lexer.tokens =
      lx.tokens ++ [token_at lx pos TOKEN_STRING_LITERAL (string_literal items)] := by
  have hj := length_le_flatten items hitems
  simp only [string_literal, List.length_cons, List.length_append, List.length_nil] at hlen
  have main : lex_string_literal u lx ⟨string_literal items ++ rest, pos⟩ =
      .returned true
        (push_back (read_over lx (string_literal items))
          (token_at lx pos TOKEN_STRING_LITERAL (string_literal items)))
        ⟨rest, pos + (string_literal items).length⟩ := by
    have hb : ((uninitialised u 2048).set 0 DQUOTE).length = 2048 := by
      rw [List.length_set, length_uninitialised]
    have e0 : string_literal items ++ rest = DQUOTE :: (items.flatten ++ DQUOTE :: rest) := by
      simp [string_literal]
    rw [e0, lex_string_literal_open,
      lex_string_literal_from_items _ items _ _ 1 _ (DQUOTE :: rest) (pos + 1) hitems
        (by simp only [List.length_append, List.length_cons]; omega) (by omega),
      lex_string_literal_from_quote _ _ _ _ _ rest _
        (by simp only [List.length_append, List.length_cons]; omega) (by omega)
        (by rw [length_write_at, hb]; omega) (by rw [length_write_at, hb]),
      take_write_at _ _ _ (by rw [hb]; omega),
      take_set_succ _ _ _ (by rw [length_uninitialised]; omega)]
    simp only [string_literal, List.take_zero, List.nil_append, List.length_cons,
      List.length_append, List.length_nil, read_over, List.foldl_cons, List.foldl_append,
      List.foldl_nil, token_at, List.singleton_append, List.cons_append]
    rw [show pos + 1 + items.flatten.length + 1 = pos + (items.flatten.length + (0 + 1) + 1)
      by omega]
  refine ⟨main, ?_⟩
  rw [main]
  show (push_back _ _).tokens = _
  simp only [push_back]
  have := read_over_tokens (string_literal items) lx
  simp [this]

set_option maxRecDepth 100000 in
/-- C11, evaluated on two literals that hold the byte 0xFF. On a double quote, `a`,
the byte 0xFF, `b` and a double quote, `next_char` takes the byte for the end of the
stream, the loop of `lex_string_literal` ends, and a token is appended whose text is
the two characters read and the uninitialised `buf[2]`; `b` and the closing quote
are left unread. On a double quote, a backslash, the byte 0xFF and a double quote the
scanner stores the sentinel for the byte: the text has a NUL where the literal has
0xFF. -/
theorem lex_string_literal_cut_at_eof_byte (u : Unspec) :
    lex_string_literal u Lexer.new (fopen [DQUOTE, 'a', EOFBYTE, 'b', DQUOTE]) =
      .returned true
        (after_token Lexer.new 2
          (token_at Lexer.new 0 TOKEN_STRING_LITERAL [DQUOTE, 'a', u.stack 2]))
        ⟨['b', DQUOTE], 3⟩ ∧
    lex_string_literal u Lexer.new (fopen [DQUOTE, BACKSLASH, EOFBYTE, DQUOTE]) =
      .returned true
        (after_token Lexer.new 3
          (token_at Lexer.new 0 TOKEN_STRING_LITERAL [DQUOTE, BACKSLASH, NUL, DQUOTE]))
        ⟨[], 4⟩ :=
  ⟨rfl, rfl⟩

/-! ## The arrays of the literal scanners: C19 -/

theorem flatten_replicate_singleton (n : Nat) (c : Char) :
    (List.replicate n [c]).flatten = List.replicate n c := by
  induction n with
  | zero => rfl
  | succ n ih => rw [List.replicate_succ, List.flatten_cons, ih]; rfl

/-- The loop of `lex_string_literal` at a backslash that is stored at the last index:
the statements `i++; buf[i] = next_char(fp);` write behind the array. -/
theorem lex_string_literal_from_escape_last (token : Token) (fuel : Nat) (buf : List Char)
    (lx : Lexer) (e : Char) (rest : List Char) (p : Nat) (hf : 0 < fuel)
    (he : e ≠ EOFBYTE) :
    lex_string_literal_from token fuel buf 2047 lx ⟨BACKSLASH :: e :: rest, p⟩ =
      .stopped .out_of_bounds (bump e (bump BACKSLASH lx)) ⟨rest, p + 1 + 1⟩ := by
  obtain ⟨f, rfl⟩ : ∃ f, fuel = f + 1 := ⟨fuel - 1, by omega⟩
  have b0 : BACKSLASH ≠ EOFBYTE := by decide
  rw [lex_string_literal_from, next_char_cons _ _ _ _ b0]
  simp only []
  rw [lex_string_literal_loop]
  have b1 : BACKSLASH ≠ NUL := by decide
  have b2 : BACKSLASH ≠ DQUOTE := by decide
  simp only [ne_eq, b1, not_false_eq_true, if_true, b2, and_false, if_false,
    show (2047 : Nat) < 2048 by omega, not_true_eq_false, next_char_cons _ _ _ _ he,
    show ¬ (2047 + 1 < 2048) by omega]

/-- C19, evaluated on three inputs. After a quote followed by `abc`, and after a quote
followed by `a` and the end of the stream, the `for` loop of `lex_char_literal` ends
with `i == 4` and the test after it reads `buf[4]` of `char buf[4]`. After a double
quote, 2046 letters `a` and a backslash, `lex_string_literal` stores the backslash
at index 2047 and the character after it at index 2048 of `char buf[2048]`. -/
theorem literal_scanners_leave_their_arrays (u : Unspec) (lx : Lexer) (rest : List Char)
    (pos : Nat) :
    lex_char_literal u lx ⟨QUOTE :: 'a' :: 'b' :: 'c' :: rest, pos⟩ =
      .stopped .out_of_bounds (advance lx 4) ⟨rest, pos + 4⟩ ∧
    lex_char_literal u lx ⟨[QUOTE, 'a'], pos⟩ =
      .stopped .out_of_bounds (advance lx 2) ⟨[], pos + 2⟩ ∧
    lex_string_literal u lx ⟨DQUOTE :: (List.replicate 2046 'a' ++ BACKSLASH :: 'x' :: rest), pos⟩ =
      .stopped .out_of_bounds
        (read_over lx (DQUOTE :: (List.replicate 2046 'a' ++ [BACKSLASH, 'x'])))
        ⟨rest, pos + 2049⟩ := by
  refine ⟨rfl, rfl, ?_⟩
  have hit : ∀ it ∈ List.replicate 2046 ['a'], body_item it = true := by
    intro it h
    rw [List.eq_of_mem_replicate h]
    rfl
  have hl : (List.replicate 2046 'a').length = 2046 := List.length_replicate _ _
  rw [lex_string_literal_open, ← flatten_replicate_singleton,
    lex_string_literal_from_items _ _ _ _ 1 _ _ (pos + 1) hit
      (by simp only [List.length_append, List.length_cons, List.length_replicate,
            flatten_replicate_singleton]; omega)
      (by rw [flatten_replicate_singleton, hl]; omega)]
  rw [flatten_replicate_singleton, hl]
  rw [lex_string_literal_from_escape_last _ _ _ _ _ _ _
      (by simp only [List.length_append, List.length_cons, List.length_replicate]; omega)
      (by decide)]
  simp only [read_over, List.foldl_cons, List.foldl_append, List.foldl_nil]

/-! ## The text of integer literals: C18 -/

theorem integer_text_of_prefix {text : List Char} {is_hex : Bool}
    (h : NumberPrefix text is_hex) (hne : text ≠ []) : integer_text text = true := by
  rcases h with ⟨_, h⟩ | ⟨x, ds, rfl, hx, hds⟩
  · cases text with
    | nil => exact absurd rfl hne
    | cons a as =>
      simp only [integer_text, List.isEmpty_cons, Bool.not_false, Bool.true_and,
        Bool.or_eq_true]
      exact Or.inl h
  · simp only [integer_text, Bool.or_eq_true, Bool.and_eq_true, beq_iff_eq]
    right
    exact ⟨⟨trivial, hx⟩, hds⟩

theorem addsNumber_lex_number_end (lx0 : Lexer) (token : Token) (buf : List Char) (i : Nat)
    (is_hex hdp : Bool) (lx : Lexer) (fp : FILE) (hl : lx.tokens = lx0.tokens)
    (hp : hdp = false → NumberPrefix (buf.take i) is_hex) :
    (lex_number_end token buf i hdp lx fp).AddsNumber lx0 := by
  unfold lex_number_end make_token_text
  by_cases h1 : i > 0
  · by_cases h2 : buf.length < i
    · simp only [h1, not_true_eq_false, if_false, h2, if_true]
      exact Or.inl hl
    · simp only [h1, not_true_eq_false, if_false, h2]
      right
      refine ⟨_, by show (push_back _ _).tokens = _; rw [push_back, hl], ?_⟩
      intro ht
      cases hdp with
      | true =>
        have ht2 : TOKEN_FLOAT_LITERAL = TOKEN_INTEGER_LITERAL := ht
        exact absurd ht2 (by decide)
      | false =>
        refine integer_text_of_prefix (hp rfl) ?_
        intro e
        have := congrArg List.length e
        rw [List.length_take] at this
        simp only [List.length_nil] at this
        omega
  · simp only [h1, not_false_eq_true, if_true]
    exact Or.inl hl

theorem isdigit_of_isxdigit {c : Char} (h : isxdigit c = true) (h1 : hex_letter c = false) :
    isdigit c = true := by
  simp only [isxdigit, Bool.or_eq_true, decide_eq_true_eq] at h
  simp only [hex_letter, decide_eq_false_iff_not] at h1
  rcases h with h | h
  · exact h
  · exact absurd (by omega) h1

/-- The invariant of the loop of `lex_number` after one more character was stored. -/
theorem numberPrefix_step {buf : List Char} {i : Nat} {is_hex : Bool} {cur : Char}
    (hb : buf.length = 256) (hi : i < 256) (hp : NumberPrefix (buf.take i) is_hex)
    (hnum : isxdigit cur = true ∨ cur = '.' ∨ cur = 'x' ∨ cur = 'X') (hdot : cur ≠ '.')
    (hx : (cur = 'x' ∨ cur = 'X') → i = 1 ∧ buf.getD 0 NUL = '0')
    (hh : hex_letter cur = true → is_hex = true) :
    NumberPrefix ((buf.set i cur).take (i + 1)) (is_hex || decide (cur = 'x' ∨ cur = 'X')) := by
  rw [take_set_succ _ _ _ (by omega)]
  by_cases hxc : cur = 'x' ∨ cur = 'X'
  · obtain ⟨rfl, h0⟩ := hx hxc
    right
    refine ⟨cur, [], ?_, hxc, rfl⟩
    cases buf with
    | nil => simp at hb
    | cons b bs =>
      simp only [List.getD_cons_zero] at h0
      simp [h0]
  · have hxd : isxdigit cur = true := by
      rcases hnum with h | h | h | h
      · exact h
      · exact absurd h hdot
      · exact absurd (Or.inl h) hxc
      · exact absurd (Or.inr h) hxc
    simp only [hxc, decide_False, Bool.or_false]
    rcases hp with ⟨h1, h2⟩ | ⟨x, ds, e, hx1, hds⟩
    · left
      refine ⟨h1, ?_⟩
      have hnh : hex_letter cur = false := by
        cases hq : hex_letter cur with
        | false => rfl
        | true => rw [hh hq] at h1; exact absurd h1 (by decide)
      simp only [List.all_append, h2, List.all_cons, isdigit_of_isxdigit hxd hnh,
        List.all_nil, Bool.and_self]
    · right
      refine ⟨x, ds ++ [cur], by rw [e]; rfl, hx1, ?_⟩
      simp only [List.all_append, hds, List.all_cons, hxd, List.all_nil, Bool.and_self]

set_option maxHeartbeats 1600000 in
/-- The loop of `lex_number` appends at most one token, and an integer literal only
with a well-formed text. -/
theorem addsNumber_lex_number_loop (lx0 : Lexer) (token : Token) (fuel : Nat) :
    ∀ (cur : Char) (buf : List Char) (i : Nat) (is_hex hdp : Bool) (lx : Lexer) (fp : FILE),
      lx.tokens = lx0.tokens → buf.length = 256 →
      (hdp = false → NumberPrefix (buf.take i) is_hex) →
      (lex_number_loop token fuel cur buf i is_hex hdp lx fp).AddsNumber lx0 := by
  induction fuel with
  | zero =>
    intro cur buf i is_hex hdp lx fp hl _ _
    exact Or.inl hl
  | succ f ih =>
    intro cur buf i is_hex hdp lx fp hl hb hp
    rw [lex_number_loop]
    by_cases hc : cur = NUL
    · rw [if_neg (by simp [hc])]
      exact addsNumber_lex_number_end lx0 token buf i is_hex hdp lx fp hl hp
    · rw [if_pos hc]
      by_cases hi : i < 256
      · rw [if_neg (by simp [hi])]
        by_cases hnum : isxdigit cur = true ∨ cur = '.' ∨ cur = 'x' ∨ cur = 'X'
        · rw [if_neg (by simp only [not_not]; exact hnum)]
          rcases e : next_char lx fp with ⟨c1, lx2, fp2⟩
          have hl2 : lx2.tokens = lx0.tokens := (tokens_of_next_char e).trans hl
          dsimp only
          by_cases g1 : cur = '.' ∧ hdp = true
          · rw [if_pos g1]; exact Or.inl hl2
          · rw [if_neg g1]
            by_cases g2 : (cur = 'x' ∨ cur = 'X') ∧ (hdp || decide (cur = '.')) = true
            · rw [if_pos g2]; exact Or.inl hl2
            · rw [if_neg g2]
              by_cases g3 : (cur = 'x' ∨ cur = 'X') ∧ (i ≠ 1 ∨ buf.getD 0 NUL ≠ '0')
              · rw [if_pos g3]; exact Or.inl hl2
              · rw [if_neg g3]
                by_cases g4 : hex_letter cur = true ∧ (hdp || decide (cur = '.')) = true ∧
                    ¬ (cur = 'f' ∨ cur = 'F')
                · rw [if_pos g4]; exact Or.inl hl2
                · rw [if_neg g4]
                  by_cases g5 : hex_letter cur = true ∧ ¬ (hdp || decide (cur = '.')) = true ∧
                      ¬ (is_hex || decide (cur = 'x' ∨ cur = 'X')) = true
                  · rw [if_pos g5]; exact Or.inl hl2
                  · rw [if_neg g5]
                    rcases e2 : peek_char lx2 fp2 with ⟨c2, lx3, fp3⟩
                    dsimp only
                    refine ih _ _ _ _ _ _ _ ((tokens_of_peek_char e2).trans hl2)
                      (by rw [List.length_set]; exact hb) ?_
                    intro hd
                    simp only [Bool.or_eq_false_iff, decide_eq_false_iff_not] at hd
                    obtain ⟨hd1, hd2⟩ := hd
                    refine numberPrefix_step hb hi (hp hd1) hnum hd2 ?_ ?_
                    · intro hx
                      by_contra hcon
                      apply g3
                      refine ⟨hx, ?_⟩
                      by_cases q : i = 1
                      · right
                        intro q2
                        exact hcon ⟨q, q2⟩
                      · exact Or.inl q
                    · intro hh
                      by_contra hcon
                      have hxc : ¬ (cur = 'x' ∨ cur = 'X') := by
                        intro hx
                        rcases hx with hx | hx <;> rw [hx] at hh <;> exact absurd hh (by decide)
                      apply g5
                      refine ⟨hh, ?_, ?_⟩
                      · simp [hd1, hd2]
                      · simp only [hxc, decide_False, Bool.or_false]
                        exact hcon
        · rw [if_pos hnum]
          exact addsNumber_lex_number_end lx0 token buf i is_hex hdp lx fp hl hp
      · rw [if_pos hi]
        exact Or.inl hl

/-- C18: `lex_number` leaves the token list as it was or appends exactly one token,
and when the appended token has kind `TOKEN_INTEGER_LITERAL` its text is a non-empty
run of decimal digits, or `0x` or `0X` followed by zero or more hexadecimal digits
(so `x` or `X` stands only at index 1 behind a `0`, and the letters `a` to `f` and
`A` to `F` only behind that). This holds for every lexer state and every stream. -/
theorem lex_number_integer_text (lx : Lexer) (fp : FILE) :
    (lex_number lx fp).lexer.tokens = lx.tokens ∨
      ∃ t, (lex_number lx fp).lexer.tokens = lx.tokens ++ [t] ∧
        (t.type = TOKEN_INTEGER_LITERAL → integer_text t.text = true) := by
  unfold lex_number
  rcases e : peek_char lx fp with ⟨c, lx1, fp1⟩
  dsimp only
  exact addsNumber_lex_number_loop lx _ _ _ _ _ _ _ _ _ (tokens_of_peek_char e)
    (List.length_replicate _ _) (fun _ => Or.inl ⟨rfl, rfl⟩)

/-! ## Termination: C20 -/

/-- The driver loop does not depend on the fuel once the fuel exceeds the number of
unread characters: the loop of the source needs no more iterations than that. -/
theorem lex_file_loop_fuel (u : Unspec) (f1 : Nat) :
    ∀ (f2 : Nat) (lx : Lexer) (fp : FILE), fp.rest.length < f1 → fp.rest.length < f2 →
      lex_file_loop u f1 lx fp = lex_file_loop u f2 lx fp := by
  induction f1 with
  | zero => intro f2 lx fp h; omega
  | succ f ih =>
    intro f2 lx fp hf hf2
    obtain ⟨g, rfl⟩ : ∃ g, f2 = g + 1 := ⟨f2 - 1, by omega⟩
    rw [lex_file_loop, lex_file_loop]
    rcases e2 : peek_char lx fp with ⟨c2, lx2, fp2⟩
    have l2 := length_of_peek_char e2
    dsimp only
    obtain ⟨cur, lx3, fp3, k1, k2, k3⟩ := skip_space_some (fp2.rest.length + 1) c2 lx2 fp2
      (peek_char_head e2) (Nat.lt_succ_self _)
    rw [k1]
    dsimp only
    by_cases hc : cur = NUL
    · simp only [hc, if_true]
    · simp only [hc, if_false]
      obtain ⟨s3, p3⟩ := fp3
      cases s3 with
      | nil => exact absurd (k3 hc) (by simp)
      | cons a cs =>
        have ha : a = cur := by
          have := k3 hc
          simpa using this
        subst ha
        simp only [List.length_cons] at k2
        have hr : Outcome.Within cs.length
            (if isalpha a = true then lex_identifier u lx3 ⟨a :: cs, p3⟩
             else if isdigit a = true then lex_number lx3 ⟨a :: cs, p3⟩
             else if a = QUOTE then lex_char_literal u lx3 ⟨a :: cs, p3⟩
             else if a = DQUOTE then lex_string_literal u lx3 ⟨a :: cs, p3⟩
             else lex_symbol u lx3 ⟨a :: cs, p3⟩) := by
          split_ifs with g1 g2
          · exact within_lex_identifier u lx3 a cs p3 g1
          · exact within_lex_number lx3 a cs p3 g2
          · exact within_lex_char_literal u lx3 a cs p3
          · exact within_lex_string_literal u lx3 a cs p3
          · exact within_lex_symbol u lx3 a cs p3
        revert hr
        generalize (if isalpha a = true then lex_identifier u lx3 ⟨a :: cs, p3⟩
             else if isdigit a = true then lex_number lx3 ⟨a :: cs, p3⟩
             else if a = QUOTE then lex_char_literal u lx3 ⟨a :: cs, p3⟩
             else if a = DQUOTE then lex_string_literal u lx3 ⟨a :: cs, p3⟩
             else lex_symbol u lx3 ⟨a :: cs, p3⟩) = r
        intro hr
        cases r with
        | returned b lx4 fp4 =>
          cases b with
          | true =>
            have : fp4.rest.length ≤ cs.length := hr.2
            exact ih g lx4 fp4 (by omega) (by omega)
          | false => rfl
        | stopped e lx4 fp4 => rfl

/-- C20: `lex_file` ends on every input. With as many iterations of the driver loop
as the input has characters, and one more for the exit at the end of the stream, the
run is complete, and more iterations change nothing. Every scanner the driver
dispatches to on a stream `c :: cs` ends and leaves at most `cs` unread, so it reads
at least one character; this includes `lex_symbol` on a line comment. And
`discard_line` ends, at the end of the stream at the latest. -/
theorem lex_file_terminates (u : Unspec) (lx : Lexer) (filename : String) (inp : List Char)
    (k : Nat) (c : Char) (cs : List Char) (p : Nat) (fp : FILE) :
    (lex_file u lx filename inp).complete = true ∧
    lex_file_loop u (inp.length + 1 + k) { lx with current_filename := filename } (fopen inp) =
      lex_file u lx filename inp ∧
    Outcome.Within cs.length
      (if isalpha c = true then lex_identifier u lx ⟨c :: cs, p⟩
       else if isdigit c = true then lex_number lx ⟨c :: cs, p⟩
       else if c = QUOTE then lex_char_literal u lx ⟨c :: cs, p⟩
       else if c = DQUOTE then lex_string_literal u lx ⟨c :: cs, p⟩
       else lex_symbol u lx ⟨c :: cs, p⟩) ∧
    (∃ lx1 fp1, discard_line lx fp = some (lx1, fp1) ∧
      fp1.rest.length ≤ fp.rest.length) := by
  refine ⟨?_, ?_, ?_, ?_⟩
  · unfold lex_file
    exact lex_file_loop_complete u _ _ _ (Nat.lt_succ_self _)
  · unfold lex_file
    exact lex_file_loop_fuel u _ _ _ _ (by show inp.length < _; omega)
      (by show inp.length < _; omega)
  · split_ifs with g1 g2
    · exact within_lex_identifier u lx c cs p g1
    · exact within_lex_number lx c cs p g2
    · exact within_lex_char_literal u lx c cs p
    · exact within_lex_string_literal u lx c cs p
    · exact within_lex_symbol u lx c cs p
  · exact discard_line_loop_some _ _ lx fp (Nat.lt_succ_self _)

/-! ## Line comments: C14 -/

/-- One iteration of the driver loop on a stream that starts with a decimal digit. -/
theorem lex_file_loop_digit (u : Unspec) (fuel : Nat) (lx : Lexer) (c : Char) (cs : List Char)
    (p : Nat) (hc : isdigit c = true) :
    lex_file_loop u (fuel + 1) lx ⟨c :: cs, p⟩ =
      match lex_number lx ⟨c :: cs, p⟩ with
      | .returned true lx fp => lex_file_loop u fuel lx fp
      | .returned false lx fp => .returned false lx fp
      | .stopped e lx fp => .stopped e lx fp := by
  have h0 : c ≠ NUL := isdigit_ne hc (by decide)
  have h1 : isspace c = false := by
    simp only [isdigit, decide_eq_true_eq] at hc
    simp only [isspace, decide_eq_false_iff_not]
    omega
  have h2 : isalpha c = false := by
    simp only [isdigit, decide_eq_true_eq] at hc
    simp only [isalpha, decide_eq_false_iff_not]
    omega
  rw [lex_file_loop, peek_char_cons _ _ _ _ h0 (isdigit_ne hc (by decide))]
  dsimp only
  rw [skip_space]
  simp only [ne_eq, h0, not_false_eq_true, h1, Bool.false_eq_true, and_false, if_false, h2,
    hc, if_true]

theorem ones_cons : ones = '1' :: List.replicate 255 '1' := rfl

theorem isdigit_ones : ∀ x ∈ ones, isdigit x = true := by
  intro x h
  rw [List.eq_of_mem_replicate h]
  rfl

theorem takeWhile_replicate_ones (n : Nat) (rest : List Char) :
    (List.replicate n '1' ++ NUL :: rest).takeWhile is_numeric = List.replicate n '1' ∧
    (List.replicate n '1' ++ NUL :: rest).dropWhile is_numeric = NUL :: rest := by
  induction n with
  | zero => exact ⟨rfl, rfl⟩
  | succ n ih =>
    have h : is_numeric '1' = true := by decide
    rw [List.replicate_succ, List.cons_append, List.takeWhile_cons_of_pos h,
      List.dropWhile_cons_of_pos h, ih.1, ih.2]
    exact ⟨rfl, rfl⟩

/-- The scanner `lex_number` on 256 digits followed by a NUL byte: the literal is
accepted and the NUL byte is read. -/
theorem lex_number_ones_nul (lx : Lexer) (rest : List Char) (p : Nat) :
    lex_number lx ⟨ones ++ NUL :: rest, p⟩ =
      .returned true
        (push_back (bump NUL (advance lx 256)) (token_at lx p TOKEN_INTEGER_LITERAL ones))
        ⟨rest, p + 256 + 1⟩ := by
  obtain ⟨lx1, fp1, h⟩ := lex_number_digits_ok lx p ones (NUL :: rest) isdigit_ones
    (by intro d hd
        simp only [List.head?_cons, Option.some.injEq] at hd
        rw [← hd]; decide)
    (by rw [ones, List.length_replicate]; omega)
    (Or.inr ⟨by rw [ones, List.length_replicate], rfl⟩)
  obtain ⟨e1, e2⟩ := lex_number_true lx _ p lx1 fp1 h
  have hn : ('.' ∈ List.replicate 256 '1') = False := by
    apply eq_false
    intro hm
    have := List.eq_of_mem_replicate hm
    exact absurd this (by decide)
  rw [ones] at e1 e2
  rw [(takeWhile_replicate_ones 256 rest).1, (takeWhile_replicate_ones 256 rest).2,
    peek_char_nul, List.length_replicate] at e1 e2
  rw [h, e1, e2]
  simp only [hn, decide_False, number_kind, Bool.false_eq_true, if_false]
  rfl

set_option maxRecDepth 100000 in
/-- The driver on the unterminated literal of a double quote and `ab`, and on the same
followed by `x`: one token, with one uninitialised byte at the end of its text. -/
theorem lex_file_unterminated (u : Unspec) :
    lex_file u Lexer.new "f" [DQUOTE, 'a', 'b'] =
      .returned true
        (after_token { Lexer.new with current_filename := "f" } 3
          (token_at { Lexer.new with current_filename := "f" } 0 TOKEN_STRING_LITERAL
            [DQUOTE, 'a', 'b', u.stack 3]))
        ⟨[], 3⟩ ∧
    lex_file u Lexer.new "f" [DQUOTE, 'a', 'b', 'x'] =
      .returned true
        (after_token { Lexer.new with current_filename := "f" } 4
          (token_at { Lexer.new with current_filename := "f" } 0 TOKEN_STRING_LITERAL
            [DQUOTE, 'a', 'b', 'x', u.stack 4]))
        ⟨[], 4⟩ :=
  ⟨rfl, rfl⟩

/-- C16, evaluated on two inputs without a comment. On 256 digits `1`, a NUL byte and
`b`, `lex_file` returns `true` with the integer literal of the 256 digits and the
identifier `b`; on their texts joined by a space it returns `false`, because 256
digits with a character behind them exceed the limit of `lex_number`. On the
unterminated literal of a double quote and `ab`, with uninitialised bytes read as
`x`, `lex_file` returns `true` with a text of four bytes, and lexing that text gives
a text of five bytes. -/
theorem lex_file_round_trip_fails (u : Unspec) :
    ((lex_file u Lexer.new "f" (ones ++ [NUL, 'b'])).result = some true ∧
     kinds_and_texts (lex_file u Lexer.new "f" (ones ++ [NUL, 'b'])).lexer.tokens =
       [(TOKEN_INTEGER_LITERAL, ones), (TOKEN_IDENT, ['b'])] ∧
     joined_texts (lex_file u Lexer.new "f" (ones ++ [NUL, 'b'])).lexer.tokens =
       ones ++ [' ', 'b'] ∧
     (lex_file u Lexer.new "f"
       (joined_texts (lex_file u Lexer.new "f" (ones ++ [NUL, 'b'])).lexer.tokens)).result =
       some false) ∧
    ((lex_file some_unspec Lexer.new "f" [DQUOTE, 'a', 'b']).result = some true ∧
     kinds_and_texts (lex_file some_unspec Lexer.new "f" [DQUOTE, 'a', 'b']).lexer.tokens =
       [(TOKEN_STRING_LITERAL, [DQUOTE, 'a', 'b', 'x'])] ∧
     joined_texts (lex_file some_unspec Lexer.new "f" [DQUOTE, 'a', 'b']).lexer.tokens =
       [DQUOTE, 'a', 'b', 'x'] ∧
     kinds_and_texts (lex_file some_unspec Lexer.new "f"
       (joined_texts (lex_file some_unspec Lexer.new "f" [DQUOTE, 'a', 'b']).lexer.tokens)).lexer.tokens =
       [(TOKEN_STRING_LITERAL, [DQUOTE, 'a', 'b', 'x', 'x'])]) := by
  have first : lex_file u Lexer.new "f" (ones ++ [NUL, 'b']) =
      lex_file_loop u 2
        (push_back (bump NUL (advance { Lexer.new with current_filename := "f" } 256))
          (token_at { Lexer.new with current_filename := "f" } 0 TOKEN_INTEGER_LITERAL ones))
        ⟨['b'], 0 + 256 + 1⟩ := by
    unfold lex_file fopen
    have e : ones ++ [NUL, 'b'] = '1' :: (List.replicate 255 '1' ++ [NUL, 'b']) := by
      rw [ones_cons]; rfl
    have hlen : (ones ++ [NUL, 'b']).length + 1 = 258 + 1 := by
      rw [List.length_append, ones, List.length_replicate]
      rfl
    rw [hlen]
    conv => lhs; rw [e]
    rw [lex_file_loop_digit u _ _ _ _ _ (by decide), ← e, lex_number_ones_nul]
    exact lex_file_loop_fuel u _ _ _ _ (by decide) (by decide)
  have second : (lex_file u Lexer.new "f" (ones ++ [' ', 'b'])).result = some false := by
    unfold lex_file fopen
    have e : ones ++ [' ', 'b'] = '1' :: (List.replicate 255 '1' ++ [' ', 'b']) := by
      rw [ones_cons]; rfl
    have hlen : (ones ++ [' ', 'b']).length + 1 = 258 + 1 := by
      rw [List.length_append, ones, List.length_replicate]
      rfl
    rw [hlen]
    conv => lhs; rw [e]
    rw [lex_file_loop_digit u _ _ _ _ _ (by decide), ← e]
    obtain ⟨lx1, fp1, h, _⟩ := lex_number_rejects_256_then_char
      { Lexer.new with current_filename := "f" } 0 ones ' ' ['b'] isdigit_ones (by decide)
      (by decide) (by rw [ones, List.length_replicate])
    rw [h]
    rfl
  have third : joined_texts (lex_file u Lexer.new "f" (ones ++ [NUL, 'b'])).lexer.tokens =
      ones ++ [' ', 'b'] := by
    rw [first]
    rfl
  obtain ⟨s1, s2⟩ := lex_file_unterminated some_unspec
  have s3 : joined_texts (lex_file some_unspec Lexer.new "f" [DQUOTE, 'a', 'b']).lexer.tokens =
      [DQUOTE, 'a', 'b', 'x'] := by
    rw [s1]; rfl
  refine ⟨⟨?_, ?_, third, ?_⟩, ⟨by rw [s1]; rfl, by rw [s1]; rfl, s3, by rw [s3, s2]; rfl⟩⟩
  · rw [first]; rfl
  · rw [first]; rfl
  · rw [third]; exact second

end CInterp
